import Mathlib

/-!
# blockchain7: a shallow embedding of the ledger core

The Go sources are embedded as pure functions.  A Go panic (log.Panic, an
out-of-range index, a nil dereference) is the value none of an Option.
Byte slices are lists of naturals, one per byte; a nil slice and an empty
slice are the same list, as they are after a gob round trip.  Go int and
int64 values are integers; sums of output values wrap at 64 bits.  The clock
(time.Now().Unix()) is an explicit argument of every function that reads it.
The functions of the Go standard library and of the other packages the
sources call (crypto/sha256, ripemd160, encoding/gob on a transaction, the
Base58 helpers, ecdsa) are the fields of one record of primitives that every
definition takes as an argument.

The bolt database is a record of three optional buckets; a bucket is the list
of its key-value pairs in cursor order and holds decoded values, so that
reading back a stored block or output list returns the value written.  Put
fails on the keys bolt rejects; the size limit on values and failures of the
file system are outside the model.  Where Go ranges over a map the model takes
the order of first insertion.
-/

set_option autoImplicit false

namespace Blockchain7

/-! ## Bytes and integers -/

/-- A byte slice; each element stands for one byte. -/
abbrev Bytes := List Nat

/-- The big-endian unsigned reading of a byte slice, as big.Int.SetBytes computes it. -/
def bytesToNat (bs : Bytes) : Nat :=
  bs.foldl (fun acc b => acc * 256 + b) 0

/-- Modelled from the spec: IntToHex, whose file is not among the sources; the spec gives it
as the big-endian encoding of a 64-bit integer on 8 bytes (two's complement for a negative
value, as binary.Write does for an int64). -/
def IntToHex (num : Int) : Bytes :=
  let u := (num % 18446744073709551616).toNat
  (List.range 8).map (fun i => u / 256 ^ (7 - i) % 256)

/-! ## Data model (block.go, transaction.go, transaction_input.go, transaction_output.go) -/

/-- TxInput of transaction_input.go. -/
structure TxInput where
  Txid : Bytes
  Vout : Int
  Signature : Bytes
  PubKey : Bytes
  deriving DecidableEq, Repr

/-- TxOutput of transaction_output.go. -/
structure TxOutput where
  Value : Int
  PubKeyHash : Bytes
  deriving DecidableEq, Repr

/-- Transaction of transaction.go. -/
structure Transaction where
  ID : Bytes
  Vin : List TxInput
  Vout : List TxOutput
  Timestamp : Int
  deriving DecidableEq, Repr

/-- Block of block.go. -/
structure Block where
  Timestamp : Int
  Transactions : List Transaction
  PrevBlockHash : Bytes
  Nonce : Int
  Hash : Bytes
  Height : Int
  deriving DecidableEq, Repr

/-- The library functions the sources call.  sha256 is sha256.Sum256, ripemd160 the RIPEMD-160
hasher, gobTx the gob encoding that Transaction.Serialize returns, base58Encode and
base58Decode the Base58 helpers, ecdsaVerify is ecdsa.Verify on P-256 applied to the public
point (x, y), the digest and the pair (r, s), and ecdsaSign is ecdsa.Sign applied to the private
scalar, the digest and the randomness drawn for that call. -/
structure Prims where
  sha256 : Bytes → Bytes
  ripemd160 : Bytes → Bytes
  gobTx : Transaction → Bytes
  base58Encode : Bytes → Bytes
  base58Decode : Bytes → Bytes
  ecdsaVerify : Nat → Nat → Bytes → Nat → Nat → Bool
  ecdsaSign : Nat → Bytes → Nat → Nat × Nat

/-! ## Merkle tree (merkle_tree.go) -/

/-- MerkleNode of merkle_tree.go; a nil child pointer is none. -/
inductive MerkleNode where
  | mk (Left : Option MerkleNode) (Right : Option MerkleNode) (Data : Bytes)

/-- The Data field of a node. -/
def MerkleNode.Data : MerkleNode → Bytes
  | .mk _ _ d => d

/-- MerkleTree of merkle_tree.go. -/
structure MerkleTree where
  RootNode : MerkleNode

/-- NewMerkleNode: a leaf hashes its datum, an inner node hashes the concatenation of its
children's data; with exactly one nil child the dereference panics. -/
def NewMerkleNode (P : Prims) (left right : Option MerkleNode) (data : Bytes) :
    Option MerkleNode :=
  match left, right with
  | none, none => some (.mk none none (P.sha256 data))
  | some l, some r => some (.mk (some l) (some r) (P.sha256 (l.Data ++ r.Data)))
  | _, _ => none

/-- The inner loop of NewMerkleTree: j runs over the even positions and pairs nodes[j] with
nodes[j+1]; on a level of odd length the last index is out of range. -/
def pairLevel (P : Prims) : List MerkleNode → Option (List MerkleNode)
  | [] => some []
  | [_] => none
  | l :: r :: rest =>
    match NewMerkleNode P (some l) (some r) [] with
    | none => none
    | some n =>
      match pairLevel P rest with
      | none => none
      | some t => some (n :: t)

/-- The outer loop of NewMerkleTree, run a fixed number of times. -/
def levelLoop (P : Prims) : Nat → List MerkleNode → Option (List MerkleNode)
  | 0, nodes => some nodes
  | k + 1, nodes =>
    match pairLevel P nodes with
    | none => none
    | some newLevel => levelLoop P k newLevel

/-- The leaves of NewMerkleTree, one NewMerkleNode(nil, nil, datum) per datum. -/
def leafNodes (P : Prims) : List Bytes → Option (List MerkleNode)
  | [] => some []
  | d :: ds =>
    match NewMerkleNode P none none d with
    | none => none
    | some n =>
      match leafNodes P ds with
      | none => none
      | some t => some (n :: t)

/-- NewMerkleTree: pad an odd input with its last element, build the leaves, run the level
loop len(data)/2 times and take nodes[0]. -/
def NewMerkleTree (P : Prims) (data : List Bytes) : Option MerkleTree :=
  let data := if data.length % 2 ≠ 0 then data ++ data.getLast?.toList else data
  match leafNodes P data with
  | none => none
  | some nodes =>
    match levelLoop P (data.length / 2) nodes with
    | none => none
    | some top =>
      match top with
      | [] => none
      | root :: _ => some ⟨root⟩

/-! ### The reference Merkle root of the specification -/

/-- One reduction step of the reference: every parent is the hash of its two children; an
unpaired last node is paired with itself (the level is padded by duplicating it). -/
def refLevel (P : Prims) : List Bytes → List Bytes
  | [] => []
  | [a] => [P.sha256 (a ++ a)]
  | a :: b :: rest => P.sha256 (a ++ b) :: refLevel P rest

/-- Reduce a level until one node remains; the first argument bounds the number of
reductions (the length of the level is always enough). -/
def refReduce (P : Prims) : Nat → List Bytes → Option Bytes
  | _, [] => none
  | _, [a] => some a
  | 0, _ :: _ :: _ => none
  | k + 1, a :: b :: rest => refReduce P k (refLevel P (a :: b :: rest))

/-- The reference Merkle root of a sequence of byte strings, in the words of the
specification: the leaves are the hashes of the data, an odd level duplicates its last
node, each parent hashes left ‖ right, and one node remains at the end. -/
def refMerkleRoot (P : Prims) (data : List Bytes) : Option Bytes :=
  match data.map P.sha256 with
  | [] => none
  | [a] => some (P.sha256 (a ++ a))
  | leaves => refReduce P leaves.length leaves

/-! ## Proof of work (proofofwork.go) and block construction (block.go) -/

/-- The constant targetBits. -/
def targetBits : Nat := 24

/-- The variable maxNonce, math.MaxInt64. -/
def maxNonce : Int := 9223372036854775807

/-- ProofOfWork of proofofwork.go. -/
structure ProofOfWork where
  block : Block
  target : Nat

/-- NewProofOfWork: the target is 1 shifted left by 256 - targetBits. -/
def NewProofOfWork (b : Block) : ProofOfWork :=
  ⟨b, 1 <<< (256 - targetBits)⟩

/-- Block.HashTransactions: the root of the Merkle tree over the serialized transactions. -/
def HashTransactions (P : Prims) (b : Block) : Option Bytes :=
  match NewMerkleTree P (b.Transactions.map P.gobTx) with
  | none => none
  | some mTree => some mTree.RootNode.Data

/-- ProofOfWork.prepareData: the header that is hashed for a nonce. -/
def prepareData (P : Prims) (pow : ProofOfWork) (nonce : Int) : Option Bytes :=
  match HashTransactions P pow.block with
  | none => none
  | some root =>
    some (pow.block.PrevBlockHash ++ root ++ IntToHex pow.block.Timestamp
      ++ IntToHex (targetBits : Int) ++ IntToHex nonce)

/-- The loop of ProofOfWork.Run from a given nonce; hash is the value the variable holds on
entry.  The loop stops at the first nonce whose hash is below the target, or when the nonce
reaches maxNonce. -/
def runLoop (P : Prims) (pow : ProofOfWork) (nonce : Int) (hash : Bytes) :
    Option (Int × Bytes) :=
  if nonce < maxNonce then
    match prepareData P pow nonce with
    | none => none
    | some data =>
      let hash := P.sha256 data
      if bytesToNat hash < pow.target then some (nonce, hash)
      else runLoop P pow (nonce + 1) hash
  else some (nonce, hash)
termination_by (maxNonce - nonce).toNat
decreasing_by omega

/-- ProofOfWork.Run: the search starts at nonce 0 with the zero array. -/
def Run (P : Prims) (pow : ProofOfWork) : Option (Int × Bytes) :=
  runLoop P pow 0 (List.replicate 32 0)

/-- ProofOfWork.Validate: recompute the hash with the stored nonce and compare. -/
def Validate (P : Prims) (pow : ProofOfWork) : Option Bool :=
  match prepareData P pow pow.block.Nonce with
  | none => none
  | some data => some (decide (bytesToNat (P.sha256 data) < pow.target))

/-- NewBlock: build the candidate with the clock reading, search, store nonce and hash. -/
def NewBlock (P : Prims) (transactions : List Transaction) (prevBlockHash : Bytes)
    (height : Int) (now : Int) : Option Block :=
  let block : Block := ⟨now, transactions, prevBlockHash, 0, [], height⟩
  let pow := NewProofOfWork block
  match Run P pow with
  | none => none
  | some (nonce, hash) => some { block with Nonce := nonce, Hash := hash }

/-- NewGenesisBlock of block.go. -/
def NewGenesisBlock (P : Prims) (coinbase : Transaction) (now : Int) : Option Block :=
  NewBlock P [coinbase] [] 0 now

/-! ## Go maps keyed by the hex form of a byte string -/

/-- A Go map whose keys are hex.EncodeToString of byte strings; hex encoding is injective, so
the model keys the map by the bytes themselves.  The list holds one pair per key, in the
order of first insertion. -/
abbrev GoMap (V : Type) := List (Bytes × V)

/-- The map read m[k]: the stored value, or none where Go yields the zero value. -/
def GoMap.get {V : Type} (m : GoMap V) (k : Bytes) : Option V :=
  match m with
  | [] => none
  | (k1, v) :: rest => if k1 = k then some v else GoMap.get rest k

/-- The map write m[k] = v. -/
def GoMap.set {V : Type} (m : GoMap V) (k : Bytes) (v : V) : GoMap V :=
  match m with
  | [] => [(k, v)]
  | (k1, v1) :: rest => if k1 = k then (k, v) :: rest else (k1, v1) :: GoMap.set rest k v

/-- Indexing a slice with a Go int: none (a panic) when the index is out of range. -/
def indexInt {α : Type} (l : List α) (i : Int) : Option α :=
  if i < 0 then none else l[i.toNat]?

/-! ## Transactions (transaction.go) -/

/-- The constant subsidy. -/
def subsidy : Int := 10

/-- The zero value Transaction{}, which a map read yields for a missing key. -/
def zeroTransaction : Transaction := ⟨[], [], [], 0⟩

/-- Transaction.IsCoinbase. -/
def Transaction.IsCoinbase (tx : Transaction) : Bool :=
  match tx.Vin with
  | [vin] => decide (vin.Txid.length = 0) && decide (vin.Vout = -1)
  | _ => false

/-- Transaction.Hash: SHA-256 of the serialization of a copy whose ID is cleared. -/
def Transaction.Hash (P : Prims) (tx : Transaction) : Bytes :=
  P.sha256 (P.gobTx { tx with ID := [] })

/-- Transaction.TrimmedCopy: inputs without signature and public key, the outputs, the ID of
the original, and the clock reading as Timestamp. -/
def Transaction.TrimmedCopy (tx : Transaction) (now : Int) : Transaction :=
  let inputs := tx.Vin.map (fun vin => (⟨vin.Txid, vin.Vout, [], []⟩ : TxInput))
  let outputs := tx.Vout.map (fun vout => (⟨vout.Value, vout.PubKeyHash⟩ : TxOutput))
  ⟨tx.ID, inputs, outputs, now⟩

/-- The check at the head of Sign and Verify: every input names a transaction of prevTXs
whose ID is not nil. -/
def prevTXsPresent (tx : Transaction) (prevTXs : GoMap Transaction) : Bool :=
  tx.Vin.all (fun vin => decide (((prevTXs.get vin.Txid).getD zeroTransaction).ID ≠ []))

/-- The lines that Sign and Verify share for input inID of the copy: clear the signature,
put the referenced output's PubKeyHash in PubKey, set the copy's ID to its Hash, clear
PubKey again.  Returns the copy afterwards; its ID is the digest. -/
def digestStep (P : Prims) (txCopy : Transaction) (prevTXs : GoMap Transaction)
    (inID : Nat) (vin : TxInput) : Option Transaction :=
  let prevTx := (prevTXs.get vin.Txid).getD zeroTransaction
  match txCopy.Vin[inID]?, indexInt prevTx.Vout vin.Vout with
  | some cin, some out =>
    let withKey : Transaction :=
      { txCopy with Vin := txCopy.Vin.set inID { cin with Signature := [], PubKey := out.PubKeyHash } }
    let hashed : Transaction := { withKey with ID := withKey.Hash P }
    some { hashed with
      Vin := hashed.Vin.set inID { cin with Signature := [], PubKey := [] } }
  | _, _ => none

/-- The bytes of big.Int.Bytes: big-endian, without leading zero bytes.  The first argument
bounds the number of digits. -/
def natBytesAux : Nat → Nat → Bytes → Bytes
  | 0, _, acc => acc
  | fuel + 1, n, acc => if n = 0 then acc else natBytesAux fuel (n / 256) (n % 256 :: acc)

/-- The result of big.Int.Bytes for a natural number. -/
def natBytes (n : Nat) : Bytes := natBytesAux n n []

/-- The signature that Sign stores for the pair (r, s): append(r.Bytes(), s.Bytes()...). -/
def encodeSignature (r s : Nat) : Bytes := natBytes r ++ natBytes s

/-- The split that Verify applies to a signature and to a public key: the two halves at
len/2, each read as a big-endian integer. -/
def splitHalves (bs : Bytes) : Nat × Nat :=
  (bytesToNat (bs.take (bs.length / 2)), bytesToNat (bs.drop (bs.length / 2)))

/-- The signing loop of Sign from input inID on; the state is the copy and the transaction
being signed, rnd i is the randomness drawn for input i. -/
def signLoop (P : Prims) (privKey : Nat) (prevTXs : GoMap Transaction) (rnd : Nat → Nat) :
    List TxInput → Nat → Transaction → Transaction → Option Transaction
  | [], _, _, tx => some tx
  | vin :: rest, inID, txCopy, tx =>
    match digestStep P txCopy prevTXs inID vin, tx.Vin[inID]? with
    | some txCopy1, some orig =>
      let (r, s) := P.ecdsaSign privKey txCopy1.ID (rnd inID)
      let signature := encodeSignature r s
      signLoop P privKey prevTXs rnd rest (inID + 1) txCopy1
        { tx with Vin := tx.Vin.set inID { orig with Signature := signature } }
    | _, _ => none

/-- Transaction.Sign; the result is the transaction after the call. -/
def Transaction.Sign (P : Prims) (tx : Transaction) (privKey : Nat)
    (prevTXs : GoMap Transaction) (now : Int) (rnd : Nat → Nat) : Option Transaction :=
  if tx.IsCoinbase then some tx
  else if ¬ prevTXsPresent tx prevTXs then none
  else
    let txCopy := tx.TrimmedCopy now
    signLoop P privKey prevTXs rnd txCopy.Vin 0 txCopy tx

/-- The verification loop of Verify from input inID on. -/
def verifyLoop (P : Prims) (prevTXs : GoMap Transaction) :
    List TxInput → Nat → Transaction → Option Bool
  | [], _, _ => some true
  | vin :: rest, inID, txCopy =>
    match digestStep P txCopy prevTXs inID vin with
    | none => none
    | some txCopy1 =>
      let (r, s) := splitHalves vin.Signature
      let (x, y) := splitHalves vin.PubKey
      if P.ecdsaVerify x y txCopy1.ID r s = false then some false
      else verifyLoop P prevTXs rest (inID + 1) txCopy1

/-- Transaction.Verify. -/
def Transaction.Verify (P : Prims) (tx : Transaction) (prevTXs : GoMap Transaction)
    (now : Int) : Option Bool :=
  if tx.IsCoinbase then some true
  else if ¬ prevTXsPresent tx prevTXs then none
  else
    let txCopy := tx.TrimmedCopy now
    verifyLoop P prevTXs tx.Vin 0 txCopy

/-- TxOutput.Lock: the pub-key-hash is the decoded address without its first byte and its
last four; the slice expression panics when the decoded address has fewer than five bytes. -/
def TxOutput.Lock (P : Prims) (out : TxOutput) (address : Bytes) : Option TxOutput :=
  let expubKeyHash := P.base58Decode address
  if expubKeyHash.length < 5 then none
  else some { out with PubKeyHash := (expubKeyHash.take (expubKeyHash.length - 4)).drop 1 }

/-- TxOutput.IsLockedWithKey. -/
def TxOutput.IsLockedWithKey (out : TxOutput) (pubKeyHash : Bytes) : Bool :=
  decide (out.PubKeyHash = pubKeyHash)

/-- NewTxOutput. -/
def NewTxOutput (P : Prims) (value : Int) (address : Bytes) : Option TxOutput :=
  TxOutput.Lock P ⟨value, []⟩ address

/-- The prefix of the default coinbase payload, the UTF-8 bytes of the three characters
that precede the address in fmt.Sprintf. -/
def rewardPrefix : Bytes := [229, 165, 150, 229, 138, 177, 231, 187, 153]

/-- NewCoinbaseTX. -/
def NewCoinbaseTX (P : Prims) (toAddr data : Bytes) (now : Int) : Option Transaction :=
  let data := if data = [] then rewardPrefix ++ toAddr else data
  let txin : TxInput := ⟨[], -1, [], data⟩
  match NewTxOutput P subsidy toAddr with
  | none => none
  | some txout =>
    let tx : Transaction := ⟨[], [txin], [txout], now⟩
    some { tx with ID := tx.Hash P }

/-! ## The key-value store (bolt) -/

/-- The order of bytes.Compare, in which a bolt bucket keeps its keys. -/
def bytesLt : Bytes → Bytes → Bool
  | [], [] => false
  | [], _ :: _ => true
  | _ :: _, [] => false
  | a :: as, b :: bs => if a < b then true else if b < a then false else bytesLt as bs

/-- A bolt bucket: its key-value pairs in cursor order.  The values are the decoded form of
the stored bytes (encoding/gob round-trips the values stored here). -/
abbrev Bucket (V : Type) := List (Bytes × V)

/-- The constant MaxKeySize of bolt. -/
def maxKeySize : Nat := 32768

/-- Bucket.Get: the value stored under a key, none where bolt returns nil. -/
def Bucket.Get {V : Type} (b : Bucket V) (key : Bytes) : Option V :=
  match b with
  | [] => none
  | (k, v) :: rest => if k = key then some v else Bucket.Get rest key

/-- Insertion of a pair at its place in key order, replacing the value of a present key. -/
def Bucket.insert {V : Type} (b : Bucket V) (key : Bytes) (value : V) : Bucket V :=
  match b with
  | [] => [(key, value)]
  | (k, v) :: rest =>
    if k = key then (key, value) :: rest
    else if bytesLt key k then (key, value) :: (k, v) :: rest
    else (k, v) :: Bucket.insert rest key value

/-- Bucket.Put: bolt rejects an empty key (ErrKeyRequired) and a key longer than MaxKeySize
(ErrKeyTooLarge); every caller in the sources panics on the error, which is none here. -/
def Bucket.Put {V : Type} (b : Bucket V) (key : Bytes) (value : V) : Option (Bucket V) :=
  if key.length = 0 ∨ maxKeySize < key.length then none
  else some (Bucket.insert b key value)

/-- Bucket.Delete: removes the key when present; it returns no error for an absent key. -/
def Bucket.Delete {V : Type} (b : Bucket V) (key : Bytes) : Bucket V :=
  b.filter (fun kv => !decide (kv.1 = key))

/-- A value of the blocks bucket: a serialized block, or raw bytes (the hash stored under the
tip key). -/
inductive BlockEntry where
  | blockData (b : Block)
  | raw (bs : Bytes)
  deriving DecidableEq, Repr

/-- TxOutputs of transaction_output.go. -/
structure TxOutputs where
  Outputs : List TxOutput
  deriving DecidableEq, Repr

/-- The database file: the bucket blocks, the bucket chainstate (utxoBucket) and the bucket
chainstate_blockid2tx (utxoBlockBucket); none is a bucket that does not exist. -/
structure DB where
  blocks : Option (Bucket BlockEntry)
  utxo : Option (Bucket TxOutputs)
  utxoBlock : Option (Bucket Bytes)
  deriving DecidableEq, Repr

/-- Blockchain of blockchain.go. -/
structure Blockchain where
  Tip : Bytes
  Db : DB
  deriving DecidableEq, Repr

/-- UTXOSet of utxo_set.go. -/
structure UTXOSet where
  Blockchain : Blockchain

/-- DeserializeBlock applied to the result of a Get: it panics on nil and on bytes that are
not a serialized block. -/
def DeserializeBlock : Option BlockEntry → Option Block
  | some (.blockData b) => some b
  | _ => none

/-- DeserializeOutputs applied to the result of a Get: it panics on nil. -/
def DeserializeOutputs : Option TxOutputs → Option TxOutputs
  | some outs => some outs
  | none => none

/-- The tip key that CreatBlockchain, NewBlockchain and MineBlock use: the digit one. -/
def tipKeyOne : Bytes := [49]

/-- The tip key that AddBlock and GetBestHeight use: the lowercase letter l. -/
def tipKeyEll : Bytes := [108]

/-- The read of the block behind a stored hash: lastHash := b.Get(key), then
DeserializeBlock(b.Get(lastHash)).  An absent key gives nil, no entry and a panic in
DeserializeBlock; a serialized block read back as a key is the key of no entry either. -/
def readTipBlock (b : Bucket BlockEntry) (key : Bytes) : Option (Bytes × Block) :=
  match b.Get key with
  | none => none
  | some (.raw lastHash) =>
    match DeserializeBlock (b.Get lastHash) with
    | none => none
    | some blk => some (lastHash, blk)
  | some (.blockData _) => none

/-! ## Iteration (blockchain_iterator.go) -/

/-- BlockchainIterator.Next: the block stored under the current hash, and the next current
hash. -/
def iteratorNext (db : DB) (currentHash : Bytes) : Option (Block × Bytes) :=
  match db.blocks with
  | none => none
  | some b =>
    match DeserializeBlock (b.Get currentHash) with
    | none => none
    | some block => some (block, block.PrevBlockHash)

/-- The blocks that the loop "for { block := bci.Next(); ...; if len(block.PrevBlockHash) == 0
{ break } }" visits from a hash on, in order; none when a block is missing or when the loop
has not reached a block with an empty PrevBlockHash within the given number of steps. -/
def chainFrom (db : DB) : Nat → Bytes → Option (List Block)
  | 0, _ => none
  | fuel + 1, currentHash =>
    match iteratorNext db currentHash with
    | none => none
    | some (block, next) =>
      if block.PrevBlockHash.length = 0 then some [block]
      else
        match chainFrom db fuel next with
        | none => none
        | some rest => some (block :: rest)

/-! ## The unspent outputs of the chain (Blockchain.FindUTXO, blockchain.go) -/

/-- The constant HashLength. -/
def HashLength : Nat := 32

/-- BytesToHash: the last 32 bytes of the argument, left-padded with zero bytes. -/
def BytesToHash (b : Bytes) : Bytes :=
  let b := if b.length > HashLength then b.drop (b.length - HashLength) else b
  List.replicate (HashLength - b.length) 0 ++ b

/-- The body of the first pass of FindUTXO for one input:
spentTXOs[inTxID] = append(spentTXOs[inTxID], in.Vout). -/
def recordSpent (spentTXOs : GoMap (List Int)) (vin : TxInput) : GoMap (List Int) :=
  spentTXOs.set vin.Txid ((spentTXOs.get vin.Txid).getD [] ++ [vin.Vout])

/-- The first pass of FindUTXO over one transaction: the inputs of a transaction that is not
a coinbase are recorded. -/
def spentOfTx (spentTXOs : GoMap (List Int)) (tx : Transaction) : GoMap (List Int) :=
  if tx.IsCoinbase = false then tx.Vin.foldl recordSpent spentTXOs else spentTXOs

/-- The first pass of FindUTXO over the blocks the iterator yields. -/
def spentOfBlocks (blocks : List Block) : GoMap (List Int) :=
  blocks.foldl (fun spent block => block.Transactions.foldl spentOfTx spent) []

/-- The test at the head of the loop labelled Outputs: the output index occurs in the list
recorded for the transaction (a nil list has no element). -/
def isSpent (spentTXOs : GoMap (List Int)) (txID : Bytes) (outIdx : Nat) : Bool :=
  ((spentTXOs.get txID).getD []).any (fun spentOutIdx => decide (spentOutIdx = (outIdx : Int)))

/-- The state of the second pass: the maps UTXO and UTXOBlocks. -/
abbrev UTXOMaps := GoMap TxOutputs × GoMap Bytes

/-- The loop labelled Outputs over the outputs of one transaction from index outIdx on. -/
def utxoOfOutputs (spentTXOs : GoMap (List Int)) (txID blockHash : Bytes) :
    List TxOutput → Nat → UTXOMaps → UTXOMaps
  | [], _, maps => maps
  | out :: rest, outIdx, (UTXO, UTXOBlocks) =>
    if isSpent spentTXOs txID outIdx then
      utxoOfOutputs spentTXOs txID blockHash rest (outIdx + 1) (UTXO, UTXOBlocks)
    else
      let outs := (UTXO.get txID).getD ⟨[]⟩
      let outs : TxOutputs := ⟨outs.Outputs ++ [out]⟩
      utxoOfOutputs spentTXOs txID blockHash rest (outIdx + 1)
        (UTXO.set txID outs, UTXOBlocks.set txID (BytesToHash blockHash))

/-- The second pass of FindUTXO over one block. -/
def utxoOfBlock (spentTXOs : GoMap (List Int)) (maps : UTXOMaps) (block : Block) : UTXOMaps :=
  block.Transactions.foldl
    (fun maps tx => utxoOfOutputs spentTXOs tx.ID block.Hash tx.Vout 0 maps) maps

/-- The two passes of FindUTXO over the blocks the iterator yields. -/
def findUTXOBlocks (blocks : List Block) : UTXOMaps :=
  blocks.foldl (utxoOfBlock (spentOfBlocks blocks)) ([], [])

/-- Blockchain.FindUTXO: both passes iterate from the tip to the first block whose
PrevBlockHash is empty; fuel bounds the number of blocks visited. -/
def Blockchain.FindUTXO (bc : Blockchain) (fuel : Nat) : Option UTXOMaps :=
  match chainFrom bc.Db fuel bc.Tip with
  | none => none
  | some blocks => some (findUTXOBlocks blocks)

/-! ## The UTXO set (utxo_set.go) -/

/-- The second transaction of Reindex: for every pair of the map UTXO, Put the outputs in
the UTXO bucket and the block hash in the tx-location bucket.  Go ranges over a map in an
unspecified order; the model takes the order of insertion. -/
def reindexWrite (UTXOBlock : GoMap Bytes) :
    List (Bytes × TxOutputs) → Bucket TxOutputs → Bucket Bytes →
      Option (Bucket TxOutputs × Bucket Bytes)
  | [], b, bd => some (b, bd)
  | (txID, outs) :: rest, b, bd =>
    match b.Put txID outs with
    | none => none
    | some b1 =>
      match bd.Put txID ((UTXOBlock.get txID).getD (List.replicate HashLength 0)) with
      | none => none
      | some bd1 => reindexWrite UTXOBlock rest b1 bd1

/-- UTXOSet.Reindex: both buckets are deleted and created anew, then filled from FindUTXO.
The result is the database afterwards. -/
def UTXOSet.Reindex (u : UTXOSet) (fuel : Nat) : Option DB :=
  let db := u.Blockchain.Db
  let db1 : DB := { db with utxo := some [], utxoBlock := some [] }
  match (Blockchain.mk u.Blockchain.Tip db1).FindUTXO fuel with
  | none => none
  | some (UTXO, UTXOBlock) =>
    match reindexWrite UTXOBlock UTXO [] [] with
    | none => none
    | some (b, bd) => some { db1 with utxo := some b, utxoBlock := some bd }

/-- The inner loop of Update for one input: the outputs of the stored entry whose position
differs from vin.Vout. -/
def updatedOutputs (outs : TxOutputs) (vin : TxInput) : TxOutputs :=
  ⟨(outs.Outputs.enum.filter (fun p => decide ((p.1 : Int) ≠ vin.Vout))).map Prod.snd⟩

/-- The body of Update for one input of a transaction that is not a coinbase. -/
def updateInput (b : Bucket TxOutputs) (vin : TxInput) : Option (Bucket TxOutputs) :=
  match DeserializeOutputs (b.Get vin.Txid) with
  | none => none
  | some outs =>
    let updatedOuts := updatedOutputs outs vin
    if updatedOuts.Outputs.length = 0 then some (b.Delete vin.Txid)
    else b.Put vin.Txid updatedOuts

/-- The inputs of one transaction, in order. -/
def updateInputs : List TxInput → Bucket TxOutputs → Option (Bucket TxOutputs)
  | [], b => some b
  | vin :: rest, b =>
    match updateInput b vin with
    | none => none
    | some b1 => updateInputs rest b1

/-- The body of Update for one transaction of the block. -/
def updateTx (blockHash : Bytes) (st : Bucket TxOutputs × Bucket Bytes) (tx : Transaction) :
    Option (Bucket TxOutputs × Bucket Bytes) :=
  let (b, blockb) := st
  match (if tx.IsCoinbase = false then updateInputs tx.Vin b else some b) with
  | none => none
  | some b1 =>
    let newOutputs : TxOutputs := ⟨tx.Vout⟩
    match b1.Put tx.ID newOutputs with
    | none => none
    | some b2 =>
      match blockb.Put tx.ID blockHash with
      | none => none
      | some blockb1 => some (b2, blockb1)

/-- The transactions of the block, in order. -/
def updateTxs (blockHash : Bytes) :
    List Transaction → Bucket TxOutputs × Bucket Bytes →
      Option (Bucket TxOutputs × Bucket Bytes)
  | [], st => some st
  | tx :: rest, st =>
    match updateTx blockHash st tx with
    | none => none
    | some st1 => updateTxs blockHash rest st1

/-- UTXOSet.Update: the UTXO bucket must exist (a nil bucket panics at the first use, which is
the first transaction of the block); the tx-location bucket is created when missing.  The
result is the database afterwards. -/
def UTXOSet.Update (u : UTXOSet) (block : Block) : Option DB :=
  let db := u.Blockchain.Db
  let blockb := db.utxoBlock.getD []
  match db.utxo with
  | none =>
    match block.Transactions with
    | [] => some { db with utxoBlock := some blockb }
    | _ :: _ => none
  | some b =>
    match updateTxs block.Hash block.Transactions (b, blockb) with
    | none => none
    | some (b1, blockb1) => some { db with utxo := some b1, utxoBlock := some blockb1 }

/-- The wrap-around of a 64-bit Go int. -/
def wrapInt64 (x : Int) : Int :=
  (x + 9223372036854775808) % 18446744073709551616 - 9223372036854775808

/-- The state of the loops of FindSpendableOutputs: accumulated, unspentOutputs, and whether
break Work has been executed. -/
structure SpendState where
  accumulated : Int
  unspentOutputs : GoMap (List Int)
  done : Bool

/-- The inner loop of FindSpendableOutputs over the outputs stored for one transaction, from
position outIdx on. -/
def spendableOfOutputs (pubkeyHash : Bytes) (amount : Int) (txID : Bytes) :
    List TxOutput → Nat → SpendState → SpendState
  | [], _, st => st
  | out :: rest, outIdx, st =>
    let st1 : SpendState :=
      if out.IsLockedWithKey pubkeyHash && decide (st.accumulated < amount) then
        { st with
          accumulated := wrapInt64 (st.accumulated + out.Value)
          unspentOutputs :=
            st.unspentOutputs.set txID ((st.unspentOutputs.get txID).getD [] ++ [(outIdx : Int)]) }
      else st
    if st1.accumulated ≥ amount then { st1 with done := true }
    else spendableOfOutputs pubkeyHash amount txID rest (outIdx + 1) st1

/-- The loop labelled Work over the cursor of the UTXO bucket. -/
def spendableOfBucket (pubkeyHash : Bytes) (amount : Int) :
    List (Bytes × TxOutputs) → SpendState → SpendState
  | [], st => st
  | (k, outs) :: rest, st =>
    let st1 := spendableOfOutputs pubkeyHash amount k outs.Outputs 0 st
    if st1.done then st1 else spendableOfBucket pubkeyHash amount rest st1

/-- UTXOSet.FindSpendableOutputs: the accumulated value and the map from transaction id to
the selected positions. -/
def UTXOSet.FindSpendableOutputs (u : UTXOSet) (pubkeyHash : Bytes) (amount : Int) :
    Option (Int × GoMap (List Int)) :=
  match u.Blockchain.Db.utxo with
  | none => none
  | some b =>
    let st := spendableOfBucket pubkeyHash amount b ⟨0, [], false⟩
    some (st.accumulated, st.unspentOutputs)

/-! ## The chain (blockchain.go) -/

/-- The constant genesisCoinbaseData, as UTF-8 bytes. -/
def genesisCoinbaseData : Bytes :=
  [84, 104, 101, 32, 84, 105, 109, 101, 115, 32, 49, 52, 47, 79, 99, 116, 47, 50, 48, 50, 48,
   32, 230, 139, 175, 230, 149, 145, 228, 184, 150, 231, 149, 140, 239, 188, 140, 228, 187,
   142, 228, 187, 138, 229, 164, 169, 229, 188, 128, 229, 167, 139, 227, 128, 130]

/-- Blockchain.FindTransactionForUTXO: the block named by the tx-location bucket is read and
scanned; the transaction returned is the last one of the block with the requested ID, or
the zero Transaction.  The error it returns is always nil; none is a panic. -/
def Blockchain.FindTransactionForUTXO (bc : Blockchain) (txID : Bytes) : Option Transaction :=
  match bc.Db.blocks, bc.Db.utxoBlock with
  | some b, some blockb =>
    match blockb.Get txID with
    | none => none
    | some blockhash =>
      match DeserializeBlock (b.Get blockhash) with
      | none => none
      | some block =>
        some (block.Transactions.foldl (fun tnx tx => if tx.ID = txID then tx else tnx)
          zeroTransaction)
  | _, _ => none

/-- The test "&tnx != nil" at the end of FindTransactionForUTXO: the address of a local
variable is never nil. -/
def addressIsNotNil (_ : Transaction) : Bool := true

/-- The message of the error that FindTransactionForUTXO builds behind that test, as UTF-8
bytes. -/
def errNotFound : Bytes :=
  [230, 156, 170, 230, 137, 190, 229, 136, 176, 228, 186, 164, 230, 152, 147]

/-- Blockchain.FindTransactionForUTXO with both of its results, the transaction and the
error (none is the nil error): tnx is what the View closure leaves, the test of its address
chooses between (tnx, nil) and (Transaction{}, error).  The outer none is a panic. -/
def Blockchain.FindTransactionForUTXOWithErr (bc : Blockchain) (txID : Bytes) :
    Option (Transaction × Option Bytes) :=
  match bc.FindTransactionForUTXO txID with
  | none => none
  | some tnx =>
    if addressIsNotNil tnx then some (tnx, none)
    else some (zeroTransaction, some errNotFound)

/-- The loop of SignTransaction and VerifyTransaction that fills the map prevTXs. -/
def collectPrevTXs (bc : Blockchain) :
    List TxInput → GoMap Transaction → Option (GoMap Transaction)
  | [], prevTXs => some prevTXs
  | vin :: rest, prevTXs =>
    match bc.FindTransactionForUTXO vin.Txid with
    | none => none
    | some prevTX => collectPrevTXs bc rest (prevTXs.set prevTX.ID prevTX)

/-- Blockchain.SignTransaction; the result is the transaction after the call. -/
def Blockchain.SignTransaction (P : Prims) (bc : Blockchain) (tx : Transaction)
    (privKey : Nat) (now : Int) (rnd : Nat → Nat) : Option Transaction :=
  match collectPrevTXs bc tx.Vin [] with
  | none => none
  | some prevTXs => tx.Sign P privKey prevTXs now rnd

/-- Blockchain.VerifyTransaction. -/
def Blockchain.VerifyTransaction (P : Prims) (bc : Blockchain) (tx : Transaction)
    (now : Int) : Option Bool :=
  if tx.IsCoinbase then some true
  else
    match collectPrevTXs bc tx.Vin [] with
    | none => none
    | some prevTXs => tx.Verify P prevTXs now

/-- The first loop of MineBlock: every transaction must verify, otherwise log.Panic; clock i
is the clock reading while transaction number i is verified. -/
def verifyAll (P : Prims) (bc : Blockchain) (clock : Nat → Int) :
    List Transaction → Nat → Option Unit
  | [], _ => some ()
  | tx :: rest, i =>
    match bc.VerifyTransaction P tx (clock i) with
    | some true => verifyAll P bc clock rest (i + 1)
    | _ => none

/-- Blockchain.MineBlock: verify, read the tip under the key "1", mine with NewBlock, store
the block and the tip.  The result is the new block and the chain afterwards. -/
def Blockchain.MineBlock (P : Prims) (bc : Blockchain) (transactions : List Transaction)
    (clock : Nat → Int) (now : Int) : Option (Block × Blockchain) :=
  match verifyAll P bc clock transactions 0 with
  | none => none
  | some _ =>
    match bc.Db.blocks with
    | none => none
    | some b =>
      match readTipBlock b tipKeyOne with
      | none => none
      | some (lastHash, block) =>
        let lashtHeght := block.Height
        match NewBlock P transactions lastHash lashtHeght now with
        | none => none
        | some newBlock =>
          match b.Put newBlock.Hash (.blockData newBlock) with
          | none => none
          | some b1 =>
            match b1.Put tipKeyOne (.raw newBlock.Hash) with
            | none => none
            | some b2 =>
              some (newBlock, ⟨newBlock.Hash, { bc.Db with blocks := some b2 }⟩)

/-- CreatBlockchain on a database file that does not exist yet: the genesis block with the
founder's coinbase is mined and stored, and the tip is stored under the key "1".  nowTx and
nowBlock are the clock readings of NewCoinbaseTX and of NewBlock. -/
def CreatBlockchain (P : Prims) (address : Bytes) (nowTx nowBlock : Int) :
    Option Blockchain :=
  match NewCoinbaseTX P address genesisCoinbaseData nowTx with
  | none => none
  | some cbtx =>
    match NewGenesisBlock P cbtx nowBlock with
    | none => none
    | some genesis =>
      match Bucket.Put ([] : Bucket BlockEntry) genesis.Hash (.blockData genesis) with
      | none => none
      | some b1 =>
        match b1.Put tipKeyOne (.raw genesis.Hash) with
        | none => none
        | some b2 => some ⟨genesis.Hash, ⟨some b2, none, none⟩⟩

/-- NewBlockchain on an existing database file: the tip is what the key "1" holds (nil when
the key is absent).  The source keeps in bc.Tip the slice that bolt returned inside the View
transaction, which bolt guarantees only until that transaction ends; the model holds the
bytes read, so it says nothing about a read of bc.Tip after later writes to the file. -/
def NewBlockchain (db : DB) : Option Blockchain :=
  match db.blocks with
  | none => none
  | some b =>
    match b.Get tipKeyOne with
    | none => some ⟨[], db⟩
    | some (.raw tip) => some ⟨tip, db⟩
    | some (.blockData _) => none

/-- Blockchain.AddBlock: nothing happens when the hash of the block is already a key;
otherwise the block is stored, the tip is read under the key "l", and the tip moves to the
block when its height is greater.  The result is the chain afterwards. -/
def Blockchain.AddBlock (bc : Blockchain) (block : Block) : Option Blockchain :=
  match bc.Db.blocks with
  | none => none
  | some b =>
    match b.Get block.Hash with
    | some _ => some bc
    | none =>
      match b.Put block.Hash (.blockData block) with
      | none => none
      | some b1 =>
        match readTipBlock b1 tipKeyEll with
        | none => none
        | some (_, lastBlock) =>
          if block.Height > lastBlock.Height then
            match b1.Put tipKeyEll (.raw block.Hash) with
            | none => none
            | some b2 => some ⟨block.Hash, { bc.Db with blocks := some b2 }⟩
          else some ⟨bc.Tip, { bc.Db with blocks := some b1 }⟩

/-- Blockchain.GetBestHeight: the height of the block behind the key "l". -/
def Blockchain.GetBestHeight (bc : Blockchain) : Option Int :=
  match bc.Db.blocks with
  | none => none
  | some b =>
    match readTipBlock b tipKeyEll with
    | none => none
    | some (_, lastBlock) => some lastBlock.Height

/-! ## Wallets (wallet.go) and value transfers (transaction.go) -/

/-- Wallet of wallet.go; the private key is its scalar. -/
structure Wallet where
  PrivateKey : Nat
  PublicKey : Bytes

/-- The constant version. -/
def version : Nat := 0

/-- The constant addressChecksumLen. -/
def addressChecksumLen : Nat := 4

/-- HashPubKey: RIPEMD-160 of SHA-256 of the public key. -/
def HashPubKey (P : Prims) (pubKey : Bytes) : Bytes :=
  P.ripemd160 (P.sha256 pubKey)

/-- The function checksum of wallet.go: the first four bytes of the double SHA-256. -/
def checksum (P : Prims) (payload : Bytes) : Bytes :=
  (P.sha256 (P.sha256 payload)).take addressChecksumLen

/-- Wallet.GetAddress. -/
def Wallet.GetAddress (P : Prims) (w : Wallet) : Bytes :=
  let pubKeyHash := HashPubKey P w.PublicKey
  let versionedPayload := [version] ++ pubKeyHash
  let fullPayload := versionedPayload ++ checksum P versionedPayload
  P.base58Encode fullPayload

/-- The public key that newKeyPair stores for the point (X, Y):
append(X.Bytes(), Y.Bytes()...). -/
def encodePubKey (x y : Nat) : Bytes := natBytes x ++ natBytes y

/-- The inputs NewUTXOTransaction builds from the selection, entry by entry in the order of
the list given.  Go ranges over the map in an unspecified order: NewUTXOTransaction passes
the entries in the order of insertion, NewUTXOTransactionIn in any order. -/
def buildInputs (pubKey : Bytes) (validOutputs : GoMap (List Int)) : List TxInput :=
  validOutputs.flatMap (fun p => p.2.map (fun out => (⟨p.1, out, [], pubKey⟩ : TxInput)))

/-- The panics of NewUTXOTransaction: log.Panic with the message of insufficient funds, or
any other panic. -/
inductive Failure where
  | InsufficientFunds
  | Other
  deriving DecidableEq, Repr

/-- NewUTXOTransaction: select outputs, panic when they do not reach the amount, build the
inputs, the output to the recipient and the change, set the ID and sign.  now is the clock
reading for the Timestamp, nowSign the one of Sign. -/
def NewUTXOTransaction (P : Prims) (wallet : Wallet) (toAddr : Bytes) (amount : Int)
    (u : UTXOSet) (now nowSign : Int) (rnd : Nat → Nat) : Except Failure Transaction :=
  let pubKeyHash := HashPubKey P wallet.PublicKey
  match u.FindSpendableOutputs pubKeyHash amount with
  | none => .error .Other
  | some (acc, validOutputs) =>
    if acc < amount then .error .InsufficientFunds
    else
      let inputs := buildInputs wallet.PublicKey validOutputs
      let fromAddr := wallet.GetAddress P
      match NewTxOutput P amount toAddr with
      | none => .error .Other
      | some out1 =>
        let change : Option (List TxOutput) :=
          if acc > amount then
            match NewTxOutput P (wrapInt64 (acc - amount)) fromAddr with
            | none => none
            | some out2 => some [out2]
          else some []
        match change with
        | none => .error .Other
        | some rest =>
          let tx : Transaction := ⟨[], inputs, [out1] ++ rest, now⟩
          let tx := { tx with ID := tx.Hash P }
          match u.Blockchain.SignTransaction P tx wallet.PrivateKey nowSign rnd with
          | none => .error .Other
          | some signed => .ok signed

/-- NewUTXOTransaction with the order of "for txid, outs := range validOutputs" left open:
Go ranges over a map in an unspecified order, and visit gives the order in which the entries
of the selection are visited, a rearrangement of them.  The inputs, and with them the ID
and the signatures, follow that order.  NewUTXOTransaction above is the instance that visits
the entries in the order of their insertion. -/
def NewUTXOTransactionIn (P : Prims) (wallet : Wallet) (toAddr : Bytes) (amount : Int)
    (u : UTXOSet) (now nowSign : Int) (rnd : Nat → Nat)
    (visit : GoMap (List Int) → GoMap (List Int)) : Except Failure Transaction :=
  let pubKeyHash := HashPubKey P wallet.PublicKey
  match u.FindSpendableOutputs pubKeyHash amount with
  | none => .error .Other
  | some (acc, validOutputs) =>
    if acc < amount then .error .InsufficientFunds
    else
      let inputs := buildInputs wallet.PublicKey (visit validOutputs)
      let fromAddr := wallet.GetAddress P
      match NewTxOutput P amount toAddr with
      | none => .error .Other
      | some out1 =>
        let change : Option (List TxOutput) :=
          if acc > amount then
            match NewTxOutput P (wrapInt64 (acc - amount)) fromAddr with
            | none => none
            | some out2 => some [out2]
          else some []
        match change with
        | none => .error .Other
        | some rest =>
          let tx : Transaction := ⟨[], inputs, [out1] ++ rest, now⟩
          let tx := { tx with ID := tx.Hash P }
          match u.Blockchain.SignTransaction P tx wallet.PrivateKey nowSign rnd with
          | none => .error .Other
          | some signed => .ok signed

/-- ValidateAddress of wallet.go: the last four bytes of the decoded address against the
checksum of the rest; the slice expressions panic on fewer than five bytes. -/
def ValidateAddress (P : Prims) (address : Bytes) : Option Bool :=
  let pubKeyHash := P.base58Decode address
  if pubKeyHash.length < 5 then none
  else
    let actualChecksum := pubKeyHash.drop (pubKeyHash.length - addressChecksumLen)
    match pubKeyHash.head? with
    | none => none
    | some version =>
      let pubKeyHash := (pubKeyHash.take (pubKeyHash.length - addressChecksumLen)).drop 1
      let targetChecksum := checksum P ([version] ++ pubKeyHash)
      some (decide (actualChecksum = targetChecksum))

/-- TxInput.UsesKey of transaction_input.go: the hash of the input's public key against a
pub-key-hash. -/
def TxInput.UsesKey (P : Prims) (vin : TxInput) (pubKeyHash : Bytes) : Bool :=
  decide (HashPubKey P vin.PubKey = pubKeyHash)

/-- Blockchain.MineBlock together with the chain it leaves behind, also when it panics.  The
verification loop, the read of the tip and the search precede the single write
transaction; bolt rolls a write transaction back when its closure panics, and bc.Tip is
assigned after both Puts. -/
def Blockchain.MineBlockStore (P : Prims) (bc : Blockchain) (transactions : List Transaction)
    (clock : Nat → Int) (now : Int) : Blockchain × Option Block :=
  match verifyAll P bc clock transactions 0 with
  | none => (bc, none)
  | some _ =>
    match bc.Db.blocks with
    | none => (bc, none)
    | some b =>
      match readTipBlock b tipKeyOne with
      | none => (bc, none)
      | some (lastHash, block) =>
        match NewBlock P transactions lastHash block.Height now with
        | none => (bc, none)
        | some newBlock =>
          match b.Put newBlock.Hash (.blockData newBlock) with
          | none => (bc, none)
          | some b1 =>
            match b1.Put tipKeyOne (.raw newBlock.Hash) with
            | none => (bc, none)
            | some b2 =>
              (⟨newBlock.Hash, { bc.Db with blocks := some b2 }⟩, some newBlock)

/-! ## The peer server (server.go) -/

/-- The process-wide state of server.go that handleBlock reads and writes: the chain and the
queue blocksInTransit. -/
structure Node where
  bc : Blockchain
  blocksInTransit : List Bytes

/-- A request sent to a peer: sendGetData(address, kind, id). -/
inductive Request where
  | getdata (address : Bytes) (kind : Bytes) (id : Bytes)
  deriving DecidableEq, Repr

/-- The kind "block" of inv and getdata, as bytes. -/
def kindBlock : Bytes := [98, 108, 111, 99, 107]

/-- The function handleBlock of server.go applied to the decoded payload (the sender's
address and the block): AddBlock, then, only when blocksInTransit is not empty, a getdata
request for its head, UTXOSet.Update with the received block, and the removal of the head.
The result is the state afterwards and the requests sent. -/
def handleBlock (node : Node) (addrFrom : Bytes) (block : Block) :
    Option (Node × List Request) :=
  match node.bc.AddBlock block with
  | none => none
  | some bc1 =>
    match node.blocksInTransit with
    | [] => some (⟨bc1, []⟩, [])
    | blockHash :: rest =>
      match (UTXOSet.mk bc1).Update block with
      | none => none
      | some db => some (⟨⟨bc1.Tip, db⟩, rest⟩, [.getdata addrFrom kindBlock blockHash])

/-! ## Block inventory (Blockchain.GetBlockHashes of blockchain.go, handleGetBlocks and
handleInv of server.go) -/

/-- Blockchain.GetBlockHashes: the Hash of every block the iterator visits from bc.Tip to the
first block with an empty PrevBlockHash, in the order of the visit; fuel bounds the number
of blocks visited. -/
def Blockchain.GetBlockHashes (bc : Blockchain) (fuel : Nat) : Option (List Bytes) :=
  match chainFrom bc.Db fuel bc.Tip with
  | none => none
  | some blocks => some (blocks.map (fun block => block.Hash))

/-- The payload inv of server.go; Kind is its field Type. -/
structure Inv where
  AddrFrom : Bytes
  Kind : Bytes
  Items : List Bytes
  deriving DecidableEq, Repr

/-- The kind "tx" of inv and getdata, as bytes. -/
def kindTx : Bytes := [116, 120]

/-- The function handleGetBlocks applied to the decoded payload (the sender's address):
sendInv(payload.AddrFrom, "block", bc.GetBlockHashes()).  The result is the address the
message goes to and the message; nodeAddress is the address of this node. -/
def handleGetBlocks (nodeAddress : Bytes) (bc : Blockchain) (fuel : Nat) (addrFrom : Bytes) :
    Option (Bytes × Inv) :=
  match bc.GetBlockHashes fuel with
  | none => none
  | some blocks => some (addrFrom, ⟨nodeAddress, kindBlock, blocks⟩)

/-- The function handleInv applied to the decoded payload.  For the type "block":
blocksInTransit becomes the items, the first item is requested (an empty list panics at
Items[0]) and removed from blocksInTransit.  For the type "tx": the first item is requested
when the mempool holds no transaction under it.  The result is the state afterwards and the
requests sent. -/
def handleInv (node : Node) (mempool : GoMap Transaction) (payload : Inv) :
    Option (Node × List Request) :=
  let afterBlock : Option (Node × List Request) :=
    if payload.Kind = kindBlock then
      match payload.Items with
      | [] => none
      | blockHash :: _ =>
        some ({ node with blocksInTransit := payload.Items.filter (fun b => decide (b ≠ blockHash)) },
          [.getdata payload.AddrFrom kindBlock blockHash])
    else some (node, [])
  match afterBlock with
  | none => none
  | some (node1, reqs) =>
    if payload.Kind = kindTx then
      match payload.Items with
      | [] => none
      | txID :: _ =>
        if ((mempool.get txID).getD zeroTransaction).ID = [] then
          some (node1, reqs ++ [.getdata payload.AddrFrom kindTx txID])
        else some (node1, reqs)
    else some (node1, reqs)

/-! ## The command line (cli_createblockchain.go, cli_send.go, cli_getbalance.go) -/

/-- UTXOSet.FindUTXO: the outputs of the UTXO bucket locked to a pub-key-hash, in cursor
order. -/
def UTXOSet.FindUTXO (u : UTXOSet) (pubKeyHash : Bytes) : Option (List TxOutput) :=
  match u.Blockchain.Db.utxo with
  | none => none
  | some b =>
    some (b.flatMap (fun p => p.2.Outputs.filter (fun out => out.IsLockedWithKey pubKeyHash)))

/-- Wallets.GetWallet: the wallet stored for an address; the dereference of a missing entry
panics. -/
def GetWallet (ws : GoMap Wallet) (address : Bytes) : Option Wallet :=
  ws.get address

/-- CLI.createBlockchain: validate the address, create the chain, reindex.  The result is
the database afterwards; fuel bounds the blocks Reindex visits. -/
def CLI.createBlockchain (P : Prims) (address : Bytes) (nowTx nowBlock : Int) (fuel : Nat) :
    Option DB :=
  match ValidateAddress P address with
  | some true =>
    match CreatBlockchain P address nowTx nowBlock with
    | none => none
    | some bc => (UTXOSet.mk bc).Reindex fuel
  | _ => none

/-- CLI.send with mineNow set: validate both addresses, open the chain, build and sign the
transfer, mine it behind a new coinbase paid to the sender, and update the UTXO set with
the new block.  nowTx, nowSign, nowCb and nowBlock are the clock readings of
NewUTXOTransaction, Sign, NewCoinbaseTX and NewBlock, clock those of the verification loop
of MineBlock.  The result is the database afterwards. -/
def CLI.send (P : Prims) (fromAddr toAddr : Bytes) (amount : Int) (db : DB)
    (wallets : GoMap Wallet) (nowTx nowSign nowCb : Int) (rnd : Nat → Nat)
    (clock : Nat → Int) (nowBlock : Int) : Option DB :=
  match ValidateAddress P fromAddr with
  | some true =>
    match ValidateAddress P toAddr with
    | some true =>
      match NewBlockchain db with
      | none => none
      | some bc =>
        match GetWallet wallets fromAddr with
        | none => none
        | some wallet =>
          match NewUTXOTransaction P wallet toAddr amount ⟨bc⟩ nowTx nowSign rnd with
          | .error _ => none
          | .ok tx =>
            match NewCoinbaseTX P fromAddr [] nowCb with
            | none => none
            | some cbTx =>
              match bc.MineBlock P [cbTx, tx] clock nowBlock with
              | none => none
              | some (newBlock, bc1) => (UTXOSet.mk bc1).Update newBlock
    | _ => none
  | _ => none

/-- CLI.getBalance: the sum of the values of the outputs of the UTXO bucket locked to the
pub-key-hash decoded from the address.  The result is the balance printed. -/
def CLI.getBalance (P : Prims) (address : Bytes) (db : DB) : Option Int :=
  match ValidateAddress P address with
  | some true =>
    match NewBlockchain db with
    | none => none
    | some bc =>
      let pubKeyHash := P.base58Decode address
      let pubKeyHash := (pubKeyHash.take (pubKeyHash.length - 4)).drop 1
      match (UTXOSet.mk bc).FindUTXO pubKeyHash with
      | none => none
      | some UTXOs =>
        some (UTXOs.foldl (fun balance output => wrapInt64 (balance + output.Value)) 0)
  | _ => none

/-! ## Specification-side definitions for the UTXO index -/

/-- The transactions of the chain, in the order of iteration. -/
def chainTxs (blocks : List Block) : List Transaction :=
  blocks.flatMap (fun block => block.Transactions)

/-- The pair (t, idx) is referenced by an input of a transaction of the chain that is not a
coinbase. -/
def referenced (blocks : List Block) (t : Bytes) (idx : Nat) : Bool :=
  (chainTxs blocks).any (fun tx =>
    !tx.IsCoinbase && tx.Vin.any (fun vin => decide (vin.Txid = t ∧ vin.Vout = (idx : Int))))

/-- The outputs of a transaction that no such input references, in their original order. -/
def unreferencedOutputs (blocks : List Block) (tx : Transaction) : List TxOutput :=
  (tx.Vout.enum.filter (fun p => !referenced blocks tx.ID p.1)).map Prod.snd

/-- The unreferenced outputs of the transactions of the chain that carry the id t. -/
def unspentOf (blocks : List Block) (t : Bytes) : List TxOutput :=
  ((chainTxs blocks).filter (fun tx => decide (tx.ID = t))).flatMap (unreferencedOutputs blocks)

/-- The list a map of spent indices holds for a transaction id (empty for a missing key). -/
def spentAt (m : GoMap (List Int)) (t : Bytes) : List Int := (m.get t).getD []

/-- The outputs a map of outputs holds for a transaction id (none for a missing key). -/
def outsAt (U : GoMap TxOutputs) (t : Bytes) : List TxOutput :=
  match U.get t with
  | some o => o.Outputs
  | none => []

/-- The outputs that the loop labelled Outputs retains from position idx on. -/
def retainedFrom (spentTXOs : GoMap (List Int)) (txID : Bytes) (outs : List TxOutput)
    (idx : Nat) : List TxOutput :=
  ((outs.enumFrom idx).filter (fun p => !isSpent spentTXOs txID p.1)).map Prod.snd

/-- The invariant of the map UTXO during the second pass: one pair per key, and no key holds
an empty list of outputs. -/
def GoodMap (U : GoMap TxOutputs) : Prop :=
  (U.map Prod.fst).Nodup ∧ ∀ t o, U.get t = some o → o.Outputs ≠ []

/-- The stored tip as AddBlock and GetBestHeight read it: the hash under the key "l" and the
block stored under that hash. -/
def Blockchain.storedTip (bc : Blockchain) : Option (Bytes × Block) :=
  match bc.Db.blocks with
  | none => none
  | some b => readTipBlock b tipKeyEll

/-- The stored tip as CreatBlockchain, NewBlockchain and MineBlock read it: the hash under
the key "1" and the block stored under that hash. -/
def Blockchain.storedTipOne (bc : Blockchain) : Option (Bytes × Block) :=
  match bc.Db.blocks with
  | none => none
  | some b => readTipBlock b tipKeyOne

/-- A hash is a key of the blocks bucket. -/
def Blockchain.hasKey (bc : Blockchain) (key : Bytes) : Bool :=
  match bc.Db.blocks with
  | none => false
  | some b => (b.Get key).isSome

/-- The invariants of a block: its Hash is SHA-256 of its header with its Nonce, and that
hash read as a big-endian integer is below the target. -/
def blockInvariant (P : Prims) (b : Block) : Prop :=
  ∃ data, prepareData P (NewProofOfWork b) b.Nonce = some data ∧
    b.Hash = P.sha256 data ∧ bytesToNat b.Hash < 2 ^ (256 - 24)

/-- The block stored under a hash in the blocks bucket. -/
def Blockchain.storedBlock (bc : Blockchain) (hash : Bytes) : Option Block :=
  match bc.Db.blocks with
  | none => none
  | some b => DeserializeBlock (b.Get hash)

/-- A value that a 64-bit Go int holds. -/
def inInt64 (x : Int) : Prop := -9223372036854775808 ≤ x ∧ x ≤ 9223372036854775807

/-- The payload that GetAddress encodes for a wallet: version ‖ pub_key_hash ‖ checksum. -/
def addressPayload (P : Prims) (w : Wallet) : Bytes :=
  [version] ++ HashPubKey P w.PublicKey ++ checksum P ([version] ++ HashPubKey P w.PublicKey)

/-- The pub-key-hash that Lock and getBalance read from an address: the decoded bytes without
the first and the last four. -/
def decodedPubKeyHash (P : Prims) (address : Bytes) : Bytes :=
  ((P.base58Decode address).take ((P.base58Decode address).length - 4)).drop 1

/-- The pairs (tx_id, index) that a selection map holds, key by key in the order of the
map, the indices of a key in the order they were appended. -/
def selectedPairs (sel : GoMap (List Int)) : List (Bytes × Int) :=
  sel.flatMap (fun p => p.2.map (fun i => (p.1, i)))

/-- The entry of the UTXO bucket that a pair (tx_id, index) designates: the output at that
position of the list stored under the id. -/
def entryAt (b : Bucket TxOutputs) (e : Bytes × Int) : Option TxOutput :=
  (b.Get e.1).bind (fun outs => indexInt outs.Outputs e.2)

/-- The value of the entry a pair designates, 0 when it designates none. -/
def valueAt (b : Bucket TxOutputs) (e : Bytes × Int) : Int :=
  ((entryAt b e).map TxOutput.Value).getD 0

/-- The outputs of a stored list with their key and their positions, from position i on. -/
def itemsOfOutputs (k : Bytes) : List TxOutput → Nat → List (Bytes × Nat × TxOutput)
  | [], _ => []
  | out :: rest, i => (k, i, out) :: itemsOfOutputs k rest (i + 1)

/-- The entries of a UTXO bucket in the order the cursor and the inner loop visit them. -/
def itemsOfBucket (b : List (Bytes × TxOutputs)) : List (Bytes × Nat × TxOutput) :=
  b.flatMap (fun p => itemsOfOutputs p.1 p.2.Outputs 0)

/-- The selection over a flat list of entries: the entries taken, the accumulated value and
whether the threshold stopped the scan. -/
def pickItems (pubkeyHash : Bytes) (amount : Int) :
    List (Bytes × Nat × TxOutput) → Int → List (Bytes × Nat × TxOutput) × Int × Bool
  | [], acc => ([], acc, false)
  | it :: rest, acc =>
    if it.2.2.IsLockedWithKey pubkeyHash && decide (acc < amount) then
      if wrapInt64 (acc + it.2.2.Value) ≥ amount then
        ([it], wrapInt64 (acc + it.2.2.Value), true)
      else
        let r := pickItems pubkeyHash amount rest (wrapInt64 (acc + it.2.2.Value))
        (it :: r.1, r.2)
    else if acc ≥ amount then ([], acc, true)
    else pickItems pubkeyHash amount rest acc

/-- The map after the positions js were appended, one at a time, to the entry of k. -/
def addIndices (m : GoMap (List Int)) (k : Bytes) (js : List Nat) : GoMap (List Int) :=
  js.foldl (fun (m : GoMap (List Int)) (j : Nat) => m.set k ((m.get k).getD [] ++ [(j : Int)])) m

/-- The sum of the values of all outputs of a UTXO bucket locked to a pub-key-hash. -/
def lockedSum (b : Bucket TxOutputs) (h : Bytes) : Int :=
  (((b.flatMap (fun p => p.2.Outputs)).filter (fun out => out.IsLockedWithKey h)).map
    TxOutput.Value).sum

/-- The invariant of the tx-location bucket: every key of it is a key of the UTXO bucket. -/
def locationsWithinUTXO (db : DB) : Bool :=
  (db.utxoBlock.getD []).all (fun p => ((db.utxo.getD []).Get p.1).isSome)

/-- A list of blocks that runs from the block stored under a hash back to a block with an
empty PrevBlockHash, each block being the one stored under the PrevBlockHash of the block
before it. -/
def linkedFrom (bc : Blockchain) : Bytes → List Block → Prop
  | _, [] => False
  | h, [block] => bc.storedBlock h = some block ∧ block.PrevBlockHash.length = 0
  | h, block :: next :: rest =>
    bc.storedBlock h = some block ∧ block.PrevBlockHash.length ≠ 0 ∧
      linkedFrom bc block.PrevBlockHash (next :: rest)

/-- A key that Bucket.Put accepts. -/
def validKey (key : Bytes) : Prop := key.length ≠ 0 ∧ key.length ≤ maxKeySize

instance (key : Bytes) : Decidable (validKey key) := by
  unfold validKey
  infer_instance

/-! ## Sample values, for evaluating the definitions -/

/-- A record of primitives whose hash is constantly zero, for evaluating the definitions. -/
def zeroPrims : Prims where
  sha256 := fun _ => List.replicate 32 0
  ripemd160 := fun _ => List.replicate 20 0
  gobTx := fun tx => tx.ID
  base58Encode := fun bs => bs
  base58Decode := fun bs => bs
  ecdsaVerify := fun _ _ _ _ _ => true
  ecdsaSign := fun _ _ _ => (1, 1)

/-- A coinbase transaction with one output of value 10. -/
def sampleCoinbase : Transaction :=
  ⟨[7], [⟨[], -1, [], [1]⟩], [⟨10, [9]⟩], 0⟩

/-- A transfer that spends the output of sampleCoinbase: 4 to a recipient, 6 back as change. -/
def sampleTx1 : Transaction :=
  ⟨[2], [⟨[7], 0, [], [1]⟩], [⟨4, [8]⟩, ⟨6, [9]⟩], 1⟩

/-- A transfer that spends output 0 of sampleTx1. -/
def sampleTx2 : Transaction :=
  ⟨[3], [⟨[2], 0, [], [2]⟩], [⟨4, [6]⟩], 2⟩

/-- A transfer that spends output 1 of sampleTx1. -/
def sampleTx3 : Transaction :=
  ⟨[4], [⟨[2], 1, [], [1]⟩], [⟨6, [5]⟩], 3⟩

/-- The genesis block of the sample chain. -/
def sampleBlock0 : Block := ⟨0, [sampleCoinbase], [], 0, [10], 0⟩

/-- The second block of the sample chain. -/
def sampleBlock1 : Block := ⟨1, [sampleTx1], [10], 0, [11], 1⟩

/-- The third block of the sample chain. -/
def sampleBlock2 : Block := ⟨2, [sampleTx2], [11], 0, [12], 2⟩

/-- The fourth block of the sample chain. -/
def sampleBlock3 : Block := ⟨3, [sampleTx3], [12], 0, [13], 3⟩

/-- A transfer built from what FindSpendableOutputs reports once sampleTx2 is applied: it
references position 0 of the entry of sampleTx1. -/
def sampleTx3Shifted : Transaction :=
  ⟨[4], [⟨[2], 0, [], [1]⟩], [⟨6, [5]⟩], 3⟩

/-- A fourth block that carries sampleTx3Shifted instead of sampleTx3. -/
def sampleBlock3Shifted : Block := ⟨3, [sampleTx3Shifted], [12], 0, [14], 3⟩

/-- A database that holds the sample blocks and no UTXO buckets. -/
def sampleDB : DB :=
  ⟨some [([10], .blockData sampleBlock0), ([11], .blockData sampleBlock1),
      ([12], .blockData sampleBlock2), ([13], .blockData sampleBlock3),
      ([14], .blockData sampleBlock3Shifted)], none, none⟩

/-- The UTXO buckets after Reindex on the chain that ends at sampleBlock0, followed by Update
with sampleBlock1, sampleBlock2 and sampleBlock3, one at a time. -/
def sampleIncremental : Option DB :=
  ((((UTXOSet.mk ⟨[10], sampleDB⟩).Reindex 1).bind
    (fun db => (UTXOSet.mk ⟨[11], db⟩).Update sampleBlock1)).bind
    (fun db => (UTXOSet.mk ⟨[12], db⟩).Update sampleBlock2)).bind
    (fun db => (UTXOSet.mk ⟨[13], db⟩).Update sampleBlock3)

/-- The UTXO buckets after Reindex on the chain that ends at sampleBlock3. -/
def sampleFull : Option DB :=
  (UTXOSet.mk ⟨[13], sampleDB⟩).Reindex 4

/-- The same incremental run with sampleBlock3Shifted as last block. -/
def sampleIncrementalShifted : Option DB :=
  ((((UTXOSet.mk ⟨[10], sampleDB⟩).Reindex 1).bind
    (fun db => (UTXOSet.mk ⟨[11], db⟩).Update sampleBlock1)).bind
    (fun db => (UTXOSet.mk ⟨[12], db⟩).Update sampleBlock2)).bind
    (fun db => (UTXOSet.mk ⟨[14], db⟩).Update sampleBlock3Shifted)

/-- The UTXO buckets after Reindex on the chain that ends at sampleBlock3Shifted. -/
def sampleFullShifted : Option DB :=
  (UTXOSet.mk ⟨[14], sampleDB⟩).Reindex 4

/-- A chain whose blocks bucket holds the first two sample blocks and the tip pointer, under
the key "l", to the second. -/
def sampleTipChain : Blockchain :=
  ⟨[11], ⟨some [([10], .blockData sampleBlock0), ([11], .blockData sampleBlock1),
      ([108], .raw [11])], none, none⟩⟩

/-- A block that carries the hash of sampleBlock0 and the height 5. -/
def sampleForged : Block := { sampleBlock0 with Height := 5 }

/-- A chain whose blocks bucket holds sampleBlock0 and the tip pointer to it under the key
"1", as CreatBlockchain leaves it. -/
def sampleOneChain : Blockchain :=
  ⟨[10], ⟨some [([10], .blockData sampleBlock0), ([49], .raw [10])], none, none⟩⟩

/-- The prime of the field of the curve P-256. -/
def p256P : Nat :=
  115792089210356248762697446949407573530086143415290314195533631308867097853951

/-- The coefficient b of the curve P-256, y² = x³ - 3x + b. -/
def p256B : Nat :=
  41058363725152142129326129780047268409114441015993725554835256314039467401291

/-- The order n of the base point of P-256. -/
def p256N : Nat :=
  115792089210356248762697446949407573529996955224135760342422259061068512044369

/-- The x-coordinate of the point 43·G of P-256; its big-endian form has 32 bytes. -/
def sampleX : Nat :=
  68940400736695912148960890999721852106142292820061709409680925607912859161229

/-- The y-coordinate of the point 43·G of P-256; its big-endian form has 31 bytes. -/
def sampleY : Nat :=
  107423973961867739917642914452788810230878776317276661678353934116262542999

/-- The sample primitives with a signature check that rejects everything. -/
def rejectPrims : Prims := { zeroPrims with ecdsaVerify := fun _ _ _ _ _ => false }

/-- A chain that holds the first two sample blocks, the tip pointer to the second under the
key "1", and a tx-location bucket that places sampleCoinbase in sampleBlock0. -/
def sampleLocatedChain : Blockchain :=
  ⟨[11], ⟨some [([10], .blockData sampleBlock0), ([11], .blockData sampleBlock1),
      ([49], .raw [11])], some [([7], ⟨[⟨10, [9]⟩]⟩)], some [([7], [10])]⟩⟩

/-- A wallet for evaluating the definitions; under zeroPrims its pub-key-hash is twenty zero
bytes. -/
def sampleWallet : Wallet := ⟨1, [1]⟩

/-- A coinbase transaction that pays 10 to the pub-key-hash of sampleWallet under
zeroPrims. -/
def samplePaidCoinbase : Transaction :=
  ⟨[7], [⟨[], -1, [], [1]⟩], [⟨10, List.replicate 20 0⟩], 0⟩

/-- A chain of one block that carries samplePaidCoinbase, with the UTXO bucket and the
tx-location bucket as Reindex leaves them. -/
def samplePaidChain : Blockchain :=
  ⟨[10], ⟨some [([10], .blockData ⟨0, [samplePaidCoinbase], [], 0, [10], 0⟩), ([49], .raw [10])],
    some [([7], ⟨[⟨10, List.replicate 20 0⟩]⟩)], some [([7], [10])]⟩⟩

/-- An address whose decoded form has 25 bytes; its pub-key-hash is twenty bytes 3. -/
def sampleRecipient : Bytes := List.replicate 25 3

/-- The transfer of 4 from sampleWallet to sampleRecipient on samplePaidChain, as
NewUTXOTransaction returns it under zeroPrims. -/
def sampleTransfer : Transaction :=
  ⟨List.replicate 32 0, [⟨[7], 0, [1, 1], [1]⟩],
    [⟨4, List.replicate 20 3⟩, ⟨6, List.replicate 20 0⟩], 0⟩

/-- A UTXO bucket with two outputs of value 2^63 - 2, both locked to the pub-key-hash 09. -/
def sampleLargeBucket : Bucket TxOutputs :=
  [([7], ⟨[⟨9223372036854775806, [9]⟩, ⟨9223372036854775806, [9]⟩]⟩)]

/-- A UTXO set over sampleLargeBucket. -/
def sampleLargeSet : UTXOSet := ⟨⟨[], ⟨none, some sampleLargeBucket, none⟩⟩⟩

/-- A UTXO bucket with two outputs of value 2^63 - 2, both locked to the pub-key-hash of
sampleWallet under zeroPrims. -/
def sampleLargePaidBucket : Bucket TxOutputs :=
  [([7], ⟨[⟨9223372036854775806, List.replicate 20 0⟩,
           ⟨9223372036854775806, List.replicate 20 0⟩]⟩)]

/-- A UTXO set over sampleLargePaidBucket. -/
def sampleLargePaidSet : UTXOSet := ⟨⟨[], ⟨none, some sampleLargePaidBucket, none⟩⟩⟩

/-- A record of primitives whose hash tells its arguments apart by their sum and fits the
target at the first nonce, for evaluating a run of the command line. -/
def toyPrims : Prims where
  sha256 := fun bs => List.replicate 31 0 ++ [bs.sum % 256]
  ripemd160 := fun bs => List.replicate 19 0 ++ [bs.sum % 256]
  gobTx := fun tx => [tx.Timestamp.toNat, tx.Vin.length, 2 * tx.Vout.length]
  base58Encode := fun bs => bs
  base58Decode := fun bs => bs
  ecdsaVerify := fun _ _ _ _ _ => true
  ecdsaSign := fun _ _ _ => (1, 1)

/-- The founder's wallet of the sample run; its pub-key-hash under toyPrims ends in 1. -/
def toyWalletF : Wallet := ⟨1, [1]⟩

/-- The address of toyWalletF under toyPrims. -/
def toyF : Bytes := [0] ++ (List.replicate 19 0 ++ [1]) ++ [0, 0, 0, 0]

/-- The address of a second wallet, whose pub-key-hash ends in 2. -/
def toyG : Bytes := [0] ++ (List.replicate 19 0 ++ [2]) ++ [0, 0, 0, 0]

/-- The genesis coinbase of the sample run. -/
def toyCb0 : Transaction :=
  ⟨List.replicate 31 0 ++ [3], [⟨[], -1, [], genesisCoinbaseData⟩],
    [⟨10, List.replicate 19 0 ++ [1]⟩], 0⟩

/-- The genesis block of the sample run. -/
def toyGenesis : Block := ⟨0, [toyCb0], [], 0, List.replicate 31 0 ++ [30], 0⟩

/-- The database of the sample run after createBlockchain. -/
def toyDb0 : DB :=
  ⟨some [(toyGenesis.Hash, .blockData toyGenesis), ([49], .raw toyGenesis.Hash)],
    some [(toyCb0.ID, ⟨toyCb0.Vout⟩)], some [(toyCb0.ID, toyGenesis.Hash)]⟩

/-- The coinbase that send builds in the sample run; it pays the sender. -/
def toyCb1 : Transaction :=
  ⟨List.replicate 31 0 ++ [5], [⟨[], -1, [], rewardPrefix ++ toyF⟩],
    [⟨10, List.replicate 19 0 ++ [1]⟩], 2⟩

/-- The transfer of 4 from toyF to toyG in the sample run. -/
def toyTx : Transaction :=
  ⟨List.replicate 31 0 ++ [6], [⟨toyCb0.ID, 0, [1, 1], [1]⟩],
    [⟨4, List.replicate 19 0 ++ [2]⟩, ⟨6, List.replicate 19 0 ++ [1]⟩], 1⟩

/-- The block that send mines in the sample run. -/
def toyBlock1 : Block :=
  ⟨3, [toyCb1, toyTx], toyGenesis.Hash, 0, List.replicate 31 0 ++ [68], 0⟩

/-- The database of the sample run after send. -/
def toyDb1 : DB :=
  ⟨some [(toyGenesis.Hash, .blockData toyGenesis), (toyBlock1.Hash, .blockData toyBlock1),
      ([49], .raw toyBlock1.Hash)],
    some [(toyCb1.ID, ⟨toyCb1.Vout⟩), (toyTx.ID, ⟨toyTx.Vout⟩)],
    some [(toyCb0.ID, toyGenesis.Hash), (toyCb1.ID, toyBlock1.Hash),
      (toyTx.ID, toyBlock1.Hash)]⟩

/-- The sample primitives with a hash that is constantly 2^256 - 1, above every target. -/
def highPrims : Prims := { zeroPrims with sha256 := fun _ => List.replicate 32 255 }

/-- The chain sampleLocatedChain with a tx-location entry that places the id 09 in
sampleBlock0, which holds no transaction with that id. -/
def sampleMislocatedChain : Blockchain :=
  ⟨[11], ⟨some [([10], .blockData sampleBlock0), ([11], .blockData sampleBlock1),
      ([49], .raw [11])], some [([7], ⟨[⟨10, [9]⟩]⟩)], some [([7], [10]), ([9], [10])]⟩⟩

/-- The chain sampleLocatedChain after the output of sampleCoinbase has left the UTXO
bucket. -/
def sampleSpentChain : Blockchain :=
  ⟨[11], ⟨some [([10], .blockData sampleBlock0), ([11], .blockData sampleBlock1),
      ([49], .raw [11])], some [], some [([7], [10])]⟩⟩

/-- The sample database after Reindex on the chain that ends at sampleBlock0. -/
def sampleGenesisIndexed : DB :=
  { sampleDB with utxo := some [([7], ⟨[⟨10, [9]⟩]⟩)],
                  utxoBlock := some [([7], BytesToHash [10])] }

/-- The sample database after Reindex on the chain that ends at sampleBlock0 and Update with
sampleBlock1, whose transfer spends the one output of sampleCoinbase. -/
def sampleAfterBlock1 : DB :=
  { sampleDB with utxo := some [([2], ⟨[⟨4, [8]⟩, ⟨6, [9]⟩]⟩)],
                  utxoBlock := some [([2], [11]), ([7], BytesToHash [10])] }

/-- A node whose chain holds the first two sample blocks with the tip under the key "l",
the UTXO buckets as they are after sampleBlock1, and an empty blocksInTransit. -/
def sampleIdleNode : Node :=
  ⟨⟨[11], ⟨sampleTipChain.Db.blocks, sampleAfterBlock1.utxo, sampleAfterBlock1.utxoBlock⟩⟩, []⟩

/-- The node sampleIdleNode after handleBlock has received sampleBlock2. -/
def sampleIdleNodeAfter : Node :=
  ⟨⟨[12], ⟨some [([10], .blockData sampleBlock0), ([11], .blockData sampleBlock1),
      ([12], .blockData sampleBlock2), ([108], .raw [12])],
    sampleAfterBlock1.utxo, sampleAfterBlock1.utxoBlock⟩⟩, []⟩

/-- Four output values that make the 64-bit sum wrap once on the way: 2^62, 2^62, 2^63 - 1
and 2^62 + 5, all locked to the pub-key-hash of sampleWallet under zeroPrims. -/
def sampleWrapOutputs : List TxOutput :=
  [⟨4611686018427387904, List.replicate 20 0⟩, ⟨4611686018427387904, List.replicate 20 0⟩,
   ⟨9223372036854775807, List.replicate 20 0⟩, ⟨4611686018427387909, List.replicate 20 0⟩]

/-- A chain of one block whose one transaction carries sampleWrapOutputs, with the UTXO
bucket and the tx-location bucket as Reindex leaves them. -/
def sampleWrapChain : Blockchain :=
  ⟨[10], ⟨some [([10], .blockData ⟨0, [⟨[7], [⟨[], -1, [], [1]⟩], sampleWrapOutputs, 0⟩], [],
        0, [10], 0⟩), ([49], .raw [10])],
    some [([7], ⟨sampleWrapOutputs⟩)], some [([7], [10])]⟩⟩

/-- A coinbase transaction of a second block, with one output of value 10. -/
def sampleCoinbase1 : Transaction :=
  ⟨[8], [⟨[], -1, [], [1]⟩], [⟨10, [9]⟩], 1⟩

/-- A coinbase transaction of a third block, with one output of value 10. -/
def sampleCoinbase2 : Transaction :=
  ⟨[6], [⟨[], -1, [], [2]⟩], [⟨10, [9]⟩], 2⟩

/-- A block of height 1 on sampleBlock0 that holds a coinbase transaction only. -/
def sampleMinedBlock1 : Block := ⟨1, [sampleCoinbase1], [10], 0, [11], 1⟩

/-- A block of height 2 on sampleMinedBlock1 that holds a coinbase transaction only. -/
def sampleMinedBlock2 : Block := ⟨2, [sampleCoinbase2], [11], 0, [12], 2⟩

/-- The chain of a peer: sampleBlock0, sampleMinedBlock1 and sampleMinedBlock2, with the tip
at the last. -/
def samplePeerChain : Blockchain :=
  ⟨[12], ⟨some [([10], .blockData sampleBlock0), ([11], .blockData sampleMinedBlock1),
      ([12], .blockData sampleMinedBlock2), ([108], .raw [12])], none, none⟩⟩

/-- A node that holds the genesis block sampleBlock0 only, with the tip under the key "l",
the UTXO buckets as Reindex leaves them, and an empty blocksInTransit. -/
def sampleFreshNode : Node :=
  ⟨⟨[10], ⟨some [([10], .blockData sampleBlock0), ([108], .raw [10])],
    some [([7], ⟨[⟨10, [9]⟩]⟩)], some [([7], BytesToHash [10])]⟩⟩, []⟩

/-- The node sampleFreshNode after the inventory of samplePeerChain and the block
sampleMinedBlock2: the tip is sampleMinedBlock2 and the outputs of its coinbase are in the
UTXO bucket. -/
def sampleFreshNodeAfter2 : Node :=
  ⟨⟨[12], ⟨some [([10], .blockData sampleBlock0), ([12], .blockData sampleMinedBlock2),
      ([108], .raw [12])],
    some [([6], ⟨[⟨10, [9]⟩]⟩), ([7], ⟨[⟨10, [9]⟩]⟩)],
    some [([6], [12]), ([7], BytesToHash [10])]⟩⟩, [[10]]⟩

/-- The node sampleFreshNodeAfter2 after the block sampleMinedBlock1: the tip is still
sampleMinedBlock2. -/
def sampleFreshNodeAfter1 : Node :=
  ⟨⟨[12], ⟨some [([10], .blockData sampleBlock0), ([11], .blockData sampleMinedBlock1),
      ([12], .blockData sampleMinedBlock2), ([108], .raw [12])],
    some [([6], ⟨[⟨10, [9]⟩]⟩), ([7], ⟨[⟨10, [9]⟩]⟩), ([8], ⟨[⟨10, [9]⟩]⟩)],
    some [([6], [12]), ([7], BytesToHash [10]), ([8], [11])]⟩⟩, []⟩

/-! # Theorems -/

/-! ## Merkle tree -/

theorem pairLevel_length (P : Prims) :
    ∀ (nodes top : List MerkleNode), pairLevel P nodes = some top →
      nodes.length = 2 * top.length
  | [], top, h => by
    simp [pairLevel] at h
    subst h
    rfl
  | [_], top, h => by simp [pairLevel] at h
  | l :: r :: rest, top, h => by
    simp only [pairLevel, NewMerkleNode] at h
    cases hrest : pairLevel P rest with
    | none => simp [hrest] at h
    | some t =>
      simp [hrest] at h
      subst h
      have := pairLevel_length P rest t hrest
      simp
      omega

theorem levelLoop_length (P : Prims) :
    ∀ (k : Nat) (nodes top : List MerkleNode), levelLoop P k nodes = some top →
      nodes.length = 2 ^ k * top.length
  | 0, nodes, top, h => by
    simp [levelLoop] at h
    subst h
    simp
  | k + 1, nodes, top, h => by
    simp only [levelLoop] at h
    cases hp : pairLevel P nodes with
    | none => simp [hp] at h
    | some lvl =>
      simp [hp] at h
      have h1 := pairLevel_length P nodes lvl hp
      have h2 := levelLoop_length P k lvl top h
      rw [h1, h2, pow_succ]
      ring

theorem leafNodes_length (P : Prims) :
    ∀ (data : List Bytes) (nodes : List MerkleNode), leafNodes P data = some nodes →
      nodes.length = data.length
  | [], nodes, h => by
    simp [leafNodes] at h
    subst h
    rfl
  | d :: ds, nodes, h => by
    simp only [leafNodes, NewMerkleNode] at h
    cases ht : leafNodes P ds with
    | none => simp [ht] at h
    | some t =>
      simp [ht] at h
      subst h
      simp [leafNodes_length P ds t ht]

theorem lt_two_pow_half : ∀ k : Nat, 3 ≤ k → 2 * k + 1 < 2 ^ k
  | 0, h => by omega
  | 1, h => by omega
  | 2, h => by omega
  | 3, _ => by decide
  | k + 4, _ => by
    have := lt_two_pow_half (k + 3) (by omega)
    rw [pow_succ]
    omega

/-- NewMerkleTree returns a tree for at most four byte strings. -/
theorem NewMerkleTree_some_length (P : Prims) (data : List Bytes) (t : MerkleTree)
    (h : NewMerkleTree P data = some t) : 1 ≤ data.length ∧ data.length ≤ 4 := by
  unfold NewMerkleTree at h
  simp only at h
  generalize hd : (if data.length % 2 ≠ 0 then data ++ data.getLast?.toList else data) = padded
    at h
  cases hl : leafNodes P padded with
  | none => simp [hl] at h
  | some nodes =>
    simp only [hl] at h
    cases hk : levelLoop P (padded.length / 2) nodes with
    | none => simp [hk] at h
    | some top =>
      simp only [hk] at h
      cases top with
      | nil => simp at h
      | cons root rest =>
        have h1 := levelLoop_length P _ _ _ hk
        have h2 := leafNodes_length P _ _ hl
        rw [h2] at h1
        simp only [List.length_cons] at h1
        have hge : 2 ^ (padded.length / 2) ≤ padded.length := by
          conv_rhs => rw [h1]
          exact Nat.le_mul_of_pos_right _ (Nat.succ_pos _)
        have hlen : padded.length ≤ 5 := by
          by_contra hc
          have := lt_two_pow_half (padded.length / 2) (by omega)
          omega
        have hpos : 1 ≤ padded.length := by
          rcases Nat.eq_zero_or_pos padded.length with h0 | h0
          · rw [h0] at h1
            simp at h1
          · exact h0
        have hdata : data.length ≤ padded.length ∧
            (data.length % 2 ≠ 0 → padded.length = data.length + 1) ∧
            (data.length % 2 = 0 → padded.length = data.length) := by
          subst hd
          by_cases hodd : data.length % 2 ≠ 0
          · have hne : data ≠ [] := by
              intro he
              simp [he] at hodd
            obtain ⟨x, hx⟩ : ∃ x, data.getLast? = some x := by
              cases hgl : data.getLast? with
              | none => exact absurd (List.getLast?_eq_none_iff.mp hgl) hne
              | some x => exact ⟨x, rfl⟩
            simp [hodd, hx]
          · simp [hodd]
        by_cases hodd : data.length % 2 ≠ 0
        · have := hdata.2.1 hodd
          omega
        · have := hdata.2.2 (by omega)
          omega

/-- Where NewMerkleTree returns a tree, its root is the reference Merkle root. -/
theorem NewMerkleTree_root_eq_ref (P : Prims) (data : List Bytes) (t : MerkleTree)
    (h : NewMerkleTree P data = some t) :
    refMerkleRoot P data = some t.RootNode.Data := by
  have hlen := NewMerkleTree_some_length P data t h
  match data, h, hlen with
  | [], _, hlen => simp at hlen
  | [a], h, _ =>
    simp [NewMerkleTree, leafNodes, levelLoop, pairLevel, NewMerkleNode] at h
    subst h
    simp [refMerkleRoot, MerkleNode.Data]
  | [a, b], h, _ =>
    simp [NewMerkleTree, leafNodes, levelLoop, pairLevel, NewMerkleNode] at h
    subst h
    simp [refMerkleRoot, refReduce, refLevel, MerkleNode.Data]
  | [a, b, c], h, _ =>
    simp [NewMerkleTree, leafNodes, levelLoop, pairLevel, NewMerkleNode] at h
    subst h
    simp [refMerkleRoot, refReduce, refLevel, MerkleNode.Data]
  | [a, b, c, d], h, _ =>
    simp [NewMerkleTree, leafNodes, levelLoop, pairLevel, NewMerkleNode] at h
    subst h
    simp [refMerkleRoot, refReduce, refLevel, MerkleNode.Data]
  | _ :: _ :: _ :: _ :: _ :: _, _, hlen => simp at hlen

/-- C2 (the code departs from the claim): on five byte strings NewMerkleTree returns no tree,
because the second level has three nodes and the pairing loop indexes past its end, while
the reference Merkle root of the claim exists. -/
theorem NewMerkleTree_five_fails (P : Prims) (a b c d e : Bytes) :
    (NewMerkleTree P [a, b, c, d, e]).isNone = true ∧
    refMerkleRoot P [a, b, c, d, e]
      = some (P.sha256
          (P.sha256 (P.sha256 (P.sha256 a ++ P.sha256 b) ++ P.sha256 (P.sha256 c ++ P.sha256 d))
            ++ P.sha256 (P.sha256 (P.sha256 e ++ P.sha256 e)
                ++ P.sha256 (P.sha256 e ++ P.sha256 e)))) := by
  constructor
  · simp [NewMerkleTree, leafNodes, levelLoop, pairLevel, NewMerkleNode]
  · simp [refMerkleRoot, refReduce, refLevel]

/-! ## Proof of work -/

theorem runLoop_accepted (P : Prims) (pow : ProofOfWork) :
    ∀ (nonce : Int) (hash : Bytes) (n : Int) (h : Bytes),
      runLoop P pow nonce hash = some (n, h) → n < maxNonce →
      ∃ data, prepareData P pow n = some data ∧ h = P.sha256 data ∧
        bytesToNat h < pow.target := by
  intro nonce hash
  induction nonce, hash using runLoop.induct P pow with
  | case1 nonce hash hlt hnone =>
    intro n h hrun
    rw [runLoop] at hrun
    simp [hlt, hnone] at hrun
  | case2 nonce hash hlt data hdata hsha hacc =>
    intro n h hrun hn
    rw [runLoop] at hrun
    simp only [hlt, hdata, if_true] at hrun
    rw [if_pos hacc] at hrun
    simp only [Option.some.injEq, Prod.mk.injEq] at hrun
    obtain ⟨h1, h2⟩ := hrun
    subst h1
    subst h2
    exact ⟨data, hdata, rfl, hacc⟩
  | case3 nonce hash hlt data hdata hsha hrej ih =>
    intro n h hrun hn
    rw [runLoop] at hrun
    simp only [hlt, hdata, if_true] at hrun
    rw [if_neg hrej] at hrun
    exact ih n h hrun hn
  | case4 nonce hash hge =>
    intro n h hrun hn
    rw [runLoop] at hrun
    simp only [hge, if_false, Option.some.injEq, Prod.mk.injEq] at hrun
    obtain ⟨h1, _⟩ := hrun
    subst h1
    exact absurd hn hge

/-- C1: every block b that NewBlock returns with an accepted nonce (b.Nonce below maxNonce,
the only way the search loop ends before its bound) carries the inputs and the clock
reading, its Hash is SHA-256 of prev_hash ‖ merkle_root(transactions) ‖ BE8(timestamp) ‖
BE8(24) ‖ BE8(b.Nonce), where the Merkle root is the reference root of the serialized
transactions, that hash read as a big-endian integer is below 2^(256-24), and
NewProofOfWork(b).Validate() returns true. -/
theorem NewBlock_pow_sound (P : Prims) (transactions : List Transaction)
    (prevBlockHash : Bytes) (height now : Int) (b : Block)
    (hb : NewBlock P transactions prevBlockHash height now = some b)
    (hacc : b.Nonce < maxNonce) :
    b.Transactions = transactions ∧ b.PrevBlockHash = prevBlockHash ∧ b.Height = height ∧
    b.Timestamp = now ∧
    ∃ root, refMerkleRoot P (b.Transactions.map P.gobTx) = some root ∧
      b.Hash = P.sha256 (b.PrevBlockHash ++ root ++ IntToHex b.Timestamp ++ IntToHex 24
        ++ IntToHex b.Nonce) ∧
      bytesToNat b.Hash < 2 ^ (256 - 24) ∧
      Validate P (NewProofOfWork b) = some true := by
  unfold NewBlock at hb
  simp only at hb
  cases hrun : Run P (NewProofOfWork ⟨now, transactions, prevBlockHash, 0, [], height⟩) with
  | none => simp [hrun] at hb
  | some res =>
    obtain ⟨nonce, hash⟩ := res
    simp only [hrun, Option.some.injEq] at hb
    subst hb
    simp only at hacc
    obtain ⟨data, hdata, hhash, hlt⟩ := runLoop_accepted P _ _ _ _ _ hrun hacc
    refine ⟨rfl, rfl, rfl, rfl, ?_⟩
    simp only [prepareData, HashTransactions, NewProofOfWork] at hdata
    cases hm : NewMerkleTree P (transactions.map P.gobTx) with
    | none => simp [hm] at hdata
    | some mTree =>
      simp only [hm, Option.some.injEq] at hdata
      have href := NewMerkleTree_root_eq_ref P _ mTree hm
      refine ⟨mTree.RootNode.Data, href, ?_, ?_, ?_⟩
      · rw [hhash, ← hdata]
        rfl
      · have : (1 : Nat) <<< (256 - targetBits) = 2 ^ (256 - 24) := by
          simp [targetBits, Nat.shiftLeft_eq]
        rw [← this]
        exact hlt
      · simp only [Validate, prepareData, HashTransactions, NewProofOfWork, hm]
        rw [hdata, ← hhash]
        simpa [NewProofOfWork] using hlt

theorem runLoop_accept_first (P : Prims) (pow : ProofOfWork) (nonce : Int) (hash data : Bytes)
    (hlt : nonce < maxNonce) (hdata : prepareData P pow nonce = some data)
    (hacc : bytesToNat (P.sha256 data) < pow.target) :
    runLoop P pow nonce hash = some (nonce, P.sha256 data) := by
  rw [runLoop]
  simp [hlt, hdata, hacc]


/-! ## Go maps and buckets -/

theorem GoMap.get_set {V : Type} (m : GoMap V) (k k1 : Bytes) (v : V) :
    (GoMap.set m k v).get k1 = if k = k1 then some v else m.get k1 := by
  induction m with
  | nil => simp [GoMap.set, GoMap.get]
  | cons p rest ih =>
    obtain ⟨k0, v0⟩ := p
    by_cases h0 : k0 = k
    · subst h0
      by_cases h1 : k0 = k1
      · simp [GoMap.set, GoMap.get, h1]
      · simp [GoMap.set, GoMap.get, h1]
    · by_cases h1 : k0 = k1
      · subst h1
        simp [GoMap.set, GoMap.get, h0, Ne.symm h0]
      · simp [GoMap.set, GoMap.get, h0, h1, ih]

theorem GoMap.keys_set {V : Type} (m : GoMap V) (k : Bytes) (v : V) :
    (GoMap.set m k v).map Prod.fst
      = if k ∈ m.map Prod.fst then m.map Prod.fst else m.map Prod.fst ++ [k] := by
  induction m with
  | nil => simp [GoMap.set]
  | cons p rest ih =>
    obtain ⟨k0, v0⟩ := p
    by_cases h0 : k0 = k
    · subst h0
      simp [GoMap.set]
    · have h0s : ¬ k = k0 := fun h => h0 h.symm
      simp only [GoMap.set, h0, if_false, List.map_cons, ih, List.mem_cons, h0s, false_or]
      split <;> simp

theorem GoMap.nodup_set {V : Type} (m : GoMap V) (k : Bytes) (v : V)
    (h : (m.map Prod.fst).Nodup) : ((GoMap.set m k v).map Prod.fst).Nodup := by
  rw [GoMap.keys_set]
  split
  · exact h
  · rename_i hk
    rw [List.nodup_append]
    refine ⟨h, List.nodup_singleton k, ?_⟩
    intro a ha hb
    simp only [List.mem_singleton] at hb
    subst hb
    exact hk ha

theorem GoMap.get_eq_none {V : Type} (m : GoMap V) (k : Bytes)
    (h : k ∉ m.map Prod.fst) : m.get k = none := by
  induction m with
  | nil => rfl
  | cons p rest ih =>
    obtain ⟨k0, v0⟩ := p
    simp only [List.map_cons, List.mem_cons, not_or] at h
    simp [GoMap.get, Ne.symm h.1, ih h.2]

theorem GoMap.mem_keys_of_get {V : Type} (m : GoMap V) (k : Bytes) (v : V)
    (h : m.get k = some v) : k ∈ m.map Prod.fst := by
  by_contra hk
  rw [GoMap.get_eq_none m k hk] at h
  exact Option.noConfusion h

theorem Bucket.Get_insert {V : Type} (b : Bucket V) (k k1 : Bytes) (v : V) :
    (Bucket.insert b k v).Get k1 = if k = k1 then some v else b.Get k1 := by
  induction b with
  | nil => simp [Bucket.insert, Bucket.Get]
  | cons p rest ih =>
    obtain ⟨k0, v0⟩ := p
    by_cases h0 : k0 = k
    · subst h0
      by_cases h1 : k0 = k1
      · simp [Bucket.insert, Bucket.Get, h1]
      · simp [Bucket.insert, Bucket.Get, h1]
    · by_cases hlt : bytesLt k k0 = true
      · by_cases h1 : k = k1
        · subst h1
          simp [Bucket.insert, Bucket.Get, h0, hlt]
        · simp [Bucket.insert, Bucket.Get, h0, hlt, h1]
      · by_cases h1 : k0 = k1
        · subst h1
          simp [Bucket.insert, Bucket.Get, h0, hlt, Ne.symm h0]
        · simp [Bucket.insert, Bucket.Get, h0, hlt, h1, ih]

theorem Bucket.Get_Put {V : Type} (b b1 : Bucket V) (k k1 : Bytes) (v : V)
    (h : b.Put k v = some b1) : b1.Get k1 = if k = k1 then some v else b.Get k1 := by
  unfold Bucket.Put at h
  split at h
  · exact Option.noConfusion h
  · simp only [Option.some.injEq] at h
    subst h
    exact Bucket.Get_insert b k k1 v

theorem Bucket.Put_isSome {V : Type} (b : Bucket V) (k : Bytes) (v : V) (hk : validKey k) :
    b.Put k v = some (Bucket.insert b k v) := by
  unfold Bucket.Put
  have : ¬ (k.length = 0 ∨ maxKeySize < k.length) := by
    rintro (h | h)
    · exact hk.1 h
    · exact absurd hk.2 (by omega)
  rw [if_neg this]

theorem Bucket.Put_validKey {V : Type} (b b1 : Bucket V) (k : Bytes) (v : V)
    (h : b.Put k v = some b1) : validKey k := by
  unfold Bucket.Put at h
  split at h
  · exact Option.noConfusion h
  · rename_i hn
    simp only [not_or] at hn
    exact ⟨hn.1, by omega⟩

theorem Bucket.Get_Delete {V : Type} (b : Bucket V) (k k1 : Bytes) :
    (b.Delete k).Get k1 = if k = k1 then none else b.Get k1 := by
  induction b with
  | nil => simp [Bucket.Delete, Bucket.Get]
  | cons p rest ih =>
    obtain ⟨k0, v0⟩ := p
    unfold Bucket.Delete at ih ⊢
    by_cases h0 : k0 = k
    · subst h0
      by_cases h1 : k0 = k1
      · simp only [List.filter, decide_True, Bool.not_true, h1, if_true] at ih ⊢
        exact ih
      · simp only [List.filter, decide_True, Bool.not_true, h1, if_false, Bucket.Get] at ih ⊢
        exact ih
    · by_cases h1 : k0 = k1
      · subst h1
        simp [List.filter, Bucket.Get, h0, Ne.symm h0]
      · simp only [List.filter, h0, decide_False, Bool.not_false, Bucket.Get, h1, if_false]
        exact ih

/-! ## The first pass of FindUTXO -/

theorem mem_spentAt_recordSpent (m : GoMap (List Int)) (vin : TxInput) (t : Bytes) (i : Int) :
    i ∈ spentAt (recordSpent m vin) t ↔
      i ∈ spentAt m t ∨ (vin.Txid = t ∧ vin.Vout = i) := by
  unfold spentAt recordSpent
  rw [GoMap.get_set]
  by_cases h : vin.Txid = t
  · subst h
    simp only [if_true, Option.getD_some, List.mem_append, List.mem_singleton, true_and]
    constructor
    · rintro (h1 | h1)
      · exact Or.inl h1
      · exact Or.inr h1.symm
    · rintro (h1 | h1)
      · exact Or.inl h1
      · exact Or.inr h1.symm
  · simp [h]

theorem mem_spentAt_inputs (t : Bytes) (i : Int) :
    ∀ (vins : List TxInput) (m : GoMap (List Int)),
      i ∈ spentAt (vins.foldl recordSpent m) t ↔
        i ∈ spentAt m t ∨ ∃ vin ∈ vins, vin.Txid = t ∧ vin.Vout = i
  | [], m => by simp
  | vin :: rest, m => by
    rw [List.foldl_cons, mem_spentAt_inputs t i rest, mem_spentAt_recordSpent]
    simp only [List.mem_cons, exists_eq_or_imp]
    tauto

theorem mem_spentAt_spentOfTx (t : Bytes) (i : Int) (m : GoMap (List Int))
    (tx : Transaction) :
    i ∈ spentAt (spentOfTx m tx) t ↔
      i ∈ spentAt m t ∨
        (tx.IsCoinbase = false ∧ ∃ vin ∈ tx.Vin, vin.Txid = t ∧ vin.Vout = i) := by
  unfold spentOfTx
  by_cases h : tx.IsCoinbase = false
  · simp only [h, if_true, true_and]
    exact mem_spentAt_inputs t i tx.Vin m
  · simp [h]

theorem mem_spentAt_txs (t : Bytes) (i : Int) :
    ∀ (txs : List Transaction) (m : GoMap (List Int)),
      i ∈ spentAt (txs.foldl spentOfTx m) t ↔
        i ∈ spentAt m t ∨ ∃ tx ∈ txs,
          tx.IsCoinbase = false ∧ ∃ vin ∈ tx.Vin, vin.Txid = t ∧ vin.Vout = i
  | [], m => by simp
  | tx :: rest, m => by
    rw [List.foldl_cons, mem_spentAt_txs t i rest, mem_spentAt_spentOfTx]
    simp only [List.mem_cons, exists_eq_or_imp]
    exact or_assoc

theorem mem_spentAt_blocks (t : Bytes) (i : Int) :
    ∀ (blocks : List Block) (m : GoMap (List Int)),
      i ∈ spentAt (blocks.foldl
          (fun spent block => block.Transactions.foldl spentOfTx spent) m) t ↔
        i ∈ spentAt m t ∨ ∃ tx ∈ chainTxs blocks,
          tx.IsCoinbase = false ∧ ∃ vin ∈ tx.Vin, vin.Txid = t ∧ vin.Vout = i
  | [], m => by simp [chainTxs]
  | block :: rest, m => by
    rw [List.foldl_cons, mem_spentAt_blocks t i rest, mem_spentAt_txs]
    simp only [chainTxs, List.flatMap_cons, List.mem_append]
    constructor
    · rintro ((h | ⟨tx, h1, h2⟩) | ⟨tx, h1, h2⟩)
      · exact Or.inl h
      · exact Or.inr ⟨tx, Or.inl h1, h2⟩
      · exact Or.inr ⟨tx, Or.inr h1, h2⟩
    · rintro (h | ⟨tx, h1 | h1, h2⟩)
      · exact Or.inl (Or.inl h)
      · exact Or.inl (Or.inr ⟨tx, h1, h2⟩)
      · exact Or.inr ⟨tx, h1, h2⟩

/-- The test of the second pass agrees with the specification's notion of a referenced
output. -/
theorem isSpent_spentOfBlocks (blocks : List Block) (t : Bytes) (idx : Nat) :
    isSpent (spentOfBlocks blocks) t idx = referenced blocks t idx := by
  rw [Bool.eq_iff_iff]
  have h := mem_spentAt_blocks t (idx : Int) blocks []
  unfold spentOfBlocks isSpent referenced
  simp only [List.any_eq_true, decide_eq_true_eq, Bool.and_eq_true, Bool.not_eq_true']
  constructor
  · rintro ⟨x, hx, hxi⟩
    subst hxi
    rcases h.mp hx with h0 | ⟨tx, h1, h2, vin, h3, h4, h5⟩
    · simp [spentAt, GoMap.get] at h0
    · exact ⟨tx, h1, h2, vin, h3, h4, h5⟩
  · rintro ⟨tx, h1, h2, vin, h3, h4, h5⟩
    exact ⟨(idx : Int), h.mpr (Or.inr ⟨tx, h1, h2, vin, h3, h4, h5⟩), rfl⟩

/-! ## The second pass of FindUTXO -/

theorem retainedFrom_cons (spent : GoMap (List Int)) (txID : Bytes) (out : TxOutput)
    (rest : List TxOutput) (idx : Nat) :
    retainedFrom spent txID (out :: rest) idx
      = if isSpent spent txID idx then retainedFrom spent txID rest (idx + 1)
        else out :: retainedFrom spent txID rest (idx + 1) := by
  unfold retainedFrom
  rw [List.enumFrom_cons, List.filter_cons]
  by_cases h : isSpent spent txID idx = true
  · simp [h]
  · simp [h]

theorem outsAt_set (U : GoMap TxOutputs) (k t : Bytes) (o : TxOutputs) :
    outsAt (GoMap.set U k o) t = if k = t then o.Outputs else outsAt U t := by
  unfold outsAt
  rw [GoMap.get_set]
  by_cases h : k = t
  · simp [h]
  · simp [h]

theorem utxoOfOutputs_spec (spent : GoMap (List Int)) (txID bh : Bytes) :
    ∀ (outs : List TxOutput) (idx : Nat) (U : GoMap TxOutputs) (B : GoMap Bytes),
      (∀ t, outsAt (utxoOfOutputs spent txID bh outs idx (U, B)).1 t
          = outsAt U t ++ (if txID = t then retainedFrom spent txID outs idx else [])) ∧
      (GoodMap U → GoodMap (utxoOfOutputs spent txID bh outs idx (U, B)).1) ∧
      (∀ k ∈ (utxoOfOutputs spent txID bh outs idx (U, B)).1.map Prod.fst,
          k ∈ U.map Prod.fst ∨ k = txID)
  | [], idx, U, B => by
    refine ⟨?_, ?_, ?_⟩
    · intro t
      simp [utxoOfOutputs, retainedFrom]
    · intro h
      exact h
    · intro k hk
      exact Or.inl hk
  | out :: rest, idx, U, B => by
    by_cases hs : isSpent spent txID idx = true
    · have ih := utxoOfOutputs_spec spent txID bh rest (idx + 1) U B
      simp only [utxoOfOutputs, hs, if_true]
      refine ⟨?_, ih.2.1, ih.2.2⟩
      intro t
      rw [ih.1 t, retainedFrom_cons, if_pos hs]
    · have ih := utxoOfOutputs_spec spent txID bh rest (idx + 1)
        (GoMap.set U txID ⟨((U.get txID).getD ⟨[]⟩).Outputs ++ [out]⟩)
        (GoMap.set B txID (BytesToHash bh))
      simp only [utxoOfOutputs, hs, if_false, Bool.false_eq_true]
      have hget : ((U.get txID).getD ⟨[]⟩).Outputs = outsAt U txID := by
        unfold outsAt
        cases U.get txID <;> rfl
      refine ⟨?_, ?_, ?_⟩
      · intro t
        rw [ih.1 t, outsAt_set, retainedFrom_cons, if_neg hs, hget]
        by_cases ht : txID = t
        · subst ht
          simp
        · simp [ht]
      · intro hg
        apply ih.2.1
        refine ⟨GoMap.nodup_set U txID _ hg.1, ?_⟩
        intro t o ho
        rw [GoMap.get_set] at ho
        by_cases ht : txID = t
        · simp only [ht, if_true, Option.some.injEq] at ho
          subst ho
          simp
        · simp only [ht, if_false] at ho
          exact hg.2 t o ho
      · intro k hk
        rcases ih.2.2 k hk with h1 | h1
        · rw [GoMap.keys_set] at h1
          split at h1
          · exact Or.inl h1
          · simp only [List.mem_append, List.mem_singleton] at h1
            exact h1
        · exact Or.inr h1

theorem utxoOfTxs_spec (spent : GoMap (List Int)) (bh : Bytes) :
    ∀ (txs : List Transaction) (maps : UTXOMaps),
      (∀ t, outsAt (txs.foldl
            (fun maps tx => utxoOfOutputs spent tx.ID bh tx.Vout 0 maps) maps).1 t
          = outsAt maps.1 t ++ (txs.filter (fun tx => decide (tx.ID = t))).flatMap
              (fun tx => retainedFrom spent tx.ID tx.Vout 0)) ∧
      (GoodMap maps.1 → GoodMap (txs.foldl
            (fun maps tx => utxoOfOutputs spent tx.ID bh tx.Vout 0 maps) maps).1) ∧
      (∀ k ∈ (txs.foldl
            (fun maps tx => utxoOfOutputs spent tx.ID bh tx.Vout 0 maps) maps).1.map Prod.fst,
          k ∈ maps.1.map Prod.fst ∨ ∃ tx ∈ txs, tx.ID = k)
  | [], maps => by
    refine ⟨?_, ?_, ?_⟩
    · intro t
      simp
    · intro h
      exact h
    · intro k hk
      exact Or.inl hk
  | tx :: rest, (U, B) => by
    have h1 := utxoOfOutputs_spec spent tx.ID bh tx.Vout 0 U B
    have ih := utxoOfTxs_spec spent bh rest (utxoOfOutputs spent tx.ID bh tx.Vout 0 (U, B))
    simp only [List.foldl_cons]
    refine ⟨?_, ?_, ?_⟩
    · intro t
      rw [ih.1 t, h1.1 t, List.filter_cons]
      by_cases ht : tx.ID = t
      · simp [ht]
      · simp [ht]
    · intro hg
      exact ih.2.1 (h1.2.1 hg)
    · intro k hk
      rcases ih.2.2 k hk with h2 | ⟨tx1, h2, h3⟩
      · rcases h1.2.2 k h2 with h4 | h4
        · exact Or.inl h4
        · exact Or.inr ⟨tx, List.mem_cons_self _ _, h4.symm⟩
      · exact Or.inr ⟨tx1, List.mem_cons_of_mem _ h2, h3⟩

theorem utxoOfBlocks_spec (spent : GoMap (List Int)) :
    ∀ (blocks : List Block) (maps : UTXOMaps),
      (∀ t, outsAt (blocks.foldl (utxoOfBlock spent) maps).1 t
          = outsAt maps.1 t ++ ((chainTxs blocks).filter (fun tx => decide (tx.ID = t))).flatMap
              (fun tx => retainedFrom spent tx.ID tx.Vout 0)) ∧
      (GoodMap maps.1 → GoodMap (blocks.foldl (utxoOfBlock spent) maps).1) ∧
      (∀ k ∈ (blocks.foldl (utxoOfBlock spent) maps).1.map Prod.fst,
          k ∈ maps.1.map Prod.fst ∨ ∃ tx ∈ chainTxs blocks, tx.ID = k)
  | [], maps => by
    refine ⟨?_, ?_, ?_⟩
    · intro t
      simp [chainTxs]
    · intro h
      exact h
    · intro k hk
      exact Or.inl hk
  | block :: rest, maps => by
    have h1 := utxoOfTxs_spec spent block.Hash block.Transactions maps
    have ih := utxoOfBlocks_spec spent rest (utxoOfBlock spent maps block)
    simp only [List.foldl_cons]
    refine ⟨?_, ?_, ?_⟩
    · intro t
      rw [ih.1 t]
      unfold utxoOfBlock
      rw [h1.1 t]
      simp [chainTxs, List.filter_append, List.flatMap_append, List.append_assoc]
    · intro hg
      exact ih.2.1 (h1.2.1 hg)
    · intro k hk
      rcases ih.2.2 k hk with h2 | ⟨tx1, h2, h3⟩
      · rcases h1.2.2 k h2 with h4 | ⟨tx1, h4, h5⟩
        · exact Or.inl h4
        · refine Or.inr ⟨tx1, ?_, h5⟩
          simp only [chainTxs, List.flatMap_cons, List.mem_append]
          exact Or.inl h4
      · refine Or.inr ⟨tx1, ?_, h3⟩
        simp only [chainTxs, List.flatMap_cons, List.mem_append]
        exact Or.inr h2

theorem retainedFrom_spentOfBlocks (blocks : List Block) (tx : Transaction) :
    retainedFrom (spentOfBlocks blocks) tx.ID tx.Vout 0 = unreferencedOutputs blocks tx := by
  unfold retainedFrom unreferencedOutputs List.enum
  congr 2
  funext p
  rw [isSpent_spentOfBlocks]

theorem GoodMap.get_eq (U : GoMap TxOutputs) (hg : GoodMap U) (t : Bytes) :
    U.get t = if outsAt U t = [] then none else some ⟨outsAt U t⟩ := by
  unfold outsAt
  cases h : U.get t with
  | none => simp
  | some o =>
    have := hg.2 t o h
    simp [this]

/-- The map UTXO that FindUTXO returns, read at any key. -/
theorem findUTXOBlocks_get (blocks : List Block) (t : Bytes) :
    (findUTXOBlocks blocks).1.get t
      = if unspentOf blocks t = [] then none else some ⟨unspentOf blocks t⟩ := by
  have h := utxoOfBlocks_spec (spentOfBlocks blocks) blocks ([], [])
  have hg : GoodMap (findUTXOBlocks blocks).1 :=
    h.2.1 ⟨List.nodup_nil, fun t o ho => by simp [GoMap.get] at ho⟩
  have ho : outsAt (findUTXOBlocks blocks).1 t = unspentOf blocks t := by
    unfold findUTXOBlocks
    rw [h.1 t]
    unfold unspentOf
    simp only [outsAt, GoMap.get, List.nil_append]
    congr 1
    funext tx
    exact retainedFrom_spentOfBlocks blocks tx
  rw [GoodMap.get_eq _ hg t, ho]

/-! ## Reindex -/

theorem reindexWrite_get (UB : GoMap Bytes) :
    ∀ (L : List (Bytes × TxOutputs)) (b : Bucket TxOutputs) (bd : Bucket Bytes)
      (r : Bucket TxOutputs × Bucket Bytes),
      (L.map Prod.fst).Nodup → reindexWrite UB L b bd = some r →
      ∀ t, r.1.Get t = if t ∈ L.map Prod.fst then GoMap.get L t else b.Get t
  | [], b, bd, r, _, h => by
    simp only [reindexWrite, Option.some.injEq] at h
    subst h
    intro t
    simp
  | (txID, outs) :: rest, b, bd, r, hnd, h => by
    simp only [reindexWrite] at h
    cases hb : b.Put txID outs with
    | none => simp [hb] at h
    | some b1 =>
      simp only [hb] at h
      cases hbd : bd.Put txID ((UB.get txID).getD (List.replicate HashLength 0)) with
      | none => simp [hbd] at h
      | some bd1 =>
        simp only [hbd] at h
        simp only [List.map_cons, List.nodup_cons] at hnd
        intro t
        rw [reindexWrite_get UB rest b1 bd1 r hnd.2 h t, Bucket.Get_Put b b1 txID t outs hb]
        by_cases ht : txID = t
        · subst ht
          simp [hnd.1, GoMap.get]
        · have ht1 : ¬ t = txID := fun h => ht h.symm
          simp only [ht, if_false, GoMap.get, List.map_cons, List.mem_cons, ht1, false_or]

theorem reindexWrite_isSome (UB : GoMap Bytes) :
    ∀ (L : List (Bytes × TxOutputs)) (b : Bucket TxOutputs) (bd : Bucket Bytes),
      (∀ k ∈ L.map Prod.fst, validKey k) → ∃ r, reindexWrite UB L b bd = some r
  | [], b, bd, _ => ⟨(b, bd), rfl⟩
  | (txID, outs) :: rest, b, bd, hk => by
    have hv : validKey txID := hk txID (by simp)
    simp only [reindexWrite, Bucket.Put_isSome _ _ _ hv]
    exact reindexWrite_isSome UB rest _ _ (fun k hmem => hk k (by
      simp only [List.map_cons, List.mem_cons]
      exact Or.inr hmem))

theorem chainFrom_congr (db db1 : DB) (h : db1.blocks = db.blocks) :
    ∀ (fuel : Nat) (currentHash : Bytes),
      chainFrom db1 fuel currentHash = chainFrom db fuel currentHash
  | 0, _ => rfl
  | fuel + 1, currentHash => by
    simp only [chainFrom, iteratorNext, h]
    cases hb : db.blocks with
    | none => rfl
    | some b =>
      simp only []
      cases hd : DeserializeBlock (b.Get currentHash) with
      | none => rfl
      | some block =>
        simp only []
        rw [chainFrom_congr db db1 h fuel block.PrevBlockHash]

/-- C3: on a chain that iterates from the tip to a genesis block, Reindex completes whenever
every transaction id of the chain is a key the store accepts, and after Reindex the UTXO
bucket holds under every key t exactly the outputs, in their original order, of the
transactions with id t that no input of a non-coinbase transaction of the chain references
by (t, index); it holds no entry where that list is empty, so it has no other keys. -/
theorem Reindex_utxo_bucket (u : UTXOSet) (fuel : Nat) (blocks : List Block)
    (hchain : chainFrom u.Blockchain.Db fuel u.Blockchain.Tip = some blocks) :
    ((∀ tx ∈ chainTxs blocks, validKey tx.ID) → ∃ db, u.Reindex fuel = some db) ∧
    ∀ db, u.Reindex fuel = some db →
      ∃ b, db.utxo = some b ∧
        ∀ t, b.Get t = if unspentOf blocks t = [] then none else some ⟨unspentOf blocks t⟩ := by
  have hc : chainFrom { u.Blockchain.Db with utxo := some [], utxoBlock := some [] } fuel
      u.Blockchain.Tip = some blocks := by
    exact (chainFrom_congr u.Blockchain.Db
      { u.Blockchain.Db with utxo := some [], utxoBlock := some [] } rfl fuel _).trans hchain
  have hspec := utxoOfBlocks_spec (spentOfBlocks blocks) blocks ([], [])
  have hgood : GoodMap (findUTXOBlocks blocks).1 :=
    hspec.2.1 ⟨List.nodup_nil, fun t o ho => by simp [GoMap.get] at ho⟩
  constructor
  · intro hkeys
    have hvalid : ∀ k ∈ (findUTXOBlocks blocks).1.map Prod.fst, validKey k := by
      intro k hk
      rcases hspec.2.2 k hk with h1 | ⟨tx, h1, h2⟩
      · simp at h1
      · rw [← h2]
        exact hkeys tx h1
    obtain ⟨r, hr⟩ := reindexWrite_isSome (findUTXOBlocks blocks).2
      (findUTXOBlocks blocks).1 [] [] hvalid
    refine ⟨{ u.Blockchain.Db with utxo := some r.1, utxoBlock := some r.2 }, ?_⟩
    simp only [UTXOSet.Reindex, Blockchain.FindUTXO, hc, hr]
  · intro db hdb
    simp only [UTXOSet.Reindex, Blockchain.FindUTXO, hc] at hdb
    cases hr : reindexWrite (findUTXOBlocks blocks).2 (findUTXOBlocks blocks).1 [] [] with
    | none => simp [hr] at hdb
    | some r =>
      simp only [hr, Option.some.injEq] at hdb
      subst hdb
      refine ⟨r.1, rfl, ?_⟩
      intro t
      rw [reindexWrite_get _ _ _ _ r hgood.1 hr t, ← findUTXOBlocks_get blocks t]
      by_cases hm : t ∈ (findUTXOBlocks blocks).1.map Prod.fst
      · simp [hm]
      · simp [hm, Bucket.Get, GoMap.get_eq_none _ _ hm]

/-- Witness of C3: the sample chain of three blocks. -/
theorem Reindex_utxo_bucket_witness :
    chainFrom sampleDB 3 [12] = some [sampleBlock2, sampleBlock1, sampleBlock0] ∧
    ∃ db b, (UTXOSet.mk ⟨[12], sampleDB⟩).Reindex 3 = some db ∧ db.utxo = some b ∧
      b.Get [2] = some ⟨[⟨6, [9]⟩]⟩ ∧ b.Get [7] = none ∧ b.Get [3] = some ⟨[⟨4, [6]⟩]⟩ := by
  have hchain : chainFrom sampleDB 3 [12]
      = some [sampleBlock2, sampleBlock1, sampleBlock0] := by decide
  have h := Reindex_utxo_bucket (UTXOSet.mk ⟨[12], sampleDB⟩) 3 _ hchain
  obtain ⟨db, hdb⟩ := h.1 (by decide)
  obtain ⟨b, hb, hget⟩ := h.2 db hdb
  refine ⟨hchain, db, b, hdb, hb, ?_, ?_, ?_⟩
  · rw [hget [2]]
    decide
  · rw [hget [7]]
    decide
  · rw [hget [3]]
    decide

/-! ## Update and the positions of the stored outputs -/

/-- C4 (the code departs from the claim): on the sample chain of four blocks, where
sampleTx2 spends output 0 and sampleTx3 spends output 1 of sampleTx1, the bucket that
Reindex on the first block followed by three Updates leaves still holds output 1 of
sampleTx1 under its id, and the bucket of a full Reindex holds no entry for it.  When the
last transaction references position 0 instead, as FindSpendableOutputs reports it, the
incremental bucket holds no entry for sampleTx1 and the bucket of a full Reindex holds its
output 1. -/
theorem Update_diverges_from_Reindex :
    sampleIncremental.map (fun db => db.utxo)
      = some (some [([2], ⟨[⟨6, [9]⟩]⟩), ([3], ⟨[⟨4, [6]⟩]⟩), ([4], ⟨[⟨6, [5]⟩]⟩)]) ∧
    sampleFull.map (fun db => db.utxo)
      = some (some [([3], ⟨[⟨4, [6]⟩]⟩), ([4], ⟨[⟨6, [5]⟩]⟩)]) ∧
    sampleIncrementalShifted.map (fun db => db.utxo)
      = some (some [([3], ⟨[⟨4, [6]⟩]⟩), ([4], ⟨[⟨6, [5]⟩]⟩)]) ∧
    sampleFullShifted.map (fun db => db.utxo)
      = some (some [([2], ⟨[⟨6, [9]⟩]⟩), ([3], ⟨[⟨4, [6]⟩]⟩), ([4], ⟨[⟨6, [5]⟩]⟩)]) := by
  refine ⟨?_, ?_, ?_, ?_⟩ <;> decide

/-- C5 (the code departs from the claim): on the sample chain of three blocks, where
sampleTx2 has spent output 0 of sampleTx1, both the bucket written by Reindex and the
bucket written by Update hold the remaining output of sampleTx1 at position 0;
FindSpendableOutputs reports index 0 for it, its index in sampleTx1 is 1, and the input
built from the report references output 0, the one already spent. -/
theorem FindSpendableOutputs_reports_shifted_index :
    (((UTXOSet.mk ⟨[12], sampleDB⟩).Reindex 3).bind
        (fun db => (UTXOSet.mk ⟨[12], db⟩).FindSpendableOutputs [9] 6))
      = some (6, [([2], [0])]) ∧
    (((((UTXOSet.mk ⟨[10], sampleDB⟩).Reindex 1).bind
        (fun db => (UTXOSet.mk ⟨[11], db⟩).Update sampleBlock1)).bind
        (fun db => (UTXOSet.mk ⟨[12], db⟩).Update sampleBlock2)).bind
        (fun db => (UTXOSet.mk ⟨[12], db⟩).FindSpendableOutputs [9] 6))
      = some (6, [([2], [0])]) ∧
    buildInputs [1] [([2], [0])] = [⟨[2], 0, [], [1]⟩] ∧
    indexInt sampleTx1.Vout 0 = some ⟨4, [8]⟩ ∧
    indexInt sampleTx1.Vout 1 = some ⟨6, [9]⟩ ∧
    referenced [sampleBlock2, sampleBlock1, sampleBlock0] [2] 0 = true := by
  refine ⟨?_, ?_, ?_, ?_, ?_, ?_⟩ <;> decide

/-! ## AddBlock -/

theorem readTipBlock_eq_some (b : Bucket BlockEntry) (key h : Bytes) (t : Block) :
    readTipBlock b key = some (h, t) ↔
      b.Get key = some (.raw h) ∧ b.Get h = some (.blockData t) := by
  unfold readTipBlock
  cases hk : b.Get key with
  | none => simp
  | some e =>
    cases e with
    | blockData blk => simp
    | raw lastHash =>
      simp only [Option.some.injEq, BlockEntry.raw.injEq]
      cases hl : b.Get lastHash with
      | none =>
        simp only [DeserializeBlock]
        constructor
        · intro h1
          exact Option.noConfusion h1
        · rintro ⟨h1, h2⟩
          subst h1
          rw [hl] at h2
          exact Option.noConfusion h2
      | some e1 =>
        cases e1 with
        | raw bs =>
          simp only [DeserializeBlock]
          constructor
          · intro h1
            exact Option.noConfusion h1
          · rintro ⟨h1, h2⟩
            subst h1
            rw [hl] at h2
            simp at h2
        | blockData blk =>
          simp only [DeserializeBlock, Option.some.injEq, Prod.mk.injEq]
          constructor
          · rintro ⟨h1, h2⟩
            subst h1
            subst h2
            exact ⟨rfl, hl⟩
          · rintro ⟨h1, h2⟩
            subst h1
            rw [hl] at h2
            simp only [Option.some.injEq, BlockEntry.blockData.injEq] at h2
            exact ⟨rfl, h2⟩

/-- C6 as stated fails: the sample store has the tip sampleBlock1 of height 1; the block
sampleForged has height 5 and a hash that is already a key, so AddBlock returns at once
and the tip pointer does not advance to its hash although its height is greater. -/
theorem AddBlock_duplicate_keeps_tip :
    sampleTipChain.storedTip = some ([11], sampleBlock1) ∧
    ∃ bc1, sampleTipChain.AddBlock sampleForged = some bc1 ∧
      ¬ ((bc1.storedTip.map Prod.fst = some sampleForged.Hash) ↔
          sampleForged.Height > sampleBlock1.Height) := by
  refine ⟨by decide, sampleTipChain, by decide, ?_⟩
  decide

/-- C6, amended: for every store whose key "l" names a stored block t and every block b,
AddBlock(b) completes when b.Hash is already a key or is a key the store accepts; after
AddBlock(b) the key "l" names a stored block of height at least t.Height, and the tip
pointer has advanced to b.Hash (it holds b.Hash and did not before) if and only if b.Hash
was not already a key of the blocks bucket and b.Height is greater than t.Height; bc.Tip
follows the pointer. -/
theorem AddBlock_tip_monotone (bc : Blockchain) (block : Block) (lastHash : Bytes) (t : Block)
    (htip : bc.storedTip = some (lastHash, t)) :
    ((bc.hasKey block.Hash = true ∨ validKey block.Hash) →
        ∃ bc1, bc.AddBlock block = some bc1) ∧
    ∀ bc1, bc.AddBlock block = some bc1 →
      ∃ h1 t1, bc1.storedTip = some (h1, t1) ∧ t1.Height ≥ t.Height ∧
        ((h1 = block.Hash ∧ lastHash ≠ block.Hash) ↔
          (bc.hasKey block.Hash = false ∧ block.Height > t.Height)) ∧
        bc1.Tip = (if bc.hasKey block.Hash = false ∧ block.Height > t.Height
          then block.Hash else bc.Tip) := by
  unfold Blockchain.storedTip at htip
  cases hb : bc.Db.blocks with
  | none => simp [hb] at htip
  | some b =>
    simp only [hb] at htip
    obtain ⟨hl, ht⟩ := (readTipBlock_eq_some b tipKeyEll lastHash t).mp htip
    cases hg : b.Get block.Hash with
    | some e =>
      have hadd : bc.AddBlock block = some bc := by
        simp only [Blockchain.AddBlock, hb, hg]
      have hkey : bc.hasKey block.Hash = true := by
        simp [Blockchain.hasKey, hb, hg]
      refine ⟨fun _ => ⟨bc, hadd⟩, ?_⟩
      intro bc1 h1
      rw [hadd] at h1
      simp only [Option.some.injEq] at h1
      subst h1
      refine ⟨lastHash, t, ?_, le_refl _, ?_, ?_⟩
      · simp only [Blockchain.storedTip, hb]
        exact htip
      · simp [hkey]
      · simp [hkey]
    | none =>
      have hkey : bc.hasKey block.Hash = false := by
        simp [Blockchain.hasKey, hb, hg]
      have hne1 : ¬ block.Hash = tipKeyEll := by
        intro he
        rw [he, hl] at hg
        exact Option.noConfusion hg
      have hne2 : ¬ block.Hash = lastHash := by
        intro he
        rw [he, ht] at hg
        exact Option.noConfusion hg
      have hvl : validKey tipKeyEll := by decide
      -- the bucket after the first Put
      have hl1 : (Bucket.insert b block.Hash (.blockData block)).Get tipKeyEll
          = some (.raw lastHash) := by
        rw [Bucket.Get_insert, if_neg hne1, hl]
      have ht1 : (Bucket.insert b block.Hash (.blockData block)).Get lastHash
          = some (.blockData t) := by
        rw [Bucket.Get_insert, if_neg hne2, ht]
      have hread1 : readTipBlock (Bucket.insert b block.Hash (.blockData block)) tipKeyEll
          = some (lastHash, t) :=
        (readTipBlock_eq_some _ _ _ _).mpr ⟨hl1, ht1⟩
      -- the bucket after the second Put
      have hne3 : ¬ tipKeyEll = block.Hash := fun h => hne1 h.symm
      have hl2 : (Bucket.insert (Bucket.insert b block.Hash (.blockData block)) tipKeyEll
          (.raw block.Hash)).Get tipKeyEll = some (.raw block.Hash) := by
        rw [Bucket.Get_insert, if_pos rfl]
      have ht2 : (Bucket.insert (Bucket.insert b block.Hash (.blockData block)) tipKeyEll
          (.raw block.Hash)).Get block.Hash = some (.blockData block) := by
        rw [Bucket.Get_insert, if_neg hne3, Bucket.Get_insert, if_pos rfl]
      have hread2 : readTipBlock (Bucket.insert (Bucket.insert b block.Hash
          (.blockData block)) tipKeyEll (.raw block.Hash)) tipKeyEll
          = some (block.Hash, block) :=
        (readTipBlock_eq_some _ _ _ _).mpr ⟨hl2, ht2⟩
      constructor
      · rintro (h | hv)
        · rw [hkey] at h
          exact absurd h (by simp)
        · simp only [Blockchain.AddBlock, hb, hg, Bucket.Put_isSome _ _ _ hv, hread1,
            Bucket.Put_isSome _ _ _ hvl]
          by_cases hh : block.Height > t.Height
          · exact ⟨_, by rw [if_pos hh]⟩
          · exact ⟨_, by rw [if_neg hh]⟩
      · intro bc1 h1
        simp only [Blockchain.AddBlock, hb, hg] at h1
        cases hp : b.Put block.Hash (.blockData block) with
        | none => simp [hp] at h1
        | some b1 =>
          have hv := Bucket.Put_validKey _ _ _ _ hp
          rw [Bucket.Put_isSome _ _ _ hv] at hp
          simp only [Option.some.injEq] at hp
          subst hp
          simp only [Bucket.Put_isSome _ _ _ hv, hread1, Bucket.Put_isSome _ _ _ hvl] at h1
          by_cases hh : block.Height > t.Height
          · rw [if_pos hh] at h1
            simp only [Option.some.injEq] at h1
            subst h1
            refine ⟨block.Hash, block, ?_, le_of_lt hh, ?_, ?_⟩
            · simp only [Blockchain.storedTip]
              exact hread2
            · simp [hkey, hh, Ne.symm hne2]
            · simp [hkey, hh]
          · rw [if_neg hh] at h1
            simp only [Option.some.injEq] at h1
            subst h1
            refine ⟨lastHash, t, ?_, le_refl _, ?_, ?_⟩
            · simp only [Blockchain.storedTip]
              exact hread1
            · simp [hkey, hh]
            · simp [hkey, hh]

/-- Witness of C6: sampleBlock2 is new to the sample store and higher than its tip. -/
theorem AddBlock_tip_monotone_witness :
    sampleTipChain.storedTip = some ([11], sampleBlock1) ∧
    ∃ bc1 h1 t1, sampleTipChain.AddBlock sampleBlock2 = some bc1 ∧
      bc1.storedTip = some (h1, t1) ∧ h1 = [12] ∧ t1.Height ≥ 1 ∧ bc1.Tip = [12] := by
  have htip : sampleTipChain.storedTip = some ([11], sampleBlock1) := by decide
  have h := AddBlock_tip_monotone sampleTipChain sampleBlock2 [11] sampleBlock1 htip
  obtain ⟨bc1, hbc1⟩ := h.1 (Or.inr (by decide))
  obtain ⟨h1, t1, hst, hge, hiff, htipf⟩ := h.2 bc1 hbc1
  have hcond : sampleTipChain.hasKey sampleBlock2.Hash = false ∧
      sampleBlock2.Height > sampleBlock1.Height := by decide
  refine ⟨htip, bc1, h1, t1, hbc1, hst, (hiff.mpr hcond).1, hge, ?_⟩
  rw [htipf, if_pos hcond]
  rfl

/-! ## MineBlock and the tip key -/

/-- C7 (the code departs from the claim): whenever MineBlock returns a block, the store held
a tip t under the key "1", the block's PrevBlockHash is the hash stored under that key, and
the block's Height is t.Height itself, not t.Height + 1. -/
theorem MineBlock_height_is_tip_height (P : Prims) (bc : Blockchain)
    (transactions : List Transaction) (clock : Nat → Int) (now : Int)
    (newBlock : Block) (bc1 : Blockchain)
    (h : bc.MineBlock P transactions clock now = some (newBlock, bc1)) :
    ∃ lastHash t, bc.storedTipOne = some (lastHash, t) ∧
      newBlock.PrevBlockHash = lastHash ∧ newBlock.Height = t.Height ∧
      newBlock.Height ≠ t.Height + 1 := by
  unfold Blockchain.MineBlock at h
  cases hv : verifyAll P bc clock transactions 0 with
  | none => simp [hv] at h
  | some u =>
    simp only [hv] at h
    cases hb : bc.Db.blocks with
    | none => simp [hb] at h
    | some b =>
      simp only [hb] at h
      cases hr : readTipBlock b tipKeyOne with
      | none => simp [hr] at h
      | some res =>
        obtain ⟨lastHash, t⟩ := res
        simp only [hr] at h
        cases hn : NewBlock P transactions lastHash t.Height now with
        | none => simp [hn] at h
        | some nb =>
          simp only [hn] at h
          cases hp1 : b.Put nb.Hash (.blockData nb) with
          | none => simp [hp1] at h
          | some b1 =>
            simp only [hp1] at h
            cases hp2 : b1.Put tipKeyOne (.raw nb.Hash) with
            | none => simp [hp2] at h
            | some b2 =>
              simp only [hp2, Option.some.injEq, Prod.mk.injEq] at h
              obtain ⟨h1, _⟩ := h
              subst h1
              unfold NewBlock at hn
              simp only at hn
              cases hrun : Run P (NewProofOfWork ⟨now, transactions, lastHash, 0, [], t.Height⟩)
                with
              | none => simp [hrun] at hn
              | some res =>
                obtain ⟨nonce, hash⟩ := res
                simp only [hrun, Option.some.injEq] at hn
                subst hn
                refine ⟨lastHash, t, ?_, rfl, rfl, ?_⟩
                · simp only [Blockchain.storedTipOne, hb]
                  exact hr
                · simp only
                  omega

theorem NewBlock_zeroPrims_single (tx : Transaction) (prevBlockHash : Bytes)
    (height now : Int) :
    NewBlock zeroPrims [tx] prevBlockHash height now
      = some ⟨now, [tx], prevBlockHash, 0, List.replicate 32 0, height⟩ := by
  have h := runLoop_accept_first zeroPrims
    (NewProofOfWork ⟨now, [tx], prevBlockHash, 0, [], height⟩) 0
    (List.replicate 32 0)
    (prevBlockHash ++ List.replicate 32 0 ++ IntToHex now ++ IntToHex 24 ++ IntToHex 0)
    (by decide)
    (by
      simp [prepareData, HashTransactions, NewProofOfWork, NewMerkleTree, leafNodes,
        levelLoop, pairLevel, NewMerkleNode, MerkleNode.Data, zeroPrims, targetBits])
    (by
      show bytesToNat (List.replicate 32 0) < 1 <<< (256 - targetBits)
      decide)
  simp only [NewBlock, Run, h]
  rfl

/-- Witness of C1: a block mined from one coinbase with the sample primitives. -/
theorem NewBlock_pow_sound_witness :
    NewBlock zeroPrims [sampleCoinbase] [] 0 5
      = some ⟨5, [sampleCoinbase], [], 0, List.replicate 32 0, 0⟩ ∧
    (0 : Int) < maxNonce ∧
    bytesToNat (List.replicate 32 0) < 2 ^ (256 - 24) ∧
    Validate zeroPrims (NewProofOfWork ⟨5, [sampleCoinbase], [], 0, List.replicate 32 0, 0⟩)
      = some true := by
  have hb := NewBlock_zeroPrims_single sampleCoinbase [] 0 5
  have h := NewBlock_pow_sound zeroPrims [sampleCoinbase] [] 0 5 _ hb (by decide)
  obtain ⟨_, _, _, _, root, _, _, h3, h4⟩ := h
  exact ⟨hb, by decide, h3, h4⟩

/-- Witness of C7: mining one coinbase on the sample chain whose tip has height 0. -/
theorem MineBlock_height_is_tip_height_witness :
    ∃ newBlock bc1, sampleOneChain.MineBlock zeroPrims [sampleCoinbase] (fun _ => 0) 9
        = some (newBlock, bc1) ∧
      sampleOneChain.storedTipOne = some ([10], sampleBlock0) ∧
      newBlock.Height = 0 ∧ newBlock.PrevBlockHash = [10] := by
  have hm : sampleOneChain.MineBlock zeroPrims [sampleCoinbase] (fun _ => 0) 9
      = some (⟨9, [sampleCoinbase], [10], 0, List.replicate 32 0, 0⟩,
          ⟨List.replicate 32 0,
            ⟨some [(List.replicate 32 0,
                .blockData ⟨9, [sampleCoinbase], [10], 0, List.replicate 32 0, 0⟩),
              ([10], .blockData sampleBlock0), ([49], .raw (List.replicate 32 0))],
             none, none⟩⟩) := by
    have hv : verifyAll zeroPrims sampleOneChain (fun _ => 0) [sampleCoinbase] 0 = some () := by
      decide
    have hr : readTipBlock [([10], BlockEntry.blockData sampleBlock0), ([49], .raw [10])]
        tipKeyOne = some ([10], sampleBlock0) := by decide
    simp only [Blockchain.MineBlock, hv, sampleOneChain, hr, NewBlock_zeroPrims_single]
    decide
  obtain ⟨lastHash, t, ht, hprev, hheight, _⟩ :=
    MineBlock_height_is_tip_height zeroPrims sampleOneChain [sampleCoinbase] (fun _ => 0) 9
      _ _ hm
  have hst : sampleOneChain.storedTipOne = some ([10], sampleBlock0) := by decide
  rw [hst] at ht
  simp only [Option.some.injEq, Prod.mk.injEq] at ht
  refine ⟨_, _, hm, hst, ?_, ?_⟩
  · rw [hheight, ← ht.2]
    rfl
  · rw [hprev, ← ht.1]

theorem readTipBlock_none_of_not_raw (b : Bucket BlockEntry) (key : Bytes)
    (h : ∀ lastHash, b.Get key ≠ some (.raw lastHash)) : readTipBlock b key = none := by
  unfold readTipBlock
  cases hk : b.Get key with
  | none => rfl
  | some e =>
    cases e with
    | blockData blk => rfl
    | raw lastHash => exact absurd hk (h lastHash)

/-- C8 (the code departs from the claim): the chain that CreatBlockchain returns holds its
tip under the key "1" and nothing that AddBlock and GetBestHeight can read under the key
"l"; GetBestHeight panics on it, and so does AddBlock for every block whose hash is not yet
a key. -/
theorem CreatBlockchain_tip_unread (P : Prims) (address : Bytes) (nowTx nowBlock : Int)
    (bc : Blockchain) (h : CreatBlockchain P address nowTx nowBlock = some bc) :
    (∃ b, bc.Db.blocks = some b ∧ b.Get tipKeyOne = some (.raw bc.Tip)) ∧
    bc.storedTip = none ∧ bc.GetBestHeight = none ∧
    ∀ block : Block, bc.hasKey block.Hash = false → bc.AddBlock block = none := by
  unfold CreatBlockchain at h
  cases hcb : NewCoinbaseTX P address genesisCoinbaseData nowTx with
  | none => simp [hcb] at h
  | some cbtx =>
    simp only [hcb] at h
    cases hg : NewGenesisBlock P cbtx nowBlock with
    | none => simp [hg] at h
    | some genesis =>
      simp only [hg] at h
      cases hp1 : Bucket.Put ([] : Bucket BlockEntry) genesis.Hash (.blockData genesis) with
      | none => simp [hp1] at h
      | some b1 =>
        simp only [hp1] at h
        cases hp2 : b1.Put tipKeyOne (.raw genesis.Hash) with
        | none => simp [hp2] at h
        | some b2 =>
          simp only [hp2, Option.some.injEq] at h
          subst h
          have hne : ¬ tipKeyOne = tipKeyEll := by decide
          have hell : ∀ lastHash, b2.Get tipKeyEll ≠ some (.raw lastHash) := by
            intro lastHash
            rw [Bucket.Get_Put _ _ _ tipKeyEll _ hp2, if_neg hne,
              Bucket.Get_Put _ _ _ tipKeyEll _ hp1]
            split <;> simp [Bucket.Get]
          have hread : readTipBlock b2 tipKeyEll = none :=
            readTipBlock_none_of_not_raw b2 tipKeyEll hell
          refine ⟨⟨b2, rfl, ?_⟩, ?_, ?_, ?_⟩
          · rw [Bucket.Get_Put _ _ _ tipKeyOne _ hp2, if_pos rfl]
          · simp only [Blockchain.storedTip, hread]
          · simp only [Blockchain.GetBestHeight, hread]
          · intro block hkey
            have hget : b2.Get block.Hash = none := by
              simp only [Blockchain.hasKey] at hkey
              cases hgb : b2.Get block.Hash with
              | none => rfl
              | some e => simp [hgb] at hkey
            simp only [Blockchain.AddBlock, hget]
            cases hp3 : b2.Put block.Hash (.blockData block) with
            | none => rfl
            | some b3 =>
              have hell3 : ∀ lastHash, b3.Get tipKeyEll ≠ some (.raw lastHash) := by
                intro lastHash
                rw [Bucket.Get_Put _ _ _ tipKeyEll _ hp3]
                split
                · simp
                · exact hell lastHash
              simp only [readTipBlock_none_of_not_raw b3 tipKeyEll hell3]

/-- Witness of C8: a chain created with the sample primitives. -/
theorem CreatBlockchain_tip_unread_witness :
    ∃ bc, CreatBlockchain zeroPrims [0, 1, 2, 3, 4, 5] 0 0 = some bc ∧
      bc.GetBestHeight = none ∧ bc.AddBlock sampleBlock1 = none := by
  have hcb : NewCoinbaseTX zeroPrims [0, 1, 2, 3, 4, 5] genesisCoinbaseData 0
      = some ⟨List.replicate 32 0, [⟨[], -1, [], genesisCoinbaseData⟩], [⟨10, [1]⟩], 0⟩ := by
    decide
  have hc : ∃ bc, CreatBlockchain zeroPrims [0, 1, 2, 3, 4, 5] 0 0 = some bc := by
    simp only [CreatBlockchain, hcb, NewGenesisBlock, NewBlock_zeroPrims_single]
    exact ⟨_, rfl⟩
  obtain ⟨bc, hbc⟩ := hc
  have h := CreatBlockchain_tip_unread zeroPrims [0, 1, 2, 3, 4, 5] 0 0 bc hbc
  refine ⟨bc, hbc, h.2.2.1, h.2.2.2 sampleBlock1 ?_⟩
  simp only [CreatBlockchain, hcb, NewGenesisBlock, NewBlock_zeroPrims_single] at hbc
  have hbc1 := Option.some.inj hbc
  rw [← hbc1]
  decide

/-! ## The trimmed digest and the stored signature -/

/-- C9 (the code departs from the claim): the digest that the lines shared by Sign and Verify
compute for an input from the trimmed copy is SHA-256 of the serialization of a
transaction whose Timestamp is the clock reading of the call, with the outputs of tx and
the ids and indices of its inputs; for two clock readings the two hashed transactions
differ exactly in that field. -/
theorem trimmed_digest_reads_clock (P : Prims) (tx : Transaction)
    (prevTXs : GoMap Transaction) (inID : Nat) (vin : TxInput) (now1 now2 : Int)
    (c1 c2 : Transaction)
    (h1 : digestStep P (tx.TrimmedCopy now1) prevTXs inID vin = some c1)
    (h2 : digestStep P (tx.TrimmedCopy now2) prevTXs inID vin = some c2) :
    ∃ hashed1 hashed2 : Transaction,
      c1.ID = P.sha256 (P.gobTx hashed1) ∧ c2.ID = P.sha256 (P.gobTx hashed2) ∧
      hashed1.Timestamp = now1 ∧ hashed2.Timestamp = now2 ∧
      hashed2 = { hashed1 with Timestamp := now2 } ∧
      hashed1.Vout = tx.Vout ∧
      hashed1.Vin.map (fun i => (i.Txid, i.Vout)) = tx.Vin.map (fun i => (i.Txid, i.Vout)) ∧
      (hashed1 = hashed2 ↔ now1 = now2) := by
  unfold digestStep at h1 h2
  simp only at h1 h2
  cases hc : (tx.TrimmedCopy now1).Vin[inID]? with
  | none =>
    rw [hc] at h1
    simp at h1
  | some cin =>
    have hc2 : (tx.TrimmedCopy now2).Vin[inID]? = some cin := hc
    cases ho : indexInt ((prevTXs.get vin.Txid).getD zeroTransaction).Vout vin.Vout with
    | none =>
      rw [hc, ho] at h1
      simp at h1
    | some out =>
      rw [hc, ho] at h1
      rw [hc2, ho] at h2
      simp only [Option.some.injEq] at h1 h2
      subst h1
      subst h2
      refine ⟨⟨[], (tx.TrimmedCopy now1).Vin.set inID
          { cin with Signature := [], PubKey := out.PubKeyHash }, (tx.TrimmedCopy now1).Vout, now1⟩,
        ⟨[], (tx.TrimmedCopy now2).Vin.set inID
          { cin with Signature := [], PubKey := out.PubKeyHash }, (tx.TrimmedCopy now2).Vout, now2⟩,
        rfl, rfl, rfl, rfl, rfl, ?_, ?_, ?_⟩
      · simp [Transaction.TrimmedCopy]
      · simp only [Transaction.TrimmedCopy]
        apply List.ext_getElem?
        intro n
        simp only [List.getElem?_map, List.getElem?_set]
        simp only [Transaction.TrimmedCopy, List.getElem?_map] at hc
        by_cases hn : inID = n
        · subst hn
          cases hv : tx.Vin[inID]? with
          | none => simp [hv] at hc
          | some v =>
            simp only [hv, Option.map_some', Option.some.injEq] at hc
            subst hc
            have hlt : inID < tx.Vin.length := by
              by_contra hge
              rw [List.getElem?_eq_none (by omega)] at hv
              exact Option.noConfusion hv
            simp [hv, hlt]
        · cases hv : tx.Vin[n]? <;> simp [hn, hv]
      · constructor
        · intro heq
          exact congrArg Transaction.Timestamp heq
        · intro heq
          subst heq
          rfl

/-- Witness of C9: the first input of sampleTx1, with the clock at 0 and at 1. -/
theorem trimmed_digest_reads_clock_witness :
    ∃ c1 c2 hashed1 hashed2 : Transaction,
      digestStep zeroPrims (sampleTx1.TrimmedCopy 0) [([7], sampleCoinbase)] 0
        ⟨[7], 0, [], [1]⟩ = some c1 ∧
      digestStep zeroPrims (sampleTx1.TrimmedCopy 1) [([7], sampleCoinbase)] 0
        ⟨[7], 0, [], [1]⟩ = some c2 ∧
      c1.ID = zeroPrims.sha256 (zeroPrims.gobTx hashed1) ∧
      c2.ID = zeroPrims.sha256 (zeroPrims.gobTx hashed2) ∧
      hashed1.Timestamp = 0 ∧ hashed2.Timestamp = 1 ∧ hashed1 ≠ hashed2 := by
  have h1 : digestStep zeroPrims (sampleTx1.TrimmedCopy 0) [([7], sampleCoinbase)] 0
      ⟨[7], 0, [], [1]⟩ = some ⟨List.replicate 32 0, [⟨[7], 0, [], []⟩],
        [⟨4, [8]⟩, ⟨6, [9]⟩], 0⟩ := by decide
  have h2 : digestStep zeroPrims (sampleTx1.TrimmedCopy 1) [([7], sampleCoinbase)] 0
      ⟨[7], 0, [], [1]⟩ = some ⟨List.replicate 32 0, [⟨[7], 0, [], []⟩],
        [⟨4, [8]⟩, ⟨6, [9]⟩], 1⟩ := by decide
  obtain ⟨hashed1, hashed2, e1, e2, t1, t2, _, _, _, hiff⟩ :=
    trimmed_digest_reads_clock zeroPrims sampleTx1 [([7], sampleCoinbase)] 0
      ⟨[7], 0, [], [1]⟩ 0 1 _ _ h1 h2
  exact ⟨_, _, hashed1, hashed2, h1, h2, e1, e2, t1, t2,
    fun heq => absurd (hiff.mp heq) (by decide)⟩

/-- C10 (the code departs from the claim): the point (sampleX, sampleY) lies on P-256 and
both numbers lie in [1, n-1]; sampleX has 32 bytes and sampleY 31, so the stored
concatenation has 63 bytes, and the split at len/2 that Verify applies returns neither the
pair (r, s) = (sampleX, sampleY) from the signature nor the point from the public key. -/
theorem splitHalves_loses_short_scalar :
    (1 ≤ sampleX ∧ sampleX < p256N) ∧ (1 ≤ sampleY ∧ sampleY < p256N) ∧
    (sampleY * sampleY) % p256P = (sampleX ^ 3 + (p256P - 3) * sampleX + p256B) % p256P ∧
    (natBytes sampleX).length = 32 ∧ (natBytes sampleY).length = 31 ∧
    splitHalves (encodeSignature sampleX sampleY) ≠ (sampleX, sampleY) ∧
    splitHalves (encodePubKey sampleX sampleY) ≠ (sampleX, sampleY) := by
  refine ⟨by decide, by decide, by decide, by decide, by decide, by decide, by decide⟩

/-! ## Coinbase transactions, transaction ids and addresses -/

/-- C14: a transaction with exactly one input, whose referenced id is empty and whose output
index is -1, satisfies IsCoinbase; Transaction.Verify returns true for every map of
previous transactions and every clock reading, Blockchain.VerifyTransaction returns true
for every chain (whatever its buckets hold, or lack), whatever the outputs of the
transaction are, and Transaction.Sign returns the transaction unchanged. -/
theorem coinbase_accepted_unsigned (P : Prims) (tx : Transaction) (vin : TxInput)
    (hvin : tx.Vin = [vin]) (hid : vin.Txid.length = 0) (hout : vin.Vout = -1) :
    tx.IsCoinbase = true ∧
    (∀ (prevTXs : GoMap Transaction) (now : Int), tx.Verify P prevTXs now = some true) ∧
    (∀ (bc : Blockchain) (now : Int), bc.VerifyTransaction P tx now = some true) ∧
    (∀ (privKey : Nat) (prevTXs : GoMap Transaction) (now : Int) (rnd : Nat → Nat),
      tx.Sign P privKey prevTXs now rnd = some tx) := by
  have hcb : tx.IsCoinbase = true := by
    simp [Transaction.IsCoinbase, hvin, hid, hout]
  refine ⟨hcb, ?_, ?_, ?_⟩
  · intro prevTXs now
    simp [Transaction.Verify, hcb]
  · intro bc now
    simp [Blockchain.VerifyTransaction, hcb]
  · intro privKey prevTXs now rnd
    simp [Transaction.Sign, hcb]

/-- Witness of C14: the sample coinbase. -/
theorem coinbase_accepted_unsigned_witness :
    sampleCoinbase.Vin = [⟨[], -1, [], [1]⟩] ∧
    sampleCoinbase.Verify zeroPrims [] 0 = some true ∧
    (Blockchain.mk [] ⟨none, none, none⟩).VerifyTransaction zeroPrims sampleCoinbase 0
      = some true ∧
    sampleCoinbase.Sign zeroPrims 5 [] 0 (fun _ => 0) = some sampleCoinbase := by
  have h := coinbase_accepted_unsigned zeroPrims sampleCoinbase ⟨[], -1, [], [1]⟩ rfl rfl rfl
  exact ⟨rfl, h.2.1 [] 0, h.2.2.1 _ 0, h.2.2.2 5 [] 0 _⟩

/-- C18: Transaction.Hash is SHA-256 of the serialization of the transaction with its ID
cleared; it does not depend on the current ID, and after tx.ID := Hash(tx) a second call
yields tx.ID again.  Hash is a function of the transaction and changes nothing. -/
theorem Hash_ignores_ID (P : Prims) (tx : Transaction) :
    tx.Hash P = P.sha256 (P.gobTx ⟨[], tx.Vin, tx.Vout, tx.Timestamp⟩) ∧
    (∀ id : Bytes, ({ tx with ID := id } : Transaction).Hash P = tx.Hash P) ∧
    ({ tx with ID := tx.Hash P } : Transaction).Hash P
      = ({ tx with ID := tx.Hash P } : Transaction).ID := by
  refine ⟨rfl, fun _ => rfl, rfl⟩

theorem checksum_length (P : Prims) (hlen : ∀ x, (P.sha256 x).length = 32) (payload : Bytes) :
    (checksum P payload).length = 4 := by
  simp [checksum, addressChecksumLen, hlen]

/-- C17: for every wallet, whatever its public-key bytes, ValidateAddress(GetAddress(w))
returns true, given that Base58Decode inverts Base58Encode on the payload version ‖
pub_key_hash ‖ checksum; SHA-256 returns 32 bytes. -/
theorem ValidateAddress_GetAddress (P : Prims) (w : Wallet)
    (hlen : ∀ x, (P.sha256 x).length = 32)
    (hinv : P.base58Decode (P.base58Encode
        ([version] ++ HashPubKey P w.PublicKey
          ++ checksum P ([version] ++ HashPubKey P w.PublicKey)))
      = [version] ++ HashPubKey P w.PublicKey
          ++ checksum P ([version] ++ HashPubKey P w.PublicKey)) :
    ValidateAddress P (w.GetAddress P) = some true := by
  have hc := checksum_length P hlen ([version] ++ HashPubKey P w.PublicKey)
  unfold ValidateAddress Wallet.GetAddress
  simp only [hinv]
  generalize HashPubKey P w.PublicKey = pkh at hc ⊢
  generalize hcs : checksum P ([version] ++ pkh) = cs at hc ⊢
  have hl : ([version] ++ pkh ++ cs).length = pkh.length + 5 := by
    simp [hc]
  have hnot : ¬ ([version] ++ pkh ++ cs).length < 5 := by omega
  rw [if_neg hnot]
  have hdrop : ([version] ++ pkh ++ cs).drop (([version] ++ pkh ++ cs).length
      - addressChecksumLen) = cs := by
    rw [hl]
    have : pkh.length + 5 - addressChecksumLen = ([version] ++ pkh).length := by
      simp [addressChecksumLen]
    rw [this, List.drop_left]
  have htake : (([version] ++ pkh ++ cs).take (([version] ++ pkh ++ cs).length
      - addressChecksumLen)).drop 1 = pkh := by
    rw [hl]
    have : pkh.length + 5 - addressChecksumLen = ([version] ++ pkh).length := by
      simp [addressChecksumLen]
    rw [this, List.take_left]
    rfl
  rw [hdrop, htake]
  simp [← hcs]

/-- Witness of C17: a wallet with the sample primitives. -/
theorem ValidateAddress_GetAddress_witness :
    (∀ x, (zeroPrims.sha256 x).length = 32) ∧
    ValidateAddress zeroPrims ((Wallet.mk 5 [1, 2, 3]).GetAddress zeroPrims) = some true := by
  have hlen : ∀ x, (zeroPrims.sha256 x).length = 32 := fun _ => rfl
  exact ⟨hlen, ValidateAddress_GetAddress zeroPrims ⟨5, [1, 2, 3]⟩ hlen rfl⟩

/-! ## What verification checks -/

theorem verifyLoop_ripemd160 (P : Prims) (f : Bytes → Bytes) (prevTXs : GoMap Transaction) :
    ∀ (vins : List TxInput) (inID : Nat) (txCopy : Transaction),
      verifyLoop { P with ripemd160 := f } prevTXs vins inID txCopy
        = verifyLoop P prevTXs vins inID txCopy
  | [], _, _ => rfl
  | vin :: rest, inID, txCopy => by
    have hd : digestStep { P with ripemd160 := f } txCopy prevTXs inID vin
        = digestStep P txCopy prevTXs inID vin := rfl
    simp only [verifyLoop, hd]
    cases digestStep P txCopy prevTXs inID vin with
    | none => rfl
    | some txCopy1 =>
      simp only [verifyLoop_ripemd160 P f prevTXs rest (inID + 1) txCopy1]

/-- C16 (the code departs from the claim): Transaction.Verify never hashes the public key of
an input: its result is the same whatever function stands for RIPEMD-160 in HashPubKey, so
it cannot depend on HashPubKey(input.PubKey) being the PubKeyHash of the referenced output.
On the sample input, whose public key hashes to a value other than the PubKeyHash 08 of
the output it references, UsesKey is false and Verify returns true as soon as the ECDSA
check passes. -/
theorem Verify_never_hashes_PubKey :
    (∀ (P : Prims) (f : Bytes → Bytes) (tx : Transaction) (prevTXs : GoMap Transaction)
        (now : Int),
      tx.Verify { P with ripemd160 := f } prevTXs now = tx.Verify P prevTXs now) ∧
    indexInt sampleTx1.Vout 0 = some ⟨4, [8]⟩ ∧
    TxInput.UsesKey zeroPrims ⟨[2], 0, [], [2]⟩ [8] = false ∧
    sampleTx2.Verify zeroPrims [([2], sampleTx1)] 0 = some true := by
  refine ⟨?_, by decide, by decide, by decide⟩
  intro P f tx prevTXs now
  simp only [Transaction.Verify]
  split
  · rfl
  · split
    · rfl
    · exact verifyLoop_ripemd160 P f prevTXs tx.Vin 0 _

/-! ## MineBlock refuses a list with a transaction that does not verify -/

theorem verifyAll_rejects (P : Prims) (bc : Blockchain) (clock : Nat → Int) :
    ∀ (txs : List Transaction) (start i : Nat) (tx : Transaction),
      txs[i]? = some tx → bc.VerifyTransaction P tx (clock (start + i)) = some false →
      verifyAll P bc clock txs start = none
  | [], _, i, tx, h, _ => by simp at h
  | t :: rest, start, 0, tx, h, hv => by
    simp only [List.getElem?_cons_zero, Option.some.injEq] at h
    subst h
    simp only [Nat.add_zero] at hv
    simp [verifyAll, hv]
  | t :: rest, start, i + 1, tx, h, hv => by
    simp only [List.getElem?_cons_succ] at h
    have hv1 : bc.VerifyTransaction P tx (clock (start + 1 + i)) = some false := by
      have : start + 1 + i = start + (i + 1) := by omega
      rw [this]
      exact hv
    have ih := verifyAll_rejects P bc clock rest (start + 1) i tx h hv1
    simp only [verifyAll]
    cases hvt : bc.VerifyTransaction P t (clock start) with
    | none => rfl
    | some r =>
      cases r with
      | false => rfl
      | true => exact ih

theorem MineBlockStore_eq (P : Prims) (bc : Blockchain) (transactions : List Transaction)
    (clock : Nat → Int) (now : Int) :
    bc.MineBlockStore P transactions clock now
      = match bc.MineBlock P transactions clock now with
        | some (newBlock, bc1) => (bc1, some newBlock)
        | none => (bc, none) := by
  unfold Blockchain.MineBlockStore Blockchain.MineBlock
  cases verifyAll P bc clock transactions 0 with
  | none => rfl
  | some u =>
    simp only
    cases bc.Db.blocks with
    | none => rfl
    | some b =>
      simp only
      cases readTipBlock b tipKeyOne with
      | none => rfl
      | some res =>
        obtain ⟨lastHash, block⟩ := res
        simp only
        cases NewBlock P transactions lastHash block.Height now with
        | none => rfl
        | some newBlock =>
          simp only
          cases b.Put newBlock.Hash (.blockData newBlock) with
          | none => rfl
          | some b1 =>
            simp only
            cases b1.Put tipKeyOne (.raw newBlock.Hash) with
            | none => rfl
            | some b2 => rfl

/-- C20: if Blockchain.VerifyTransaction returns false for one of the transactions (at the
clock reading of its turn in the verification loop), MineBlock panics in that loop, before
it opens any transaction on the database: it returns no block, and the chain it leaves
behind, blocks bucket, stored tip pointer and bc.Tip, is the chain it was given. -/
theorem MineBlock_rejects_before_write (P : Prims) (bc : Blockchain)
    (transactions : List Transaction) (clock : Nat → Int) (now : Int)
    (i : Nat) (tx : Transaction) (htx : transactions[i]? = some tx)
    (hfalse : bc.VerifyTransaction P tx (clock i) = some false) :
    verifyAll P bc clock transactions 0 = none ∧
    bc.MineBlock P transactions clock now = none ∧
    bc.MineBlockStore P transactions clock now = (bc, none) := by
  have hv : verifyAll P bc clock transactions 0 = none :=
    verifyAll_rejects P bc clock transactions 0 i tx htx (by simpa using hfalse)
  refine ⟨hv, ?_, ?_⟩
  · simp [Blockchain.MineBlock, hv]
  · simp [Blockchain.MineBlockStore, hv]

/-- Witness of C20: sampleTx1 after a coinbase, with a signature check that rejects. -/
theorem MineBlock_rejects_before_write_witness :
    [sampleCoinbase, sampleTx1][1]? = some sampleTx1 ∧
    sampleLocatedChain.VerifyTransaction rejectPrims sampleTx1 0 = some false ∧
    sampleLocatedChain.MineBlock rejectPrims [sampleCoinbase, sampleTx1] (fun _ => 0) 9
      = none ∧
    sampleLocatedChain.MineBlockStore rejectPrims [sampleCoinbase, sampleTx1] (fun _ => 0) 9
      = (sampleLocatedChain, none) := by
  have hf : sampleLocatedChain.VerifyTransaction rejectPrims sampleTx1 0 = some false := by
    decide
  have h := MineBlock_rejects_before_write rejectPrims sampleLocatedChain
    [sampleCoinbase, sampleTx1] (fun _ => 0) 9 1 sampleTx1 rfl hf
  exact ⟨rfl, hf, h.2.1, h.2.2⟩

/-! ## Blocks received from a peer -/

theorem AddBlock_new_block (bc : Blockchain) (block : Block) (b : Bucket BlockEntry)
    (lastHash : Bytes) (t : Block) (hb : bc.Db.blocks = some b)
    (htip : readTipBlock b tipKeyEll = some (lastHash, t))
    (hnew : b.Get block.Hash = none) (hv : validKey block.Hash) :
    ∃ bc1 b1, bc.AddBlock block = some bc1 ∧ bc1.Db.blocks = some b1 ∧
      b1.Get block.Hash = some (.blockData block) ∧
      bc1.Db.utxo = bc.Db.utxo ∧ bc1.Db.utxoBlock = bc.Db.utxoBlock := by
  obtain ⟨hl, ht⟩ := (readTipBlock_eq_some b tipKeyEll lastHash t).mp htip
  have hne1 : ¬ block.Hash = tipKeyEll := by
    intro he
    rw [he, hl] at hnew
    exact Option.noConfusion hnew
  have hne2 : ¬ block.Hash = lastHash := by
    intro he
    rw [he, ht] at hnew
    exact Option.noConfusion hnew
  have hne3 : ¬ tipKeyEll = block.Hash := fun h => hne1 h.symm
  have hvl : validKey tipKeyEll := by decide
  have hread1 : readTipBlock (Bucket.insert b block.Hash (.blockData block)) tipKeyEll
      = some (lastHash, t) := by
    apply (readTipBlock_eq_some _ _ _ _).mpr
    constructor
    · rw [Bucket.Get_insert, if_neg hne1, hl]
    · rw [Bucket.Get_insert, if_neg hne2, ht]
  simp only [Blockchain.AddBlock, hb, hnew, Bucket.Put_isSome _ _ _ hv, hread1,
    Bucket.Put_isSome _ _ _ hvl]
  by_cases hh : block.Height > t.Height
  · rw [if_pos hh]
    refine ⟨_, _, rfl, rfl, ?_, rfl, rfl⟩
    rw [Bucket.Get_insert, if_neg hne3, Bucket.Get_insert, if_pos rfl]
  · rw [if_neg hh]
    refine ⟨_, _, rfl, rfl, ?_, rfl, rfl⟩
    rw [Bucket.Get_insert, if_pos rfl]

theorem Update_keeps_blocks (u : UTXOSet) (block : Block) (db : DB)
    (h : u.Update block = some db) : db.blocks = u.Blockchain.Db.blocks := by
  unfold UTXOSet.Update at h
  simp only at h
  cases hu : u.Blockchain.Db.utxo with
  | none =>
    simp only [hu] at h
    cases htx : block.Transactions with
    | nil =>
      simp only [htx, Option.some.injEq] at h
      subst h
      rfl
    | cons tx rest => simp [htx] at h
  | some b =>
    simp only [hu] at h
    cases hr : updateTxs block.Hash block.Transactions (b, u.Blockchain.Db.utxoBlock.getD [])
      with
    | none => simp [hr] at h
    | some res =>
      obtain ⟨b1, blockb1⟩ := res
      simp only [hr, Option.some.injEq] at h
      subst h
      rfl

/-- A block that satisfies no block invariant is written by handleBlock: sampleBlock2
carries a one-byte Hash, which is the SHA-256 of no header, and handleBlock writes it to the
blocks bucket of the sample store. -/
theorem handleBlock_stores_invalid_block :
    (∀ P : Prims, (∀ x, (P.sha256 x).length = 32) → ¬ blockInvariant P sampleBlock2) ∧
    ∃ node1, handleBlock ⟨sampleTipChain, []⟩ [1] sampleBlock2 = some (node1, []) ∧
      sampleTipChain.storedBlock [12] = none ∧
      node1.bc.storedBlock [12] = some sampleBlock2 := by
  constructor
  · intro P hlen hinv
    obtain ⟨data, _, hhash, _⟩ := hinv
    have h1 := congrArg List.length hhash
    rw [hlen data] at h1
    exact absurd h1 (by decide)
  · refine ⟨_, rfl, ?_, ?_⟩ <;> decide

theorem AddBlock_ignores_nonce (bc : Blockchain) (block : Block) (nonce : Int) :
    (bc.AddBlock block).map (fun a => (a.Tip, a.Db.utxo, a.Db.utxoBlock))
      = (bc.AddBlock { block with Nonce := nonce }).map
          (fun a => (a.Tip, a.Db.utxo, a.Db.utxoBlock)) := by
  unfold Blockchain.AddBlock
  cases hb : bc.Db.blocks with
  | none => rfl
  | some b =>
    simp only
    cases hg : b.Get block.Hash with
    | some e => rfl
    | none =>
      simp only
      by_cases hkey : block.Hash.length = 0 ∨ maxKeySize < block.Hash.length
      · simp only [Bucket.Put, hkey, if_true, Option.map_none']
      · have hell : ¬ (tipKeyEll.length = 0 ∨ maxKeySize < tipKeyEll.length) := by decide
        simp only [Bucket.Put, hkey, hell, if_false, readTipBlock, Bucket.Get_insert]
        by_cases h1 : block.Hash = tipKeyEll
        · simp [h1]
        · simp only [h1, if_false]
          cases he : b.Get tipKeyEll with
          | none => rfl
          | some e =>
            cases e with
            | blockData blk => rfl
            | raw lastHash =>
              simp only
              by_cases h2 : block.Hash = lastHash
              · simp [h2, DeserializeBlock]
              · simp only [h2, if_false]
                cases hd : DeserializeBlock (b.Get lastHash) with
                | none => rfl
                | some lb =>
                  simp only
                  by_cases h3 : block.Height > lb.Height
                  · simp [h3]
                  · simp [h3]

theorem Update_isSome_congr (u1 u2 : UTXOSet) (block1 block2 : Block)
    (hu : u1.Blockchain.Db.utxo = u2.Blockchain.Db.utxo)
    (hl : u1.Blockchain.Db.utxoBlock = u2.Blockchain.Db.utxoBlock)
    (ht : block1.Transactions = block2.Transactions) (hh : block1.Hash = block2.Hash) :
    (u1.Update block1).isSome = (u2.Update block2).isSome := by
  unfold UTXOSet.Update
  simp only [hu, hl, ht, hh]
  cases u2.Blockchain.Db.utxo with
  | none =>
    cases block2.Transactions with
    | nil => rfl
    | cons tx rest => rfl
  | some b =>
    simp only
    cases updateTxs block2.Hash block2.Transactions (b, u2.Blockchain.Db.utxoBlock.getD [])
      with
    | none => rfl
    | some r => rfl

theorem handleBlock_ignores_nonce (node : Node) (addrFrom : Bytes) (block : Block)
    (nonce : Int) :
    (handleBlock node addrFrom block).isSome
      = (handleBlock node addrFrom { block with Nonce := nonce }).isSome := by
  have h := AddBlock_ignores_nonce node.bc block nonce
  unfold handleBlock
  cases h1 : node.bc.AddBlock block with
  | none =>
    cases h2 : node.bc.AddBlock { block with Nonce := nonce } with
    | none => rfl
    | some a2 => simp [h1, h2] at h
  | some a1 =>
    cases h2 : node.bc.AddBlock { block with Nonce := nonce } with
    | none => simp [h1, h2] at h
    | some a2 =>
      simp only [h1, h2, Option.map_some', Option.some.injEq, Prod.mk.injEq] at h
      simp only
      cases node.blocksInTransit with
      | nil => rfl
      | cons blockHash rest =>
        simp only
        have hc := Update_isSome_congr ⟨a1⟩ ⟨a2⟩ block { block with Nonce := nonce }
          h.2.1 h.2.2 rfl rfl
        cases hu1 : (UTXOSet.mk a1).Update block with
        | none =>
          cases hu2 : (UTXOSet.mk a2).Update { block with Nonce := nonce } with
          | none => rfl
          | some d2 => simp [hu1, hu2] at hc
        | some d1 =>
          cases hu2 : (UTXOSet.mk a2).Update { block with Nonce := nonce } with
          | none => simp [hu1, hu2] at hc
          | some d2 => rfl

/-- C15 (the code departs from the claim): handleBlock passes every block it receives to
AddBlock without a check.  On every store the call returns for a block exactly when it
returns for the same block with any other Nonce, so the outcome does not depend on whether
the Hash is the hash of the header.  And AddBlock writes a block to the blocks bucket
whenever the store has a tip under the key "l", the hash of the block is not yet a key and
is a key the store accepts, whatever the Hash, the Nonce and the header of the block are. -/
theorem AddBlock_writes_unvalidated (bc : Blockchain) (block : Block) :
    (∀ (transit : List Bytes) (addrFrom : Bytes) (nonce : Int),
      (handleBlock ⟨bc, transit⟩ addrFrom block).isSome
        = (handleBlock ⟨bc, transit⟩ addrFrom { block with Nonce := nonce }).isSome) ∧
    (∀ (lastHash : Bytes) (t : Block), bc.storedTip = some (lastHash, t) →
      bc.hasKey block.Hash = false → validKey block.Hash →
      (∃ bc1, bc.AddBlock block = some bc1 ∧ bc1.storedBlock block.Hash = some block) ∧
      (∀ addrFrom, ∃ node1 sent, handleBlock ⟨bc, []⟩ addrFrom block = some (node1, sent) ∧
        node1.bc.storedBlock block.Hash = some block) ∧
      (∀ (transit : List Bytes) (addrFrom : Bytes) (node1 : Node) (sent : List Request),
        handleBlock ⟨bc, transit⟩ addrFrom block = some (node1, sent) →
        node1.bc.storedBlock block.Hash = some block)) := by
  refine ⟨fun transit addrFrom nonce =>
    handleBlock_ignores_nonce ⟨bc, transit⟩ addrFrom block nonce, ?_⟩
  intro lastHash t htip hnew hv
  unfold Blockchain.storedTip at htip
  cases hb : bc.Db.blocks with
  | none => simp [hb] at htip
  | some b =>
    simp only [hb] at htip
    have hget : b.Get block.Hash = none := by
      simp only [Blockchain.hasKey, hb] at hnew
      cases hg : b.Get block.Hash with
      | none => rfl
      | some e => simp [hg] at hnew
    obtain ⟨bc1, b1, hadd, hb1, hstored, _, _⟩ :=
      AddBlock_new_block bc block b lastHash t hb htip hget hv
    have hsb : bc1.storedBlock block.Hash = some block := by
      simp [Blockchain.storedBlock, hb1, hstored, DeserializeBlock]
    refine ⟨⟨bc1, hadd, hsb⟩, ?_, ?_⟩
    · intro addrFrom
      exact ⟨⟨bc1, []⟩, [], by simp [handleBlock, hadd], hsb⟩
    · intro transit addrFrom node1 sent hh
      simp only [handleBlock, hadd] at hh
      cases transit with
      | nil =>
        simp only [Option.some.injEq, Prod.mk.injEq] at hh
        rw [← hh.1]
        exact hsb
      | cons blockHash rest =>
        simp only at hh
        cases hu : (UTXOSet.mk bc1).Update block with
        | none => simp [hu] at hh
        | some db =>
          simp only [hu, Option.some.injEq, Prod.mk.injEq] at hh
          rw [← hh.1]
          have hk := Update_keeps_blocks (UTXOSet.mk bc1) block db hu
          simp only [Blockchain.storedBlock, hk, hb1, hstored, DeserializeBlock]

/-- Witness of C15: sampleBlock2, whose one-byte Hash is the hash of no header, and the
sample store with its tip under the key "l".  The block is stored although it satisfies the
block invariants under no SHA-256, and although Validate rejects it where every hash is
32 bytes of 255. -/
theorem AddBlock_writes_unvalidated_witness :
    sampleTipChain.storedTip = some ([11], sampleBlock1) ∧
    sampleTipChain.hasKey sampleBlock2.Hash = false ∧
    (∀ P : Prims, (∀ x, (P.sha256 x).length = 32) → ¬ blockInvariant P sampleBlock2) ∧
    Validate highPrims (NewProofOfWork sampleBlock2) = some false ∧
    ∃ bc1, sampleTipChain.AddBlock sampleBlock2 = some bc1 ∧
      bc1.storedBlock sampleBlock2.Hash = some sampleBlock2 := by
  have htip : sampleTipChain.storedTip = some ([11], sampleBlock1) := by decide
  have hnew : sampleTipChain.hasKey sampleBlock2.Hash = false := by decide
  refine ⟨htip, hnew, ?_, by decide,
    ((AddBlock_writes_unvalidated sampleTipChain sampleBlock2).2 [11] sampleBlock1 htip hnew
      (by decide)).1⟩
  intro P hlen hinv
  obtain ⟨data, _, hhash, _⟩ := hinv
  have h1 := congrArg List.length hhash
  rw [hlen data] at h1
  exact absurd h1 (by decide)

/-! ## The outputs of a value transfer -/

theorem wrapInt64_inInt64 (x : Int) : inInt64 (wrapInt64 x) := by
  unfold inInt64 wrapInt64
  constructor <;> omega

theorem wrapInt64_of_inInt64 (x : Int) (h : inInt64 x) : wrapInt64 x = x := by
  unfold inInt64 at h
  unfold wrapInt64
  omega

theorem spendableOfOutputs_inInt64 (pubkeyHash : Bytes) (amount : Int) (txID : Bytes) :
    ∀ (outs : List TxOutput) (outIdx : Nat) (st : SpendState),
      inInt64 st.accumulated →
      inInt64 (spendableOfOutputs pubkeyHash amount txID outs outIdx st).accumulated
  | [], _, st, h => h
  | out :: rest, outIdx, st, h => by
    simp only [spendableOfOutputs]
    split
    · split
      · exact wrapInt64_inInt64 _
      · exact spendableOfOutputs_inInt64 pubkeyHash amount txID rest (outIdx + 1) _
          (wrapInt64_inInt64 _)
    · split
      · exact h
      · exact spendableOfOutputs_inInt64 pubkeyHash amount txID rest (outIdx + 1) _ h

theorem spendableOfBucket_inInt64 (pubkeyHash : Bytes) (amount : Int) :
    ∀ (b : List (Bytes × TxOutputs)) (st : SpendState),
      inInt64 st.accumulated →
      inInt64 (spendableOfBucket pubkeyHash amount b st).accumulated
  | [], st, h => h
  | (k, outs) :: rest, st, h => by
    have h1 := spendableOfOutputs_inInt64 pubkeyHash amount k outs.Outputs 0 st h
    simp only [spendableOfBucket]
    split
    · exact h1
    · exact spendableOfBucket_inInt64 pubkeyHash amount rest _ h1

theorem FindSpendableOutputs_inInt64 (u : UTXOSet) (pubkeyHash : Bytes) (amount acc : Int)
    (sel : GoMap (List Int))
    (h : u.FindSpendableOutputs pubkeyHash amount = some (acc, sel)) : inInt64 acc := by
  unfold UTXOSet.FindSpendableOutputs at h
  cases hb : u.Blockchain.Db.utxo with
  | none => simp [hb] at h
  | some b =>
    simp only [hb, Option.some.injEq, Prod.mk.injEq] at h
    rw [← h.1]
    exact spendableOfBucket_inInt64 pubkeyHash amount b _ (by unfold inInt64; decide)

theorem signLoop_Vout (P : Prims) (privKey : Nat) (prevTXs : GoMap Transaction)
    (rnd : Nat → Nat) :
    ∀ (vins : List TxInput) (inID : Nat) (txCopy tx signed : Transaction),
      signLoop P privKey prevTXs rnd vins inID txCopy tx = some signed →
      signed.Vout = tx.Vout ∧ signed.ID = tx.ID ∧ signed.Timestamp = tx.Timestamp ∧
      signed.Vin.map (fun i => (i.Txid, i.Vout, i.PubKey))
        = tx.Vin.map (fun i => (i.Txid, i.Vout, i.PubKey))
  | [], _, _, tx, signed, h => by
    simp only [signLoop, Option.some.injEq] at h
    subst h
    exact ⟨rfl, rfl, rfl, rfl⟩
  | vin :: rest, inID, txCopy, tx, signed, h => by
    simp only [signLoop] at h
    cases hd : digestStep P txCopy prevTXs inID vin with
    | none => simp [hd] at h
    | some txCopy1 =>
      cases ho : tx.Vin[inID]? with
      | none => simp [hd, ho] at h
      | some orig =>
        simp only [hd, ho] at h
        have ih := signLoop_Vout P privKey prevTXs rnd rest (inID + 1) txCopy1 _ signed h
        refine ⟨ih.1, ih.2.1, ih.2.2.1, ?_⟩
        rw [ih.2.2.2]
        simp only
        apply List.ext_getElem?
        intro n
        simp only [List.getElem?_map, List.getElem?_set]
        by_cases hn : inID = n
        · subst hn
          have hlt : inID < tx.Vin.length := by
            by_contra hge
            rw [List.getElem?_eq_none (by omega)] at ho
            exact Option.noConfusion ho
          simp [ho, hlt]
        · simp [hn]

theorem Sign_Vout (P : Prims) (tx signed : Transaction) (privKey : Nat)
    (prevTXs : GoMap Transaction) (now : Int) (rnd : Nat → Nat)
    (h : tx.Sign P privKey prevTXs now rnd = some signed) :
    signed.Vout = tx.Vout ∧ signed.ID = tx.ID ∧ signed.Timestamp = tx.Timestamp ∧
    signed.Vin.map (fun i => (i.Txid, i.Vout, i.PubKey))
      = tx.Vin.map (fun i => (i.Txid, i.Vout, i.PubKey)) := by
  unfold Transaction.Sign at h
  split at h
  · simp only [Option.some.injEq] at h
    subst h
    exact ⟨rfl, rfl, rfl, rfl⟩
  · split at h
    · exact Option.noConfusion h
    · exact signLoop_Vout P privKey prevTXs rnd _ 0 _ tx signed h

theorem SignTransaction_Vout (P : Prims) (bc : Blockchain) (tx signed : Transaction)
    (privKey : Nat) (now : Int) (rnd : Nat → Nat)
    (h : bc.SignTransaction P tx privKey now rnd = some signed) :
    signed.Vout = tx.Vout ∧ signed.ID = tx.ID ∧ signed.Timestamp = tx.Timestamp ∧
    signed.Vin.map (fun i => (i.Txid, i.Vout, i.PubKey))
      = tx.Vin.map (fun i => (i.Txid, i.Vout, i.PubKey)) := by
  unfold Blockchain.SignTransaction at h
  cases hc : collectPrevTXs bc tx.Vin [] with
  | none => simp [hc] at h
  | some prevTXs =>
    simp only [hc] at h
    exact Sign_Vout P tx signed privKey prevTXs now rnd h

theorem decodedPubKeyHash_GetAddress (P : Prims) (w : Wallet)
    (hlen : ∀ x, (P.sha256 x).length = 32)
    (hinv : P.base58Decode (P.base58Encode (addressPayload P w)) = addressPayload P w) :
    5 ≤ (P.base58Decode (w.GetAddress P)).length ∧
    decodedPubKeyHash P (w.GetAddress P) = HashPubKey P w.PublicKey := by
  have hc := checksum_length P hlen ([version] ++ HashPubKey P w.PublicKey)
  have hga : P.base58Decode (w.GetAddress P) = addressPayload P w := hinv
  unfold decodedPubKeyHash
  rw [hga]
  unfold addressPayload
  generalize HashPubKey P w.PublicKey = pkh at hc ⊢
  generalize checksum P ([version] ++ pkh) = cs at hc ⊢
  have hl : ([version] ++ pkh ++ cs).length = pkh.length + 5 := by
    simp [hc]
  constructor
  · omega
  · rw [hl]
    have : pkh.length + 5 - 4 = ([version] ++ pkh).length := by simp
    rw [this, List.take_left]
    rfl

theorem NewTxOutput_eq (P : Prims) (value : Int) (address : Bytes) :
    NewTxOutput P value address
      = if (P.base58Decode address).length < 5 then none
        else some ⟨value, decodedPubKeyHash P address⟩ := rfl

/-! ## The selection of FindSpendableOutputs -/

theorem GoMap.set_absent {V : Type} (m : GoMap V) (k : Bytes) (v : V)
    (h : k ∉ m.map Prod.fst) : m.set k v = m ++ [(k, v)] := by
  induction m with
  | nil => rfl
  | cons p rest ih =>
    obtain ⟨k0, v0⟩ := p
    simp only [List.map_cons, List.mem_cons, not_or] at h
    simp [GoMap.set, Ne.symm h.1, ih h.2]

theorem GoMap.set_last {V : Type} (m : GoMap V) (k : Bytes) (old v : V)
    (h : k ∉ m.map Prod.fst) : GoMap.set (m ++ [(k, old)]) k v = m ++ [(k, v)] := by
  induction m with
  | nil => simp [GoMap.set]
  | cons p rest ih =>
    obtain ⟨k0, v0⟩ := p
    simp only [List.map_cons, List.mem_cons, not_or] at h
    have := ih h.2
    simp only [List.cons_append, GoMap.set, Ne.symm h.1, if_false]
    exact congrArg _ this

theorem GoMap.get_last {V : Type} (m : GoMap V) (k : Bytes) (old : V)
    (h : k ∉ m.map Prod.fst) : GoMap.get (m ++ [(k, old)]) k = some old := by
  induction m with
  | nil => simp [GoMap.get]
  | cons p rest ih =>
    obtain ⟨k0, v0⟩ := p
    simp only [List.map_cons, List.mem_cons, not_or] at h
    simp only [List.cons_append, GoMap.get, Ne.symm h.1, if_false]
    exact ih h.2

theorem addIndices_last (m : GoMap (List Int)) (k : Bytes) (h : k ∉ m.map Prod.fst) :
    ∀ (js : List Nat) (old : List Int),
      addIndices (m ++ [(k, old)]) k js
        = m ++ [(k, old ++ js.map (fun (j : Nat) => (j : Int)))]
  | [], old => by simp [addIndices]
  | j :: js, old => by
    have ih := addIndices_last m k h js (old ++ [(j : Int)])
    have h2 : addIndices (m ++ [(k, old)]) k (j :: js)
        = addIndices (GoMap.set (m ++ [(k, old)]) k
            ((GoMap.get (m ++ [(k, old)]) k).getD [] ++ [(j : Int)])) k js := rfl
    rw [h2, GoMap.get_last m k old h, Option.getD_some, GoMap.set_last m k old _ h, ih]
    simp

theorem selectedPairs_addIndices (m : GoMap (List Int)) (k : Bytes)
    (h : k ∉ m.map Prod.fst) (js : List Nat) :
    selectedPairs (addIndices m k js)
      = selectedPairs m ++ js.map (fun (j : Nat) => (k, (j : Int))) := by
  cases js with
  | nil => simp [addIndices]
  | cons j js =>
    have h1 := addIndices_last m k h js [(j : Int)]
    have h2 : addIndices m k (j :: js) = addIndices (m ++ [(k, [(j : Int)])]) k js := by
      have h3 : addIndices m k (j :: js)
          = addIndices (m.set k ((m.get k).getD [] ++ [(j : Int)])) k js := rfl
      rw [h3, GoMap.get_eq_none m k h, Option.getD_none, List.nil_append,
        GoMap.set_absent m k _ h]
    rw [h2, h1]
    simp [selectedPairs]

theorem keys_addIndices (m : GoMap (List Int)) (k : Bytes) :
    ∀ (js : List Nat) (k1 : Bytes), k1 ∈ (addIndices m k js).map Prod.fst →
      k1 = k ∨ k1 ∈ m.map Prod.fst := by
  intro js
  induction js generalizing m with
  | nil =>
    intro k1 h1
    exact Or.inr h1
  | cons j js ih =>
    intro k1 h1
    have h2 : addIndices m k (j :: js)
        = addIndices (m.set k ((m.get k).getD [] ++ [(j : Int)])) k js := rfl
    rw [h2] at h1
    rcases ih _ k1 h1 with h3 | h3
    · exact Or.inl h3
    · rw [GoMap.keys_set] at h3
      split at h3
      · exact Or.inr h3
      · simp only [List.mem_append, List.mem_singleton] at h3
        rcases h3 with h3 | h3
        · exact Or.inr h3
        · exact Or.inl h3

theorem pickItems_append (h : Bytes) (amount : Int) :
    ∀ (xs ys : List (Bytes × Nat × TxOutput)) (acc : Int),
      pickItems h amount (xs ++ ys) acc
        = if (pickItems h amount xs acc).2.2 then pickItems h amount xs acc
          else ((pickItems h amount xs acc).1
                  ++ (pickItems h amount ys (pickItems h amount xs acc).2.1).1,
                (pickItems h amount ys (pickItems h amount xs acc).2.1).2)
  | [], ys, acc => by simp [pickItems]
  | it :: xs, ys, acc => by
    simp only [List.cons_append, pickItems]
    by_cases hp : (it.2.2.IsLockedWithKey h && decide (acc < amount)) = true
    · simp only [hp, if_true]
      by_cases hge : wrapInt64 (acc + it.2.2.Value) ≥ amount
      · simp [hge]
      · simp only [hge, if_false]
        have ih := pickItems_append h amount xs ys (wrapInt64 (acc + it.2.2.Value))
        rw [show xs.append ys = xs ++ ys from rfl, ih]
        split <;> simp
    · simp only [hp, if_false]
      by_cases hge : acc ≥ amount
      · simp [hge]
      · simp only [hge, if_false]
        exact pickItems_append h amount xs ys acc

theorem spendableOfOutputs_pickItems (h : Bytes) (amount : Int) (k : Bytes) :
    ∀ (outs : List TxOutput) (idx : Nat) (st : SpendState),
      spendableOfOutputs h amount k outs idx st
        = ⟨(pickItems h amount (itemsOfOutputs k outs idx) st.accumulated).2.1,
           addIndices st.unspentOutputs k
             ((pickItems h amount (itemsOfOutputs k outs idx) st.accumulated).1.map
               (fun it => it.2.1)),
           st.done || (pickItems h amount (itemsOfOutputs k outs idx) st.accumulated).2.2⟩
  | [], idx, st => by
    simp [spendableOfOutputs, itemsOfOutputs, pickItems, addIndices]
  | out :: rest, idx, st => by
    simp only [spendableOfOutputs, itemsOfOutputs, pickItems]
    by_cases hp : (out.IsLockedWithKey h && decide (st.accumulated < amount)) = true
    · simp only [hp, if_true]
      by_cases hge : wrapInt64 (st.accumulated + out.Value) ≥ amount
      · simp [hge, addIndices]
      · simp only [hge, if_false]
        rw [spendableOfOutputs_pickItems h amount k rest (idx + 1)]
        simp [addIndices]
    · have ih := spendableOfOutputs_pickItems h amount k rest (idx + 1) st
      by_cases hge : st.accumulated ≥ amount
      · simp [hp, hge, addIndices]
      · simp [hp, hge, ih]

theorem pickItems_sublist (h : Bytes) (amount : Int) :
    ∀ (xs : List (Bytes × Nat × TxOutput)) (acc : Int),
      List.Sublist (pickItems h amount xs acc).1 xs
  | [], acc => by simp [pickItems]
  | it :: xs, acc => by
    simp only [pickItems]
    split
    · split
      · simp
      · exact List.Sublist.cons₂ it (pickItems_sublist h amount xs _)
    · split
      · simp
      · exact List.Sublist.cons it (pickItems_sublist h amount xs acc)

theorem pickItems_locked (h : Bytes) (amount : Int) :
    ∀ (xs : List (Bytes × Nat × TxOutput)) (acc : Int),
      ∀ it ∈ (pickItems h amount xs acc).1, it.2.2.IsLockedWithKey h = true
  | [], acc => by simp [pickItems]
  | x :: xs, acc => by
    intro it hit
    simp only [pickItems] at hit
    split at hit
    · rename_i hp
      simp only [Bool.and_eq_true] at hp
      split at hit
      · simp only [List.mem_singleton] at hit
        subst hit
        exact hp.1
      · simp only [List.mem_cons] at hit
        rcases hit with hit | hit
        · subst hit
          exact hp.1
        · exact pickItems_locked h amount xs _ it hit
    · split at hit
      · simp at hit
      · exact pickItems_locked h amount xs acc it hit

theorem wrapInt64_add_left (a b : Int) : wrapInt64 (wrapInt64 a + b) = wrapInt64 (a + b) := by
  unfold wrapInt64
  omega

theorem pickItems_total (h : Bytes) (amount : Int) :
    ∀ (xs : List (Bytes × Nat × TxOutput)) (acc : Int), inInt64 acc →
      (pickItems h amount xs acc).2.1
        = wrapInt64 (acc + ((pickItems h amount xs acc).1.map (fun it => it.2.2.Value)).sum)
  | [], acc, hacc => by simp [pickItems, wrapInt64_of_inInt64 acc hacc]
  | x :: xs, acc, hacc => by
    simp only [pickItems]
    split
    · split
      · simp
      · have ih := pickItems_total h amount xs _ (wrapInt64_inInt64 (acc + x.2.2.Value))
        simp only [List.map_cons, List.sum_cons]
        rw [ih, wrapInt64_add_left, add_assoc]
    · split
      · simp [wrapInt64_of_inInt64 acc hacc]
      · exact pickItems_total h amount xs acc hacc

theorem pickItems_last (h : Bytes) (amount : Int) :
    ∀ (xs : List (Bytes × Nat × TxOutput)) (acc : Int), inInt64 acc →
      ∀ (init : List (Bytes × Nat × TxOutput)) (last : Bytes × Nat × TxOutput),
        (pickItems h amount xs acc).1 = init ++ [last] →
        wrapInt64 (acc + (init.map (fun it => it.2.2.Value)).sum) < amount
  | [], acc, _, init, last, hl => by simp [pickItems] at hl
  | x :: xs, acc, hacc, init, last, hl => by
    simp only [pickItems] at hl
    split at hl
    · rename_i hp
      simp only [Bool.and_eq_true, decide_eq_true_eq] at hp
      split at hl
      · cases init with
        | nil => simpa [wrapInt64_of_inInt64 acc hacc] using hp.2
        | cons i0 init1 =>
          simp only [List.cons_append, List.cons.injEq] at hl
          exact absurd hl.2.symm (by simp)
      · cases init with
        | nil =>
          simpa [wrapInt64_of_inInt64 acc hacc] using hp.2
        | cons i0 init1 =>
          simp only [List.cons_append, List.cons.injEq] at hl
          have ih := pickItems_last h amount xs _ (wrapInt64_inInt64 (acc + x.2.2.Value))
            init1 last hl.2
          rw [wrapInt64_add_left] at ih
          rw [← hl.1]
          simpa [add_assoc] using ih
    · split at hl
      · simp at hl
      · exact pickItems_last h amount xs acc hacc init last hl

theorem mem_itemsOfOutputs (k : Bytes) :
    ∀ (outs : List TxOutput) (i : Nat) (it : Bytes × Nat × TxOutput),
      it ∈ itemsOfOutputs k outs i →
      it.1 = k ∧ i ≤ it.2.1 ∧ outs[it.2.1 - i]? = some it.2.2
  | [], _, it, h => by simp [itemsOfOutputs] at h
  | out :: rest, i, it, h => by
    simp only [itemsOfOutputs, List.mem_cons] at h
    rcases h with h | h
    · subst h
      simp
    · have ih := mem_itemsOfOutputs k rest (i + 1) it h
      refine ⟨ih.1, by omega, ?_⟩
      have : it.2.1 - i = (it.2.1 - (i + 1)) + 1 := by omega
      rw [this, List.getElem?_cons_succ]
      exact ih.2.2

theorem itemsOfOutputs_nodup (k : Bytes) :
    ∀ (outs : List TxOutput) (i : Nat),
      ((itemsOfOutputs k outs i).map (fun it => (it.1, (it.2.1 : Int)))).Nodup
  | [], _ => by simp [itemsOfOutputs]
  | out :: rest, i => by
    simp only [itemsOfOutputs, List.map_cons, List.nodup_cons]
    refine ⟨?_, itemsOfOutputs_nodup k rest (i + 1)⟩
    intro hmem
    simp only [List.mem_map, Prod.mk.injEq] at hmem
    obtain ⟨it, hit, _, hidx⟩ := hmem
    have := (mem_itemsOfOutputs k rest (i + 1) it hit).2.1
    omega

theorem mem_itemsOfBucket_key :
    ∀ (b : List (Bytes × TxOutputs)) (it : Bytes × Nat × TxOutput),
      it ∈ itemsOfBucket b → it.1 ∈ b.map Prod.fst := by
  intro b it h
  simp only [itemsOfBucket, List.mem_flatMap] at h
  obtain ⟨p, hp, hit⟩ := h
  rw [(mem_itemsOfOutputs p.1 p.2.Outputs 0 it hit).1]
  exact List.mem_map_of_mem Prod.fst hp

theorem itemsOfBucket_cons (k : Bytes) (outs : TxOutputs) (rest : List (Bytes × TxOutputs)) :
    itemsOfBucket ((k, outs) :: rest)
      = itemsOfOutputs k outs.Outputs 0 ++ itemsOfBucket rest := by
  simp [itemsOfBucket]

theorem itemsOfBucket_nodup :
    ∀ (b : List (Bytes × TxOutputs)), (b.map Prod.fst).Nodup →
      ((itemsOfBucket b).map (fun it => (it.1, (it.2.1 : Int)))).Nodup
  | [], _ => by simp [itemsOfBucket]
  | (k, outs) :: rest, hk => by
    simp only [List.map_cons, List.nodup_cons] at hk
    rw [itemsOfBucket_cons, List.map_append, List.nodup_append]
    refine ⟨itemsOfOutputs_nodup k outs.Outputs 0, itemsOfBucket_nodup rest hk.2, ?_⟩
    intro e he1 he2
    simp only [List.mem_map] at he1 he2
    obtain ⟨it1, hit1, rfl⟩ := he1
    obtain ⟨it2, hit2, heq⟩ := he2
    simp only [Prod.mk.injEq] at heq
    have h1 := (mem_itemsOfOutputs k outs.Outputs 0 it1 hit1).1
    have h2 := mem_itemsOfBucket_key rest it2 hit2
    rw [heq.1, h1] at h2
    exact hk.1 h2

theorem entryAt_itemsOfBucket :
    ∀ (b : List (Bytes × TxOutputs)), (b.map Prod.fst).Nodup →
      ∀ it ∈ itemsOfBucket b, entryAt b (it.1, (it.2.1 : Int)) = some it.2.2
  | [], _, it, h => by simp [itemsOfBucket] at h
  | (k, outs) :: rest, hk, it, h => by
    simp only [List.map_cons, List.nodup_cons] at hk
    rw [itemsOfBucket_cons, List.mem_append] at h
    rcases h with h | h
    · have hm := mem_itemsOfOutputs k outs.Outputs 0 it h
      simp only [entryAt, Bucket.Get, hm.1, if_true, Option.bind_some, indexInt]
      have : ¬ ((it.2.1 : Int) < 0) := by omega
      simpa [this] using hm.2.2
    · have hkey := mem_itemsOfBucket_key rest it h
      have hne : k ≠ it.1 := by
        intro heq
        rw [← heq] at hkey
        exact hk.1 hkey
      have ih := entryAt_itemsOfBucket rest hk.2 it h
      simpa [entryAt, Bucket.Get, hne] using ih

theorem spendableOfBucket_pickItems (h : Bytes) (amount : Int) :
    ∀ (b : List (Bytes × TxOutputs)) (st : SpendState),
      (b.map Prod.fst).Nodup →
      (∀ k ∈ b.map Prod.fst, k ∉ st.unspentOutputs.map Prod.fst) →
      st.done = false →
      (spendableOfBucket h amount b st).accumulated
        = (pickItems h amount (itemsOfBucket b) st.accumulated).2.1 ∧
      selectedPairs (spendableOfBucket h amount b st).unspentOutputs
        = selectedPairs st.unspentOutputs
          ++ (pickItems h amount (itemsOfBucket b) st.accumulated).1.map
               (fun it => (it.1, (it.2.1 : Int))) ∧
      (spendableOfBucket h amount b st).done
        = (pickItems h amount (itemsOfBucket b) st.accumulated).2.2
  | [], st, _, _, hdone => by
    simp [spendableOfBucket, itemsOfBucket, pickItems, hdone]
  | (k, outs) :: rest, st, hk, hdisj, hdone => by
    simp only [List.map_cons, List.nodup_cons] at hk
    have hkst : k ∉ st.unspentOutputs.map Prod.fst := hdisj k (by simp)
    have hst1 := spendableOfOutputs_pickItems h amount k outs.Outputs 0 st
    have hsub := pickItems_sublist h amount (itemsOfOutputs k outs.Outputs 0) st.accumulated
    have hmap : (pickItems h amount (itemsOfOutputs k outs.Outputs 0) st.accumulated).1.map
          (fun it => (it.1, (it.2.1 : Int)))
        = ((pickItems h amount (itemsOfOutputs k outs.Outputs 0) st.accumulated).1.map
            (fun it => it.2.1)).map (fun (j : Nat) => (k, (j : Int))) := by
      rw [List.map_map]
      apply List.map_congr_left
      intro it hit
      have := (mem_itemsOfOutputs k outs.Outputs 0 it (hsub.subset hit)).1
      simp [this]
    have hsel := selectedPairs_addIndices st.unspentOutputs k hkst
      ((pickItems h amount (itemsOfOutputs k outs.Outputs 0) st.accumulated).1.map
        (fun it => it.2.1))
    rw [itemsOfBucket_cons, pickItems_append]
    simp only [spendableOfBucket]
    rw [hst1]
    simp only [hdone, Bool.false_or]
    generalize hr1 : pickItems h amount (itemsOfOutputs k outs.Outputs 0) st.accumulated = r1
      at hmap hsel ⊢
    cases hd : r1.2.2 with
    | true =>
      simp only [if_true]
      refine ⟨?_, ?_, ?_⟩
      · trivial
      · rw [hsel, hmap]
      · first
          | trivial
          | exact hd.symm
    | false =>
      simp only [Bool.false_eq_true, if_false]
      have ih := spendableOfBucket_pickItems h amount rest
        ⟨r1.2.1, addIndices st.unspentOutputs k (r1.1.map (fun it => it.2.1)), false⟩
        hk.2
        (by
          intro k1 hk1 hmem
          rcases keys_addIndices st.unspentOutputs k _ k1 hmem with h1 | h1
          · rw [h1] at hk1
            exact hk.1 hk1
          · exact hdisj k1 (by simp [hk1]) h1)
        rfl
      simp only at ih
      refine ⟨ih.1, ?_, ih.2.2⟩
      rw [ih.2.1, hsel, List.map_append, hmap, List.append_assoc]

theorem itemsOfOutputs_out_mem (k : Bytes) :
    ∀ (outs : List TxOutput) (i : Nat) (it : Bytes × Nat × TxOutput),
      it ∈ itemsOfOutputs k outs i → it.2.2 ∈ outs
  | [], _, it, h => by simp [itemsOfOutputs] at h
  | out :: rest, i, it, h => by
    simp only [itemsOfOutputs, List.mem_cons] at h
    rcases h with h | h
    · subst h
      simp
    · exact List.mem_cons_of_mem _ (itemsOfOutputs_out_mem k rest (i + 1) it h)

theorem itemsOfBucket_pos (b : List (Bytes × TxOutputs))
    (hpos : ∀ p ∈ b, ∀ out ∈ p.2.Outputs, 0 < out.Value) :
    ∀ it ∈ itemsOfBucket b, 0 < it.2.2.Value := by
  intro it h
  simp only [itemsOfBucket, List.mem_flatMap] at h
  obtain ⟨p, hp, hit⟩ := h
  exact hpos p hp _ (itemsOfOutputs_out_mem p.1 p.2.Outputs 0 it hit)

theorem valueAt_items (b : List (Bytes × TxOutputs)) (hkeys : (b.map Prod.fst).Nodup)
    (xs : List (Bytes × Nat × TxOutput)) (hxs : ∀ it ∈ xs, it ∈ itemsOfBucket b) :
    (xs.map (fun it => (it.1, (it.2.1 : Int)))).map (valueAt b)
      = xs.map (fun it => it.2.2.Value) := by
  rw [List.map_map]
  apply List.map_congr_left
  intro it hit
  simp [valueAt, entryAt_itemsOfBucket b hkeys it (hxs it hit)]

theorem FindSpendableOutputs_pickItems (u : UTXOSet) (b : Bucket TxOutputs) (h : Bytes)
    (amount : Int) (hb : u.Blockchain.Db.utxo = some b) (hkeys : (b.map Prod.fst).Nodup) :
    ∃ sel,
      u.FindSpendableOutputs h amount
        = some ((pickItems h amount (itemsOfBucket b) 0).2.1, sel) ∧
      selectedPairs sel
        = (pickItems h amount (itemsOfBucket b) 0).1.map (fun it => (it.1, (it.2.1 : Int))) := by
  have hspec := spendableOfBucket_pickItems h amount b ⟨0, [], false⟩ hkeys (by simp) rfl
  refine ⟨(spendableOfBucket h amount b ⟨0, [], false⟩).unspentOutputs, ?_, ?_⟩
  · simp only [UTXOSet.FindSpendableOutputs, hb]
    rw [hspec.1]
  · rw [hspec.2.1]
    simp [selectedPairs]

theorem sum_nonneg_of_pos (l : List Int) (h : ∀ v ∈ l, 0 < v) : 0 ≤ l.sum :=
  List.sum_nonneg (fun v hv => le_of_lt (h v hv))

theorem map_eq_append_singleton {α β : Type} (f : α → β) (xs : List α) (init : List β)
    (last : β) (h : xs.map f = init ++ [last]) :
    ∃ pinit plast, xs = pinit ++ [plast] ∧ init = pinit.map f ∧ last = f plast := by
  rw [List.map_eq_append_iff] at h
  obtain ⟨l1, l2, hxs, h1, h2⟩ := h
  cases l2 with
  | nil => simp at h2
  | cons x rest =>
    cases rest with
    | nil =>
      simp only [List.map_cons, List.map_nil, List.cons.injEq, and_true] at h2
      exact ⟨l1, x, hxs, h1.symm, h2.symm⟩
    | cons y rest1 => simp at h2

/-- C13 (counterexample): on a bucket with two outputs of value 2^63 - 2, both locked to the
pub-key-hash 09, and the amount 2^63 - 1, FindSpendableOutputs selects both entries and
returns the total -4, while the values of the selected entries sum to 2^64 - 4. -/
theorem FindSpendableOutputs_total_wraps :
    (∀ p ∈ sampleLargeBucket, ∀ out ∈ p.2.Outputs, 0 < out.Value) ∧
    sampleLargeSet.FindSpendableOutputs [9] 9223372036854775807
      = some (-4, [([7], [0, 1])]) ∧
    ((selectedPairs [([7], [0, 1])]).map (valueAt sampleLargeBucket)).sum
      = 18446744073709551612 := by
  refine ⟨by decide, by decide, by decide⟩

/-- C13 (amended): on a UTXO bucket with positive output values, FindSpendableOutputs
returns (total, sel) where every pair (tx_id, index) of sel designates an entry of the
bucket locked to h, no pair occurs twice, total is the sum of the selected values reduced
to 64 bits, and the reduced sum without the last selected entry is below amount; when the
selected values sum to at most 2^63 - 1, total is their sum and the sum without the last
selected entry is below amount. -/
theorem FindSpendableOutputs_selection (u : UTXOSet) (b : Bucket TxOutputs) (h : Bytes)
    (amount : Int) (hb : u.Blockchain.Db.utxo = some b) (hkeys : (b.map Prod.fst).Nodup)
    (hpos : ∀ p ∈ b, ∀ out ∈ p.2.Outputs, 0 < out.Value) :
    ∃ total sel, u.FindSpendableOutputs h amount = some (total, sel) ∧
      (∀ e ∈ selectedPairs sel,
        ∃ out, entryAt b e = some out ∧ out.IsLockedWithKey h = true) ∧
      (selectedPairs sel).Nodup ∧
      total = wrapInt64 ((selectedPairs sel).map (valueAt b)).sum ∧
      (∀ init last, selectedPairs sel = init ++ [last] →
        wrapInt64 (init.map (valueAt b)).sum < amount) ∧
      (((selectedPairs sel).map (valueAt b)).sum ≤ 9223372036854775807 →
        total = ((selectedPairs sel).map (valueAt b)).sum ∧
        ∀ init last, selectedPairs sel = init ++ [last] →
          (init.map (valueAt b)).sum < amount) := by
  obtain ⟨sel, hfind, hsel⟩ := FindSpendableOutputs_pickItems u b h amount hb hkeys
  have hsub := pickItems_sublist h amount (itemsOfBucket b) 0
  have hlock := pickItems_locked h amount (itemsOfBucket b) 0
  have htot := pickItems_total h amount (itemsOfBucket b) 0 (by unfold inInt64; decide)
  have hlast := pickItems_last h amount (itemsOfBucket b) 0 (by unfold inInt64; decide)
  generalize hr : pickItems h amount (itemsOfBucket b) 0 = r at hfind hsel hsub hlock htot hlast
  obtain ⟨picks, total, done⟩ := r
  simp only [zero_add] at hfind hsel hsub hlock htot hlast
  have hmem : ∀ it ∈ picks, it ∈ itemsOfBucket b := fun it hit => hsub.subset hit
  have hval := valueAt_items b hkeys picks hmem
  have hposPicks : ∀ v ∈ picks.map (fun it => it.2.2.Value), 0 < v := by
    intro v hv
    simp only [List.mem_map] at hv
    obtain ⟨it, hit, rfl⟩ := hv
    exact itemsOfBucket_pos b hpos it (hmem it hit)
  have hlastW : ∀ init last, selectedPairs sel = init ++ [last] →
      wrapInt64 (init.map (valueAt b)).sum < amount ∧
      (init.map (valueAt b)).sum ≤ ((selectedPairs sel).map (valueAt b)).sum ∧
      0 ≤ (init.map (valueAt b)).sum := by
    intro init last hinit
    rw [hsel] at hinit
    obtain ⟨pinit, plast, hp, hi, hl⟩ := map_eq_append_singleton _ picks init last hinit
    have hmemI : ∀ it ∈ pinit, it ∈ itemsOfBucket b := by
      intro it hit
      exact hmem it (by rw [hp]; exact List.mem_append_left _ hit)
    have hvalI := valueAt_items b hkeys pinit hmemI
    have hplast : 0 < plast.2.2.Value :=
      itemsOfBucket_pos b hpos plast (hmem plast (by rw [hp]; simp))
    have hposI : ∀ v ∈ pinit.map (fun it => it.2.2.Value), 0 < v := by
      intro v hv
      apply hposPicks v
      rw [hp, List.map_append]
      exact List.mem_append_left _ hv
    refine ⟨?_, ?_, ?_⟩
    · rw [hi, hvalI]
      exact hlast pinit plast hp
    · rw [hi, hvalI, hsel, hval, hp]
      simp only [List.map_append, List.sum_append, List.map_cons, List.map_nil,
        List.sum_cons, List.sum_nil]
      omega
    · rw [hi, hvalI]
      exact sum_nonneg_of_pos _ hposI
  refine ⟨total, sel, hfind, ?_, ?_, ?_, ?_, ?_⟩
  · intro e he
    rw [hsel] at he
    simp only [List.mem_map] at he
    obtain ⟨it, hit, rfl⟩ := he
    exact ⟨it.2.2, entryAt_itemsOfBucket b hkeys it (hmem it hit), hlock it hit⟩
  · rw [hsel]
    exact List.Nodup.sublist (hsub.map _) (itemsOfBucket_nodup b hkeys)
  · rw [hsel, hval]
    exact htot
  · intro init last hinit
    exact (hlastW init last hinit).1
  · intro hbound
    have hnn : 0 ≤ ((selectedPairs sel).map (valueAt b)).sum := by
      rw [hsel, hval]
      exact sum_nonneg_of_pos _ hposPicks
    refine ⟨?_, ?_⟩
    · rw [htot, ← hval, ← hsel]
      exact wrapInt64_of_inInt64 _ (by unfold inInt64; constructor <;> omega)
    · intro init last hinit
      have h3 := hlastW init last hinit
      rw [wrapInt64_of_inInt64 _ (by unfold inInt64; constructor <;> omega)] at h3
      exact h3.1

theorem FindSpendableOutputs_selection_witness :
    ∃ total sel,
      (UTXOSet.mk samplePaidChain).FindSpendableOutputs (List.replicate 20 0) 4
        = some (total, sel) ∧
      (∀ e ∈ selectedPairs sel,
        ∃ out, entryAt [([7], ⟨[⟨10, List.replicate 20 0⟩]⟩)] e = some out ∧
          out.IsLockedWithKey (List.replicate 20 0) = true) ∧
      (selectedPairs sel).Nodup ∧
      total = wrapInt64
        ((selectedPairs sel).map (valueAt [([7], ⟨[⟨10, List.replicate 20 0⟩]⟩)])).sum ∧
      (∀ init last, selectedPairs sel = init ++ [last] →
        wrapInt64 (init.map (valueAt [([7], ⟨[⟨10, List.replicate 20 0⟩]⟩)])).sum < 4) ∧
      (((selectedPairs sel).map (valueAt [([7], ⟨[⟨10, List.replicate 20 0⟩]⟩)])).sum
          ≤ 9223372036854775807 →
        total = ((selectedPairs sel).map
          (valueAt [([7], ⟨[⟨10, List.replicate 20 0⟩]⟩)])).sum ∧
        ∀ init last, selectedPairs sel = init ++ [last] →
          (init.map (valueAt [([7], ⟨[⟨10, List.replicate 20 0⟩]⟩)])).sum < 4) :=
  FindSpendableOutputs_selection (UTXOSet.mk samplePaidChain)
    [([7], ⟨[⟨10, List.replicate 20 0⟩]⟩)] (List.replicate 20 0) 4 rfl (by decide)
    (by decide)

theorem wrapInt64_le (x : Int) (h : 0 ≤ x) : wrapInt64 x ≤ x := by
  unfold wrapInt64
  omega

theorem FindSpendableOutputs_total_le (u : UTXOSet) (b : Bucket TxOutputs) (h : Bytes)
    (amount acc : Int) (sel : GoMap (List Int))
    (hb : u.Blockchain.Db.utxo = some b) (hkeys : (b.map Prod.fst).Nodup)
    (hpos : ∀ p ∈ b, ∀ out ∈ p.2.Outputs, 0 < out.Value)
    (hf : u.FindSpendableOutputs h amount = some (acc, sel)) :
    acc ≤ ((selectedPairs sel).map (valueAt b)).sum := by
  obtain ⟨sel1, hfind, hsel⟩ := FindSpendableOutputs_pickItems u b h amount hb hkeys
  rw [hf] at hfind
  simp only [Option.some.injEq, Prod.mk.injEq] at hfind
  obtain ⟨hacc, hs⟩ := hfind
  subst hs
  have hsub := pickItems_sublist h amount (itemsOfBucket b) 0
  have htot := pickItems_total h amount (itemsOfBucket b) 0 (by unfold inInt64; decide)
  have hval := valueAt_items b hkeys _ (fun it hit => hsub.subset hit)
  rw [hsel, hval, hacc, htot, zero_add]
  apply wrapInt64_le
  apply sum_nonneg_of_pos
  intro v hv
  simp only [List.mem_map] at hv
  obtain ⟨it, hit, rfl⟩ := hv
  exact itemsOfBucket_pos b hpos it (hsub.subset hit)

/-! ## The outputs of a value transfer: the claim -/

theorem NewUTXOTransaction_shape (P : Prims) (wallet : Wallet) (toAddr : Bytes)
    (amount : Int) (u : UTXOSet) (now nowSign : Int) (rnd : Nat → Nat) (tx : Transaction)
    (hamount : 0 < amount)
    (hlen : ∀ x, (P.sha256 x).length = 32)
    (hinv : P.base58Decode (P.base58Encode (addressPayload P wallet))
      = addressPayload P wallet)
    (h : NewUTXOTransaction P wallet toAddr amount u now nowSign rnd = .ok tx) :
    ∃ acc sel,
      u.FindSpendableOutputs (HashPubKey P wallet.PublicKey) amount = some (acc, sel) ∧
      amount ≤ acc ∧
      tx.Vout = ⟨amount, decodedPubKeyHash P toAddr⟩ ::
        (if acc > amount then [⟨acc - amount, HashPubKey P wallet.PublicKey⟩] else []) ∧
      (tx.Vout.map TxOutput.Value).sum = acc ∧
      tx.Vin.map (fun i => (i.Txid, i.Vout, i.PubKey))
        = (buildInputs wallet.PublicKey sel).map (fun i => (i.Txid, i.Vout, i.PubKey)) ∧
      tx.ID = (Transaction.mk [] (buildInputs wallet.PublicKey sel) tx.Vout now).Hash P := by
  unfold NewUTXOTransaction at h
  simp only at h
  cases hf : u.FindSpendableOutputs (HashPubKey P wallet.PublicKey) amount with
  | none => simp [hf] at h
  | some r =>
    obtain ⟨acc, sel⟩ := r
    simp only [hf] at h
    have hacc := FindSpendableOutputs_inInt64 u _ amount acc sel hf
    by_cases hlt : acc < amount
    · simp [hlt] at h
    · simp only [hlt, if_false] at h
      have hle : amount ≤ acc := not_lt.mp hlt
      refine ⟨acc, sel, rfl, hle, ?_⟩
      rw [NewTxOutput_eq] at h
      by_cases h1 : (P.base58Decode toAddr).length < 5
      · simp [h1] at h
      · simp only [h1, if_false] at h
        have hga := decodedPubKeyHash_GetAddress P wallet hlen hinv
        have hwrap : wrapInt64 (acc - amount) = acc - amount := by
          apply wrapInt64_of_inInt64
          unfold inInt64 at hacc ⊢
          constructor <;> omega
        rw [NewTxOutput_eq, hwrap, hga.2] at h
        have h5 : ¬ (P.base58Decode (wallet.GetAddress P)).length < 5 := by omega
        simp only [h5, if_false] at h
        by_cases hgt : acc > amount
        · simp only [hgt, if_true] at h
          split at h
          · exact Except.noConfusion h
          · rename_i signed hs
            simp only [Except.ok.injEq] at h
            subst h
            have hv := SignTransaction_Vout P _ _ _ _ _ _ hs
            have hsum : (signed.Vout.map TxOutput.Value).sum = acc := by
              rw [hv.1]
              simp
            refine ⟨?_, hsum, ?_, ?_⟩
            · rw [hv.1]
              simp [hgt]
            · rw [hv.2.2.2]
            · rw [hv.2.1, hv.1]
        · simp only [hgt, if_false] at h
          split at h
          · exact Except.noConfusion h
          · rename_i signed hs
            simp only [Except.ok.injEq] at h
            subst h
            have hv := SignTransaction_Vout P _ _ _ _ _ _ hs
            have heq : acc = amount := by omega
            have hsum : (signed.Vout.map TxOutput.Value).sum = acc := by
              rw [hv.1]
              simp [heq]
            refine ⟨?_, hsum, ?_, ?_⟩
            · rw [hv.1]
              simp [hgt]
            · rw [hv.2.2.2]
            · rw [hv.2.1, hv.1]

theorem NewUTXOTransactionIn_shape (P : Prims) (wallet : Wallet) (toAddr : Bytes)
    (amount : Int) (u : UTXOSet) (now nowSign : Int) (rnd : Nat → Nat)
    (visit : GoMap (List Int) → GoMap (List Int)) (tx : Transaction)
    (hamount : 0 < amount)
    (hlen : ∀ x, (P.sha256 x).length = 32)
    (hinv : P.base58Decode (P.base58Encode (addressPayload P wallet))
      = addressPayload P wallet)
    (h : NewUTXOTransactionIn P wallet toAddr amount u now nowSign rnd visit = .ok tx) :
    ∃ acc sel,
      u.FindSpendableOutputs (HashPubKey P wallet.PublicKey) amount = some (acc, sel) ∧
      amount ≤ acc ∧
      tx.Vout = ⟨amount, decodedPubKeyHash P toAddr⟩ ::
        (if acc > amount then [⟨acc - amount, HashPubKey P wallet.PublicKey⟩] else []) ∧
      (tx.Vout.map TxOutput.Value).sum = acc ∧
      tx.Vin.map (fun i => (i.Txid, i.Vout, i.PubKey))
        = (buildInputs wallet.PublicKey (visit sel)).map (fun i => (i.Txid, i.Vout, i.PubKey)) ∧
      tx.ID = (Transaction.mk [] (buildInputs wallet.PublicKey (visit sel)) tx.Vout now).Hash P := by
  unfold NewUTXOTransactionIn at h
  simp only at h
  cases hf : u.FindSpendableOutputs (HashPubKey P wallet.PublicKey) amount with
  | none => simp [hf] at h
  | some r =>
    obtain ⟨acc, sel⟩ := r
    simp only [hf] at h
    have hacc := FindSpendableOutputs_inInt64 u _ amount acc sel hf
    by_cases hlt : acc < amount
    · simp [hlt] at h
    · simp only [hlt, if_false] at h
      have hle : amount ≤ acc := not_lt.mp hlt
      refine ⟨acc, sel, rfl, hle, ?_⟩
      rw [NewTxOutput_eq] at h
      by_cases h1 : (P.base58Decode toAddr).length < 5
      · simp [h1] at h
      · simp only [h1, if_false] at h
        have hga := decodedPubKeyHash_GetAddress P wallet hlen hinv
        have hwrap : wrapInt64 (acc - amount) = acc - amount := by
          apply wrapInt64_of_inInt64
          unfold inInt64 at hacc ⊢
          constructor <;> omega
        rw [NewTxOutput_eq, hwrap, hga.2] at h
        have h5 : ¬ (P.base58Decode (wallet.GetAddress P)).length < 5 := by omega
        simp only [h5, if_false] at h
        by_cases hgt : acc > amount
        · simp only [hgt, if_true] at h
          split at h
          · exact Except.noConfusion h
          · rename_i signed hs
            simp only [Except.ok.injEq] at h
            subst h
            have hv := SignTransaction_Vout P _ _ _ _ _ _ hs
            have hsum : (signed.Vout.map TxOutput.Value).sum = acc := by
              rw [hv.1]
              simp
            refine ⟨?_, hsum, ?_, ?_⟩
            · rw [hv.1]
              simp [hgt]
            · rw [hv.2.2.2]
            · rw [hv.2.1, hv.1]
        · simp only [hgt, if_false] at h
          split at h
          · exact Except.noConfusion h
          · rename_i signed hs
            simp only [Except.ok.injEq] at h
            subst h
            have hv := SignTransaction_Vout P _ _ _ _ _ _ hs
            have heq : acc = amount := by omega
            have hsum : (signed.Vout.map TxOutput.Value).sum = acc := by
              rw [hv.1]
              simp [heq]
            refine ⟨?_, hsum, ?_, ?_⟩
            · rw [hv.1]
              simp [hgt]
            · rw [hv.2.2.2]
            · rw [hv.2.1, hv.1]


theorem NewUTXOTransaction_eq_In (P : Prims) (wallet : Wallet) (toAddr : Bytes)
    (amount : Int) (u : UTXOSet) (now nowSign : Int) (rnd : Nat → Nat) :
    NewUTXOTransaction P wallet toAddr amount u now nowSign rnd
      = NewUTXOTransactionIn P wallet toAddr amount u now nowSign rnd (fun m => m) := rfl

theorem FindSpendableOutputs_total_eq (u : UTXOSet) (b : Bucket TxOutputs) (h : Bytes)
    (amount acc : Int) (sel : GoMap (List Int))
    (hb : u.Blockchain.Db.utxo = some b) (hkeys : (b.map Prod.fst).Nodup)
    (hpos : ∀ p ∈ b, ∀ out ∈ p.2.Outputs, 0 < out.Value)
    (hf : u.FindSpendableOutputs h amount = some (acc, sel))
    (hbound : ((selectedPairs sel).map (valueAt b)).sum ≤ 9223372036854775807) :
    acc = ((selectedPairs sel).map (valueAt b)).sum := by
  obtain ⟨sel1, hfind, hsel⟩ := FindSpendableOutputs_pickItems u b h amount hb hkeys
  rw [hf] at hfind
  simp only [Option.some.injEq, Prod.mk.injEq] at hfind
  obtain ⟨hacc, hs⟩ := hfind
  subst hs
  have hsub := pickItems_sublist h amount (itemsOfBucket b) 0
  have htot := pickItems_total h amount (itemsOfBucket b) 0 (by unfold inInt64; decide)
  have hval := valueAt_items b hkeys _ (fun it hit => hsub.subset hit)
  rw [hsel, hval] at hbound ⊢
  rw [hacc, htot, zero_add]
  apply wrapInt64_of_inInt64
  have hnn : 0 ≤ ((pickItems h amount (itemsOfBucket b) 0).1.map
      (fun it => it.2.2.Value)).sum := by
    apply sum_nonneg_of_pos
    intro v hv
    simp only [List.mem_map] at hv
    obtain ⟨it, hit, rfl⟩ := hv
    exact itemsOfBucket_pos b hpos it (hsub.subset hit)
  unfold inInt64
  constructor <;> omega

/-- C12 (counterexample): the bucket holds four outputs of the sender, worth 2^62, 2^62,
2^63 - 1 and 2^62 + 5; for the amount 2^62 + 1 all four are selected, their total value Σ
is 2^64 + 2^62 + 4, and the transaction returned pays the change 3, not Σ - amount: the
values of its outputs sum to 2^62 + 4, not to Σ. -/
theorem NewUTXOTransaction_change_wraps :
    (UTXOSet.mk sampleWrapChain).FindSpendableOutputs
        (HashPubKey zeroPrims sampleWallet.PublicKey) 4611686018427387905
      = some (4611686018427387908, [([7], [0, 1, 2, 3])]) ∧
    ((selectedPairs [([7], [0, 1, 2, 3])]).map (valueAt [([7], ⟨sampleWrapOutputs⟩)])).sum
      = 23058430092136939524 ∧
    NewUTXOTransaction zeroPrims sampleWallet sampleRecipient 4611686018427387905
        ⟨sampleWrapChain⟩ 0 0 (fun _ => 1)
      = .ok ⟨List.replicate 32 0,
          [⟨[7], 0, [1, 1], [1]⟩, ⟨[7], 1, [1, 1], [1]⟩, ⟨[7], 2, [1, 1], [1]⟩,
            ⟨[7], 3, [1, 1], [1]⟩],
          [⟨4611686018427387905, List.replicate 20 3⟩, ⟨3, List.replicate 20 0⟩], 0⟩ :=
  ⟨by decide, by decide, rfl⟩

/-- C12 (amended): on a UTXO bucket with positive output values, let Σ be the total value of
the entries that FindSpendableOutputs selected for amount > 0, and let Σ be at most
2^63 - 1.  Every transaction that NewUTXOTransaction returns, in whatever order the range
over the selection visits its entries, has the output list (amount, pub-key-hash decoded
from the recipient address) followed, exactly when Σ > amount, by the one change output
(Σ - amount, HashPubKey of the sender's public key); amount is at most Σ, the values of the
outputs sum to Σ, and the inputs are the selected pairs with the sender's public key, in
some order.  The sender's address is assumed to decode to what was encoded and SHA-256 to
return 32 bytes. -/
theorem NewUTXOTransaction_outputs (P : Prims) (wallet : Wallet) (toAddr : Bytes)
    (amount : Int) (u : UTXOSet) (now nowSign : Int) (rnd : Nat → Nat)
    (visit : GoMap (List Int) → GoMap (List Int)) (tx : Transaction)
    (b : Bucket TxOutputs) (acc : Int) (sel : GoMap (List Int))
    (hamount : 0 < amount)
    (hlen : ∀ x, (P.sha256 x).length = 32)
    (hinv : P.base58Decode (P.base58Encode (addressPayload P wallet))
      = addressPayload P wallet)
    (hvisit : ∀ m, (visit m).Perm m)
    (hb : u.Blockchain.Db.utxo = some b) (hkeys : (b.map Prod.fst).Nodup)
    (hpos : ∀ p ∈ b, ∀ out ∈ p.2.Outputs, 0 < out.Value)
    (hf : u.FindSpendableOutputs (HashPubKey P wallet.PublicKey) amount = some (acc, sel))
    (hbound : ((selectedPairs sel).map (valueAt b)).sum ≤ 9223372036854775807)
    (h : NewUTXOTransactionIn P wallet toAddr amount u now nowSign rnd visit = .ok tx) :
    amount ≤ ((selectedPairs sel).map (valueAt b)).sum ∧
    tx.Vout = ⟨amount, decodedPubKeyHash P toAddr⟩ ::
      (if ((selectedPairs sel).map (valueAt b)).sum > amount then
        [⟨((selectedPairs sel).map (valueAt b)).sum - amount,
          HashPubKey P wallet.PublicKey⟩]
      else []) ∧
    (tx.Vout.map TxOutput.Value).sum = ((selectedPairs sel).map (valueAt b)).sum ∧
    (tx.Vin.map (fun i => (i.Txid, i.Vout, i.PubKey))).Perm
      ((selectedPairs sel).map (fun e => (e.1, e.2, wallet.PublicKey))) := by
  obtain ⟨acc1, sel1, hf1, hle, hvout, hsum, hvin, _⟩ :=
    NewUTXOTransactionIn_shape P wallet toAddr amount u now nowSign rnd visit tx hamount hlen
      hinv h
  rw [hf] at hf1
  simp only [Option.some.injEq, Prod.mk.injEq] at hf1
  obtain ⟨h1, h2⟩ := hf1
  subst h1
  subst h2
  have hacc := FindSpendableOutputs_total_eq u b _ amount acc sel hb hkeys hpos hf hbound
  rw [← hacc]
  refine ⟨hle, hvout, hsum, ?_⟩
  rw [hvin]
  have hflat : ∀ m : GoMap (List Int),
      (buildInputs wallet.PublicKey m).map (fun i => (i.Txid, i.Vout, i.PubKey))
        = m.flatMap (fun p => p.2.map (fun i => (p.1, i, wallet.PublicKey))) := by
    intro m
    induction m with
    | nil => rfl
    | cons q rest ih =>
      simp only [buildInputs, List.flatMap_cons, List.map_append, List.map_map] at ih ⊢
      rw [ih]
      rfl
  have hsel : ∀ m : GoMap (List Int),
      (selectedPairs m).map (fun e => (e.1, e.2, wallet.PublicKey))
        = m.flatMap (fun p => p.2.map (fun i => (p.1, i, wallet.PublicKey))) := by
    intro m
    induction m with
    | nil => rfl
    | cons q rest ih =>
      simp only [selectedPairs, List.flatMap_cons, List.map_append, List.map_map] at ih ⊢
      rw [ih]
      rfl
  rw [hflat, hsel]
  exact List.Perm.flatMap_right _ (hvisit sel)

theorem NewUTXOTransaction_outputs_witness :
    (4 : Int) ≤ ((selectedPairs [([7], [0])]).map
      (valueAt [([7], ⟨[⟨10, List.replicate 20 0⟩]⟩)])).sum ∧
    sampleTransfer.Vout = ⟨4, decodedPubKeyHash zeroPrims sampleRecipient⟩ ::
      (if ((selectedPairs [([7], [0])]).map
          (valueAt [([7], ⟨[⟨10, List.replicate 20 0⟩]⟩)])).sum > 4 then
        [⟨((selectedPairs [([7], [0])]).map
            (valueAt [([7], ⟨[⟨10, List.replicate 20 0⟩]⟩)])).sum - 4,
          HashPubKey zeroPrims sampleWallet.PublicKey⟩]
      else []) ∧
    (sampleTransfer.Vout.map TxOutput.Value).sum
      = ((selectedPairs [([7], [0])]).map
          (valueAt [([7], ⟨[⟨10, List.replicate 20 0⟩]⟩)])).sum ∧
    (sampleTransfer.Vin.map (fun i => (i.Txid, i.Vout, i.PubKey))).Perm
      ((selectedPairs [([7], [0])]).map (fun e => (e.1, e.2, sampleWallet.PublicKey))) :=
  NewUTXOTransaction_outputs zeroPrims sampleWallet sampleRecipient 4 ⟨samplePaidChain⟩ 0 0
    (fun _ => 1) (fun m => m) sampleTransfer [([7], ⟨[⟨10, List.replicate 20 0⟩]⟩)] 10
    [([7], [0])] (by decide) (fun _ => rfl) rfl (fun m => List.Perm.refl m) rfl (by decide)
    (by decide) (by decide) (by decide) rfl

/-! ## Insufficient funds -/

theorem itemsOfOutputs_outs (k : Bytes) :
    ∀ (outs : List TxOutput) (i : Nat), (itemsOfOutputs k outs i).map (fun it => it.2.2) = outs
  | [], _ => rfl
  | out :: rest, i => by
    simp only [itemsOfOutputs, List.map_cons, itemsOfOutputs_outs k rest (i + 1)]

theorem itemsOfBucket_outs :
    ∀ (b : List (Bytes × TxOutputs)),
      (itemsOfBucket b).map (fun it => it.2.2) = b.flatMap (fun p => p.2.Outputs)
  | [] => rfl
  | (k, outs) :: rest => by
    rw [itemsOfBucket_cons, List.map_append, itemsOfOutputs_outs, itemsOfBucket_outs rest]
    simp

theorem spendableOfBucket_accumulated (h : Bytes) (amount : Int) :
    ∀ (b : List (Bytes × TxOutputs)) (st : SpendState), st.done = false →
      (spendableOfBucket h amount b st).accumulated
        = (pickItems h amount (itemsOfBucket b) st.accumulated).2.1
  | [], st, _ => by simp [spendableOfBucket, itemsOfBucket, pickItems]
  | (k, outs) :: rest, st, hdone => by
    have hst1 := spendableOfOutputs_pickItems h amount k outs.Outputs 0 st
    rw [itemsOfBucket_cons, pickItems_append]
    simp only [spendableOfBucket]
    rw [hst1]
    simp only [hdone, Bool.false_or]
    generalize pickItems h amount (itemsOfOutputs k outs.Outputs 0) st.accumulated = r1
    cases hd : r1.2.2 with
    | true => simp
    | false =>
      simp only [Bool.false_eq_true, if_false]
      exact spendableOfBucket_accumulated h amount rest
        ⟨r1.2.1, addIndices st.unspentOutputs k (r1.1.map (fun it => it.2.1)), false⟩ rfl

theorem pickItems_short (h : Bytes) (amount : Int) :
    ∀ (xs : List (Bytes × Nat × TxOutput)) (acc : Int), 0 ≤ acc →
      (∀ it ∈ xs, 0 < it.2.2.Value) →
      acc + (((xs.map (fun it => it.2.2)).filter (fun out => out.IsLockedWithKey h)).map
        TxOutput.Value).sum ≤ 9223372036854775807 →
      ((pickItems h amount xs acc).2.1 < amount ↔
        acc + (((xs.map (fun it => it.2.2)).filter (fun out => out.IsLockedWithKey h)).map
          TxOutput.Value).sum < amount)
  | [], acc, _, _, _ => by simp [pickItems]
  | x :: xs, acc, hacc, hpos, hbound => by
    have hx : 0 < x.2.2.Value := hpos x (by simp)
    have hposR : ∀ it ∈ xs, 0 < it.2.2.Value := fun it hit => hpos it (by simp [hit])
    have hnn : 0 ≤ (((xs.map (fun it => it.2.2)).filter
        (fun out => out.IsLockedWithKey h)).map TxOutput.Value).sum := by
      apply sum_nonneg_of_pos
      intro v hv
      simp only [List.mem_map, List.mem_filter] at hv
      obtain ⟨out, ⟨⟨it, hit, rfl⟩, _⟩, rfl⟩ := hv
      exact hposR it hit
    simp only [pickItems, List.map_cons]
    by_cases hl : x.2.2.IsLockedWithKey h = true
    · simp only [hl, List.filter_cons_of_pos, List.map_cons, List.sum_cons] at hbound ⊢
      have hw : wrapInt64 (acc + x.2.2.Value) = acc + x.2.2.Value :=
        wrapInt64_of_inInt64 _ (by unfold inInt64; constructor <;> omega)
      by_cases hlt : acc < amount
      · simp only [hlt, decide_True, Bool.and_self, if_true, hw]
        by_cases hge : acc + x.2.2.Value ≥ amount
        · simp only [hge, if_true]
          constructor <;> intro h1 <;> omega
        · simp only [hge, if_false]
          have ih := pickItems_short h amount xs (acc + x.2.2.Value) (by omega) hposR
            (by omega)
          rw [ih]
          constructor <;> intro h1 <;> omega
      · have hge : acc ≥ amount := not_lt.mp hlt
        simp only [hlt, decide_False, Bool.and_false, Bool.false_eq_true, if_false, hge,
          if_true]
        constructor
        · intro h1
          exact h1.elim
        · intro h1
          omega
    · have hl1 : x.2.2.IsLockedWithKey h = false := by simpa using hl
      simp only [List.map_cons, List.filter_cons, hl1, Bool.false_eq_true, if_false]
        at hbound
      simp only [List.filter_cons, hl1, Bool.false_eq_true, Bool.false_and, if_false]
      by_cases hge : acc ≥ amount
      · simp only [hge, if_true]
        constructor <;> intro h1 <;> omega
      · simp only [hge, if_false]
        exact pickItems_short h amount xs acc hacc hposR hbound

theorem FindSpendableOutputs_short (u : UTXOSet) (b : Bucket TxOutputs) (h : Bytes)
    (amount : Int) (hb : u.Blockchain.Db.utxo = some b)
    (hpos : ∀ p ∈ b, ∀ out ∈ p.2.Outputs, 0 < out.Value)
    (hbound : lockedSum b h ≤ 9223372036854775807) :
    ∃ acc sel, u.FindSpendableOutputs h amount = some (acc, sel) ∧
      (acc < amount ↔ lockedSum b h < amount) := by
  refine ⟨(spendableOfBucket h amount b ⟨0, [], false⟩).accumulated,
    (spendableOfBucket h amount b ⟨0, [], false⟩).unspentOutputs, ?_, ?_⟩
  · simp only [UTXOSet.FindSpendableOutputs, hb]
  · rw [spendableOfBucket_accumulated h amount b _ rfl]
    have hshort := pickItems_short h amount (itemsOfBucket b) 0 (le_refl 0)
      (itemsOfBucket_pos b hpos)
    rw [itemsOfBucket_outs, zero_add] at hshort
    exact hshort hbound

/-- C11 (counterexample): the bucket holds two outputs of value 2^63 - 2 locked to the
sender's pub-key-hash, so the locked values sum to 2^64 - 4, which is not less than the
amount 2^63 - 1; NewUTXOTransaction fails with insufficient funds all the same. -/
theorem NewUTXOTransaction_fails_with_funds :
    (∀ p ∈ sampleLargePaidBucket, ∀ out ∈ p.2.Outputs, 0 < out.Value) ∧
    NewUTXOTransaction zeroPrims sampleWallet sampleRecipient 9223372036854775807
      sampleLargePaidSet 0 0 (fun _ => 1) = .error .InsufficientFunds ∧
    ¬ lockedSum sampleLargePaidBucket (HashPubKey zeroPrims sampleWallet.PublicKey)
        < 9223372036854775807 :=
  ⟨by decide, rfl, by decide⟩

/-- C11 (amended): on a UTXO bucket with positive output values whose values locked to
HashPubKey(wallet.PublicKey) sum to at most 2^63 - 1, NewUTXOTransaction fails with
insufficient funds if and only if that sum is less than amount, for every wallet, recipient
address, amount, clock and randomness. -/
theorem NewUTXOTransaction_insufficient_iff (P : Prims) (wallet : Wallet) (toAddr : Bytes)
    (amount : Int) (u : UTXOSet) (now nowSign : Int) (rnd : Nat → Nat)
    (b : Bucket TxOutputs) (hb : u.Blockchain.Db.utxo = some b)
    (hpos : ∀ p ∈ b, ∀ out ∈ p.2.Outputs, 0 < out.Value)
    (hbound : lockedSum b (HashPubKey P wallet.PublicKey) ≤ 9223372036854775807) :
    NewUTXOTransaction P wallet toAddr amount u now nowSign rnd = .error .InsufficientFunds ↔
      lockedSum b (HashPubKey P wallet.PublicKey) < amount := by
  obtain ⟨acc, sel, hf, hiff⟩ :=
    FindSpendableOutputs_short u b (HashPubKey P wallet.PublicKey) amount hb hpos hbound
  rw [← hiff]
  unfold NewUTXOTransaction
  simp only [hf]
  by_cases hlt : acc < amount
  · simp [hlt]
  · simp only [hlt, if_false, iff_false]
    intro h
    repeat' split at h
    all_goals simp at h

theorem NewUTXOTransaction_insufficient_iff_witness :
    NewUTXOTransaction zeroPrims sampleWallet sampleRecipient 11 ⟨samplePaidChain⟩ 0 0
        (fun _ => 1) = .error .InsufficientFunds ↔
      lockedSum [([7], ⟨[⟨10, List.replicate 20 0⟩]⟩)]
        (HashPubKey zeroPrims sampleWallet.PublicKey) < 11 :=
  NewUTXOTransaction_insufficient_iff zeroPrims sampleWallet sampleRecipient 11
    ⟨samplePaidChain⟩ 0 0 (fun _ => 1) [([7], ⟨[⟨10, List.replicate 20 0⟩]⟩)] rfl
    (by decide) (by decide)

/-! ## A transfer mined by its sender -/

theorem NewBlock_fields (P : Prims) (transactions : List Transaction) (prevBlockHash : Bytes)
    (height now : Int) (b : Block)
    (h : NewBlock P transactions prevBlockHash height now = some b) :
    b.Transactions = transactions ∧ b.PrevBlockHash = prevBlockHash ∧ b.Height = height ∧
    b.Timestamp = now := by
  unfold NewBlock at h
  simp only at h
  cases hr : Run P (NewProofOfWork ⟨now, transactions, prevBlockHash, 0, [], height⟩) with
  | none => simp [hr] at h
  | some r =>
    obtain ⟨nonce, hash⟩ := r
    simp only [hr, Option.some.injEq] at h
    subst h
    exact ⟨rfl, rfl, rfl, rfl⟩

theorem NewCoinbaseTX_some (P : Prims) (toAddr data : Bytes) (now : Int) (cb : Transaction)
    (h : NewCoinbaseTX P toAddr data now = some cb) :
    cb.Vout = [⟨subsidy, decodedPubKeyHash P toAddr⟩] ∧ cb.IsCoinbase = true := by
  unfold NewCoinbaseTX at h
  simp only [NewTxOutput_eq] at h
  by_cases h5 : (P.base58Decode toAddr).length < 5
  · simp [h5] at h
  · simp only [h5, if_false, Option.some.injEq] at h
    subst h
    exact ⟨rfl, by simp [Transaction.IsCoinbase]⟩

theorem createBlockchain_utxo (P : Prims) (address : Bytes) (nowTx nowBlock : Int)
    (fuel : Nat) (db0 : DB) (cb0 : Transaction)
    (hcb0 : NewCoinbaseTX P address genesisCoinbaseData nowTx = some cb0)
    (hcreate : CLI.createBlockchain P address nowTx nowBlock fuel = some db0) :
    db0.utxo = some [(cb0.ID, ⟨cb0.Vout⟩)] ∧
    ∃ b tip, db0.blocks = some b ∧ b.Get tipKeyOne = some (.raw tip) := by
  have hcb := NewCoinbaseTX_some P address genesisCoinbaseData nowTx cb0 hcb0
  unfold CLI.createBlockchain at hcreate
  split at hcreate
  swap
  · exact Option.noConfusion hcreate
  unfold CreatBlockchain at hcreate
  simp only [hcb0, NewGenesisBlock] at hcreate
  cases hg : NewBlock P [cb0] [] 0 nowBlock with
  | none => simp [hg] at hcreate
  | some genesis =>
    have hf := NewBlock_fields P [cb0] [] 0 nowBlock genesis hg
    simp only [hg] at hcreate
    cases hp1 : Bucket.Put ([] : Bucket BlockEntry) genesis.Hash (.blockData genesis) with
    | none => simp [hp1] at hcreate
    | some b1 =>
      simp only [hp1] at hcreate
      cases hp2 : b1.Put tipKeyOne (.raw genesis.Hash) with
      | none => simp [hp2] at hcreate
      | some b2 =>
        simp only [hp2] at hcreate
        have hget : ∀ k, b2.Get k
            = if tipKeyOne = k then some (.raw genesis.Hash)
              else if genesis.Hash = k then some (.blockData genesis) else none := by
          intro k
          rw [Bucket.Get_Put b1 b2 tipKeyOne k _ hp2,
            Bucket.Get_Put [] b1 genesis.Hash k _ hp1]
          rfl
        unfold UTXOSet.Reindex Blockchain.FindUTXO at hcreate
        simp only at hcreate
        cases fuel with
        | zero => simp [chainFrom] at hcreate
        | succ n =>
          simp only [chainFrom, iteratorNext, hget] at hcreate
          by_cases htip : tipKeyOne = genesis.Hash
          · simp [htip, DeserializeBlock] at hcreate
          · have hvout : cb0.Vout = [⟨subsidy, decodedPubKeyHash P address⟩] := hcb.1
            simp only [htip, if_false, if_true, DeserializeBlock, hf.2.1, List.length_nil,
              findUTXOBlocks, List.foldl_cons, List.foldl_nil, spentOfBlocks, hf.1,
              spentOfTx, hcb.2, utxoOfBlock, hvout, utxoOfOutputs, isSpent, GoMap.get,
              Option.getD_none, List.any_nil, GoMap.set, List.nil_append, reindexWrite,
              Bool.true_eq_false, Bool.false_eq_true] at hcreate
            cases hp3 : Bucket.Put ([] : Bucket TxOutputs) cb0.ID
                ⟨[⟨subsidy, decodedPubKeyHash P address⟩]⟩ with
            | none => simp [hp3] at hcreate
            | some bu =>
              simp only [hp3] at hcreate
              split at hcreate
              · exact Option.noConfusion hcreate
              · simp only [Option.some.injEq] at hcreate
                subst hcreate
                refine ⟨?_, b2, genesis.Hash, rfl, by simp [hget]⟩
                rename_i heq
                unfold Bucket.Put at hp3
                split at hp3
                · exact Option.noConfusion hp3
                · simp only [Option.some.injEq] at hp3
                  subst hp3
                  split at heq
                  · exact Option.noConfusion heq
                  · simp only [Option.some.injEq, Prod.mk.injEq] at heq
                    rw [← heq.1]
                    simp [Bucket.insert, hvout]

theorem MineBlock_fields (P : Prims) (bc bc1 : Blockchain) (transactions : List Transaction)
    (clock : Nat → Int) (now : Int) (newBlock : Block)
    (h : bc.MineBlock P transactions clock now = some (newBlock, bc1)) :
    newBlock.Transactions = transactions ∧ bc1.Db.utxo = bc.Db.utxo ∧
    bc1.Db.utxoBlock = bc.Db.utxoBlock ∧
    ∃ b2, bc1.Db.blocks = some b2 ∧ b2.Get tipKeyOne = some (.raw newBlock.Hash) := by
  unfold Blockchain.MineBlock at h
  split at h
  · exact Option.noConfusion h
  · split at h
    · exact Option.noConfusion h
    · split at h
      · exact Option.noConfusion h
      · simp only at h
        split at h
        · exact Option.noConfusion h
        · rename_i nb hnb
          split at h
          · exact Option.noConfusion h
          · split at h
            · exact Option.noConfusion h
            · rename_i b2 hp2
              simp only [Option.some.injEq, Prod.mk.injEq] at h
              obtain ⟨h1, h2⟩ := h
              subst h1
              subst h2
              refine ⟨(NewBlock_fields P _ _ _ _ _ hnb).1, rfl, rfl, b2, rfl, ?_⟩
              rw [Bucket.Get_Put _ b2 tipKeyOne tipKeyOne _ hp2]
              simp

theorem FindSpendableOutputs_single (u : UTXOSet) (k0 pkh : Bytes)
    (h : u.Blockchain.Db.utxo = some [(k0, ⟨[⟨10, pkh⟩]⟩)]) :
    u.FindSpendableOutputs pkh 4 = some (10, [(k0, [0])]) := by
  have hw : wrapInt64 10 = 10 := by decide
  simp [UTXOSet.FindSpendableOutputs, h, spendableOfBucket, spendableOfOutputs,
    TxOutput.IsLockedWithKey, GoMap.get, GoMap.set, hw]

theorem not_coinbase_of_input (tx : Transaction) (k0 pk : Bytes)
    (h : tx.Vin.map (fun i => (i.Txid, i.Vout, i.PubKey)) = [(k0, (0 : Int), pk)]) :
    tx.IsCoinbase = false ∧ ∃ v, tx.Vin = [v] ∧ v.Txid = k0 ∧ v.Vout = 0 := by
  cases hv : tx.Vin with
  | nil => simp [hv] at h
  | cons v rest =>
    cases rest with
    | cons w rest1 => simp [hv] at h
    | nil =>
      simp only [hv, List.map_cons, List.map_nil, List.cons.injEq, Prod.mk.injEq,
        and_true] at h
      refine ⟨?_, v, rfl, h.1, h.2.1⟩
      simp [Transaction.IsCoinbase, hv, h.2.1]

theorem Delete_insert_single {V : Type} (k0 k1 : Bytes) (v0 v1 : V) (hne : k0 ≠ k1) :
    Bucket.Delete (Bucket.insert [(k0, v0)] k1 v1) k0 = [(k1, v1)] := by
  by_cases hlt : bytesLt k1 k0 = true
  · simp [Bucket.insert, Bucket.Delete, hne, hlt, List.filter, Ne.symm hne]
  · simp [Bucket.insert, Bucket.Delete, hne, hlt, List.filter, Ne.symm hne]

theorem Update_transfer (u : UTXOSet) (block : Block) (db1 : DB) (cb1 tx : Transaction)
    (k0 pk : Bytes) (o : TxOutput)
    (hutxo : u.Blockchain.Db.utxo = some [(k0, ⟨[o]⟩)])
    (htxs : block.Transactions = [cb1, tx])
    (hcb : cb1.IsCoinbase = true)
    (hvin : tx.Vin.map (fun i => (i.Txid, i.Vout, i.PubKey)) = [(k0, (0 : Int), pk)])
    (hne : k0 ≠ cb1.ID)
    (h : u.Update block = some db1) :
    db1.utxo = some (Bucket.insert [(cb1.ID, ⟨cb1.Vout⟩)] tx.ID ⟨tx.Vout⟩) := by
  obtain ⟨hnc, v, hv, hv1, hv2⟩ := not_coinbase_of_input tx k0 pk hvin
  unfold UTXOSet.Update at h
  simp only [hutxo, htxs, updateTxs, updateTx, hcb, hnc, Bool.true_eq_false, if_false,
    if_true, hv, updateInputs] at h
  cases hp1 : Bucket.Put ([(k0, ⟨[o]⟩)] : Bucket TxOutputs) cb1.ID ⟨cb1.Vout⟩ with
  | none => simp [hp1] at h
  | some b1 =>
    have hb1 : b1 = Bucket.insert [(k0, ⟨[o]⟩)] cb1.ID ⟨cb1.Vout⟩ := by
      unfold Bucket.Put at hp1
      split at hp1
      · exact Option.noConfusion hp1
      · simp only [Option.some.injEq] at hp1
        exact hp1.symm
    simp only [hp1] at h
    cases hq1 : (u.Blockchain.Db.utxoBlock.getD []).Put cb1.ID block.Hash with
    | none => simp [hq1] at h
    | some blockb1 =>
      have hget : b1.Get v.Txid = some ⟨[o]⟩ := by
        rw [hb1, Bucket.Get_insert, hv1]
        simp [Ne.symm hne, Bucket.Get]
      have hupd : (updatedOutputs ⟨[o]⟩ v).Outputs.length = 0 := by
        simp [updatedOutputs, hv2, List.enum, List.enumFrom]
      simp only [hq1, updateInput, hget, DeserializeOutputs, hupd, if_true] at h
      rw [hb1, hv1, Delete_insert_single k0 cb1.ID _ _ hne] at h
      cases hp2 : Bucket.Put ([(cb1.ID, ⟨cb1.Vout⟩)] : Bucket TxOutputs) tx.ID ⟨tx.Vout⟩ with
      | none => simp [hp2] at h
      | some b2 =>
        simp only [hp2] at h
        cases hq2 : blockb1.Put tx.ID block.Hash with
        | none => simp [hq2] at h
        | some blockb2 =>
          simp only [hq2, Option.some.injEq] at h
          subst h
          unfold Bucket.Put at hp2
          split at hp2
          · exact Option.noConfusion hp2
          · simp only [Option.some.injEq] at hp2
            simp [hp2]

theorem NewBlockchain_Db (db : DB) (bc : Blockchain) (h : NewBlockchain db = some bc) :
    bc.Db = db := by
  unfold NewBlockchain at h
  split at h
  · exact Option.noConfusion h
  · split at h
    · simp only [Option.some.injEq] at h
      subst h
      rfl
    · simp only [Option.some.injEq] at h
      subst h
      rfl
    · exact Option.noConfusion h

theorem getBalance_after_transfer (P : Prims) (addr : Bytes) (db1 : DB)
    (k1 k2 pF pG : Bytes) (b2 : Bucket BlockEntry) (tip : Bytes)
    (hv : ValidateAddress P addr = some true)
    (hblocks : db1.blocks = some b2) (htip : b2.Get tipKeyOne = some (.raw tip))
    (hutxo : db1.utxo
      = some (Bucket.insert [(k1, ⟨[⟨10, pF⟩]⟩)] k2 ⟨[⟨4, pG⟩, ⟨6, pF⟩]⟩))
    (hk : k2 ≠ k1) (hp : pG ≠ pF) :
    (decodedPubKeyHash P addr = pF → CLI.getBalance P addr db1 = some 16) ∧
    (decodedPubKeyHash P addr = pG → CLI.getBalance P addr db1 = some 4) := by
  have hnb : NewBlockchain db1 = some ⟨tip, db1⟩ := by
    simp [NewBlockchain, hblocks, htip]
  have hw10 : wrapInt64 10 = 10 := by decide
  have hw16 : wrapInt64 16 = 16 := by decide
  have hw6 : wrapInt64 6 = 6 := by decide
  have hw4 : wrapInt64 4 = 4 := by decide
  have hbal : ∀ p, CLI.getBalance P addr db1
      = if decodedPubKeyHash P addr = p then
          some (((Bucket.insert [(k1, (⟨[⟨10, pF⟩]⟩ : TxOutputs))] k2
            ⟨[⟨4, pG⟩, ⟨6, pF⟩]⟩).flatMap
              (fun q => q.2.Outputs.filter (fun out => out.IsLockedWithKey p))).foldl
            (fun balance output => wrapInt64 (balance + output.Value)) 0)
        else CLI.getBalance P addr db1 := by
    intro p
    split
    · rename_i hp1
      simp only [CLI.getBalance, hv, hnb, UTXOSet.FindUTXO, hutxo]
      rw [← hp1]
      rfl
    · rfl
  have hins : Bucket.insert [(k1, (⟨[⟨10, pF⟩]⟩ : TxOutputs))] k2 ⟨[⟨4, pG⟩, ⟨6, pF⟩]⟩
      = [(k2, ⟨[⟨4, pG⟩, ⟨6, pF⟩]⟩), (k1, ⟨[⟨10, pF⟩]⟩)] ∨
    Bucket.insert [(k1, (⟨[⟨10, pF⟩]⟩ : TxOutputs))] k2 ⟨[⟨4, pG⟩, ⟨6, pF⟩]⟩
      = [(k1, ⟨[⟨10, pF⟩]⟩), (k2, ⟨[⟨4, pG⟩, ⟨6, pF⟩]⟩)] := by
    by_cases hlt : bytesLt k2 k1 = true
    · left
      simp [Bucket.insert, Ne.symm hk, hlt]
    · right
      simp [Bucket.insert, Ne.symm hk, hlt]
  constructor
  · intro hF
    rw [hbal pF, if_pos hF]
    rcases hins with h | h
    · rw [h]
      simp [TxOutput.IsLockedWithKey, hp, hw6, hw16]
    · rw [h]
      simp [TxOutput.IsLockedWithKey, hp, hw10, hw16]
  · intro hG
    rw [hbal pG, if_pos hG]
    rcases hins with h | h
    · rw [h]
      simp [TxOutput.IsLockedWithKey, Ne.symm hp, hw4]
    · rw [h]
      simp [TxOutput.IsLockedWithKey, Ne.symm hp, hw4]

/-- C19 (amended): on a chain freshly created and reindexed for the founder F, after F sends
4 to G with local mining, the balance that getBalance computes is 16 for F (the change of 6
and the subsidy of the new block, whose coinbase send pays to the sender) and 4 for G.  F is
the address of the sender's wallet and decodes to what was encoded, G decodes to another
pub-key-hash, SHA-256 returns 32 bytes, and the new coinbase has an id different from the
ids of the genesis coinbase and of the transfer. -/
theorem send_balances (P : Prims) (F G : Bytes) (wallet : Wallet) (wallets : GoMap Wallet)
    (nowTx0 nowBlock0 : Int) (fuel : Nat) (nowTx nowSign nowCb : Int) (rnd : Nat → Nat)
    (clock : Nat → Int) (nowBlock : Int) (db0 db1 : DB) (cb0 cb1 : Transaction)
    (hlen : ∀ x, (P.sha256 x).length = 32)
    (hinv : P.base58Decode (P.base58Encode (addressPayload P wallet))
      = addressPayload P wallet)
    (hF : wallet.GetAddress P = F)
    (hw : GetWallet wallets F = some wallet)
    (hG : decodedPubKeyHash P G ≠ HashPubKey P wallet.PublicKey)
    (hcb0 : NewCoinbaseTX P F genesisCoinbaseData nowTx0 = some cb0)
    (hcb1 : NewCoinbaseTX P F [] nowCb = some cb1)
    (hne : cb0.ID ≠ cb1.ID)
    (hneT : (Transaction.mk [] [⟨cb0.ID, 0, [], wallet.PublicKey⟩]
        [⟨4, decodedPubKeyHash P G⟩, ⟨6, HashPubKey P wallet.PublicKey⟩] nowTx).Hash P
      ≠ cb1.ID)
    (hcreate : CLI.createBlockchain P F nowTx0 nowBlock0 fuel = some db0)
    (hsend : CLI.send P F G 4 db0 wallets nowTx nowSign nowCb rnd clock nowBlock
      = some db1) :
    CLI.getBalance P F db1 = some 16 ∧ CLI.getBalance P G db1 = some 4 := by
  have hga := decodedPubKeyHash_GetAddress P wallet hlen hinv
  rw [hF] at hga
  have hc0 := NewCoinbaseTX_some P F genesisCoinbaseData nowTx0 cb0 hcb0
  have hc1 := NewCoinbaseTX_some P F [] nowCb cb1 hcb1
  rw [hga.2] at hc0 hc1
  obtain ⟨hutxo0, _⟩ := createBlockchain_utxo P F nowTx0 nowBlock0 fuel db0 cb0 hcb0 hcreate
  rw [hc0.1] at hutxo0
  unfold CLI.send at hsend
  cases hvF : ValidateAddress P F with
  | none => simp [hvF] at hsend
  | some okF =>
    cases okF with
    | false => simp [hvF] at hsend
    | true =>
      cases hvG : ValidateAddress P G with
      | none => simp [hvF, hvG] at hsend
      | some okG =>
        cases okG with
        | false => simp [hvF, hvG] at hsend
        | true =>
          simp only [hvF, hvG, hw, hcb1] at hsend
          cases hbc : NewBlockchain db0 with
          | none => simp [hbc] at hsend
          | some bc =>
            have hdb := NewBlockchain_Db db0 bc hbc
            simp only [hbc] at hsend
            cases htx : NewUTXOTransaction P wallet G 4 ⟨bc⟩ nowTx nowSign rnd with
            | error e => simp [htx] at hsend
            | ok tx =>
              simp only [htx] at hsend
              cases hm : bc.MineBlock P [cb1, tx] clock nowBlock with
              | none => simp [hm] at hsend
              | some r =>
                obtain ⟨newBlock, bc1⟩ := r
                simp only [hm] at hsend
                obtain ⟨hmt, hmu, _, b2, hmb, hmtip⟩ :=
                  MineBlock_fields P bc bc1 [cb1, tx] clock nowBlock newBlock hm
                have hfind := FindSpendableOutputs_single ⟨bc⟩ cb0.ID
                  (HashPubKey P wallet.PublicKey) (by rw [hdb]; exact hutxo0)
                obtain ⟨acc, sel, hf, _, hvout, _, hvin, hid⟩ :=
                  NewUTXOTransaction_shape P wallet G 4 ⟨bc⟩ nowTx nowSign rnd tx
                    (by decide) hlen hinv htx
                rw [hfind] at hf
                simp only [Option.some.injEq, Prod.mk.injEq] at hf
                obtain ⟨hacc, hsel⟩ := hf
                subst hacc
                subst hsel
                have hvout1 : tx.Vout
                    = [⟨4, decodedPubKeyHash P G⟩, ⟨6, HashPubKey P wallet.PublicKey⟩] := by
                  rw [hvout]
                  simp
                have hvin1 : tx.Vin.map (fun i => (i.Txid, i.Vout, i.PubKey))
                    = [(cb0.ID, (0 : Int), wallet.PublicKey)] := by
                  rw [hvin]
                  simp [buildInputs]
                have hid1 : tx.ID ≠ cb1.ID := by
                  rw [hid, hvout1]
                  simpa [buildInputs] using hneT
                have hu := Update_transfer ⟨bc1⟩ newBlock db1 cb1 tx cb0.ID wallet.PublicKey
                  ⟨10, HashPubKey P wallet.PublicKey⟩
                  (by rw [hmu, hdb]; exact hutxo0) hmt hc1.2 hvin1 hne hsend
                rw [hc1.1, hvout1] at hu
                have hblocks : db1.blocks = some b2 := by
                  rw [Update_keeps_blocks ⟨bc1⟩ newBlock db1 hsend]
                  exact hmb
                have hbalF := getBalance_after_transfer P F db1 cb1.ID tx.ID
                  (HashPubKey P wallet.PublicKey) (decodedPubKeyHash P G) b2 newBlock.Hash
                  hvF hblocks hmtip hu hid1 hG
                have hbalG := getBalance_after_transfer P G db1 cb1.ID tx.ID
                  (HashPubKey P wallet.PublicKey) (decodedPubKeyHash P G) b2 newBlock.Hash
                  hvG hblocks hmtip hu hid1 hG
                exact ⟨hbalF.1 hga.2, hbalG.2 rfl⟩

theorem NewBlock_accept_first (P : Prims) (transactions : List Transaction)
    (prevBlockHash : Bytes) (height now : Int) (data : Bytes)
    (hdata : prepareData P (NewProofOfWork ⟨now, transactions, prevBlockHash, 0, [], height⟩)
      0 = some data)
    (hacc : bytesToNat (P.sha256 data) < 1 <<< (256 - targetBits)) :
    NewBlock P transactions prevBlockHash height now
      = some ⟨now, transactions, prevBlockHash, 0, P.sha256 data, height⟩ := by
  have h := runLoop_accept_first P
    (NewProofOfWork ⟨now, transactions, prevBlockHash, 0, [], height⟩) 0
    (List.replicate 32 0) data (by decide) hdata hacc
  simp only [NewBlock, Run, h]

theorem toy_create : CLI.createBlockchain toyPrims toyF 0 0 1 = some toyDb0 := by
  have hv : ValidateAddress toyPrims toyF = some true := by decide
  have hcb : NewCoinbaseTX toyPrims toyF genesisCoinbaseData 0 = some toyCb0 := rfl
  have hg : NewBlock toyPrims [toyCb0] [] 0 0 = some toyGenesis :=
    NewBlock_accept_first toyPrims [toyCb0] [] 0 0 _ rfl (by decide)
  simp only [CLI.createBlockchain, CreatBlockchain, NewGenesisBlock, hv, hcb, hg]
  rfl

set_option maxRecDepth 8192 in
theorem toy_send :
    CLI.send toyPrims toyF toyG 4 toyDb0 [(toyF, toyWalletF)] 1 1 2 (fun _ => 1) (fun _ => 1) 3
      = some toyDb1 := by
  have hvF : ValidateAddress toyPrims toyF = some true := by decide
  have hvG : ValidateAddress toyPrims toyG = some true := by decide
  have hbc : NewBlockchain toyDb0 = some ⟨toyGenesis.Hash, toyDb0⟩ := rfl
  have hw : GetWallet [(toyF, toyWalletF)] toyF = some toyWalletF := rfl
  have htx : NewUTXOTransaction toyPrims toyWalletF toyG 4 ⟨⟨toyGenesis.Hash, toyDb0⟩⟩ 1 1
      (fun _ => 1) = .ok toyTx := rfl
  have hcb : NewCoinbaseTX toyPrims toyF [] 2 = some toyCb1 := rfl
  have hver : verifyAll toyPrims ⟨toyGenesis.Hash, toyDb0⟩ (fun _ => 1) [toyCb1, toyTx] 0
      = some () := rfl
  have hnb : NewBlock toyPrims [toyCb1, toyTx] toyGenesis.Hash 0 3 = some toyBlock1 :=
    NewBlock_accept_first toyPrims [toyCb1, toyTx] toyGenesis.Hash 0 3 _ rfl (by decide)
  have htip : readTipBlock [(toyGenesis.Hash, BlockEntry.blockData toyGenesis),
      ([49], BlockEntry.raw toyGenesis.Hash)] tipKeyOne
      = some (toyGenesis.Hash, toyGenesis) := by decide
  have hm : Blockchain.MineBlock toyPrims ⟨toyGenesis.Hash, toyDb0⟩ [toyCb1, toyTx]
      (fun _ => 1) 3
      = some (toyBlock1, ⟨toyBlock1.Hash, { toyDb0 with blocks := toyDb1.blocks }⟩) := by
    simp only [Blockchain.MineBlock, hver, toyDb0, htip]
    rw [show toyGenesis.Height = 0 from rfl, hnb]
    rfl
  simp only [CLI.send, hvF, hvG, hbc, hw, htx, hcb, hm]
  rfl

/-- C19 (counterexample): a run of createBlockchain for the founder F followed by send of 4
from F to G with local mining; getBalance then gives 16 for F and 4 for G, not 6 and 14:
the coinbase of the mined block is paid to the sender F. -/
theorem send_pays_reward_to_sender :
    CLI.createBlockchain toyPrims toyF 0 0 1 = some toyDb0 ∧
    CLI.send toyPrims toyF toyG 4 toyDb0 [(toyF, toyWalletF)] 1 1 2 (fun _ => 1) (fun _ => 1) 3
      = some toyDb1 ∧
    CLI.getBalance toyPrims toyF toyDb0 = some 10 ∧
    CLI.getBalance toyPrims toyF toyDb1 = some 16 ∧
    CLI.getBalance toyPrims toyG toyDb1 = some 4 :=
  ⟨toy_create, toy_send, by decide, by decide, by decide⟩

theorem send_balances_witness :
    toyWalletF.GetAddress toyPrims = toyF ∧
    CLI.createBlockchain toyPrims toyF 0 0 1 = some toyDb0 ∧
    CLI.send toyPrims toyF toyG 4 toyDb0 [(toyF, toyWalletF)] 1 1 2 (fun _ => 1) (fun _ => 1) 3
      = some toyDb1 ∧
    CLI.getBalance toyPrims toyF toyDb1 = some 16 ∧
    CLI.getBalance toyPrims toyG toyDb1 = some 4 :=
  ⟨rfl, toy_create, toy_send,
    send_balances toyPrims toyF toyG toyWalletF [(toyF, toyWalletF)] 0 0 1 1 1 2 (fun _ => 1)
      (fun _ => 1) 3 toyDb0 toyDb1 toyCb0 toyCb1 (fun x => by simp [toyPrims]) rfl rfl rfl
      (by decide) rfl rfl (by decide) (by decide) toy_create toy_send⟩

/-! ## The range of NewMerkleTree -/

/-- C25: NewMerkleTree returns a tree on [a, b, c] and on [d], and an odd input gives the
tree of the input with its last element repeated: the tree of [a, b, c] is the tree of
[a, b, c, c], with root H(H(H a ‖ H b) ‖ H(H c ‖ H c)), and the tree of [d] is the tree of
[d, d], with root H(H d ‖ H d). -/
theorem NewMerkleTree_odd_duplicates_last (P : Prims) (a b c d : Bytes) :
    NewMerkleTree P [a, b, c] = NewMerkleTree P [a, b, c, c] ∧
    (NewMerkleTree P [a, b, c]).map (fun t => t.RootNode.Data)
      = some (P.sha256 (P.sha256 (P.sha256 a ++ P.sha256 b)
          ++ P.sha256 (P.sha256 c ++ P.sha256 c))) ∧
    NewMerkleTree P [d] = NewMerkleTree P [d, d] ∧
    (NewMerkleTree P [d]).map (fun t => t.RootNode.Data)
      = some (P.sha256 (P.sha256 d ++ P.sha256 d)) := by
  refine ⟨?_, ?_, ?_, ?_⟩ <;>
    simp [NewMerkleTree, leafNodes, levelLoop, pairLevel, NewMerkleNode, MerkleNode.Data]

/-- C28: NewMerkleTree returns a tree exactly when the number of input byte strings is
between 1 and 4 (for 0 and for 5 or more the indexing is out of range), and the root of
every tree it returns is the reference Merkle root. -/
theorem NewMerkleTree_isSome_iff (P : Prims) (data : List Bytes) :
    ((NewMerkleTree P data).isSome = true ↔ 1 ≤ data.length ∧ data.length ≤ 4) ∧
    (∀ t, NewMerkleTree P data = some t → refMerkleRoot P data = some t.RootNode.Data) := by
  refine ⟨⟨?_, ?_⟩, fun t h => NewMerkleTree_root_eq_ref P data t h⟩
  · intro h
    cases ht : NewMerkleTree P data with
    | none => simp [ht] at h
    | some t => exact NewMerkleTree_some_length P data t ht
  · intro h
    match data, h with
    | [], h => simp at h
    | [a], _ => simp [NewMerkleTree, leafNodes, levelLoop, pairLevel, NewMerkleNode]
    | [a, b], _ => simp [NewMerkleTree, leafNodes, levelLoop, pairLevel, NewMerkleNode]
    | [a, b, c], _ => simp [NewMerkleTree, leafNodes, levelLoop, pairLevel, NewMerkleNode]
    | [a, b, c, d], _ => simp [NewMerkleTree, leafNodes, levelLoop, pairLevel, NewMerkleNode]
    | _ :: _ :: _ :: _ :: _ :: _, h => simp at h

/-! ## The nonce search without an accepted nonce -/

theorem prepareData_of_root (P : Prims) (pow : ProofOfWork) (root : Bytes) (nonce : Int)
    (hroot : HashTransactions P pow.block = some root) :
    prepareData P pow nonce
      = some (pow.block.PrevBlockHash ++ root ++ IntToHex pow.block.Timestamp
          ++ IntToHex (targetBits : Int) ++ IntToHex nonce) := by
  simp [prepareData, hroot]

theorem runLoop_exhausted (P : Prims) (pow : ProofOfWork) (root : Bytes)
    (hroot : HashTransactions P pow.block = some root) :
    ∀ (nonce : Int) (hash : Bytes),
      (∀ n data, nonce ≤ n → n < maxNonce → prepareData P pow n = some data →
        ¬ bytesToNat (P.sha256 data) < pow.target) →
      nonce ≤ maxNonce →
      ∃ h, runLoop P pow nonce hash = some (maxNonce, h) ∧
        (nonce < maxNonce →
          ∃ data, prepareData P pow (maxNonce - 1) = some data ∧ h = P.sha256 data) ∧
        (¬ nonce < maxNonce → h = hash) := by
  intro nonce hash
  induction nonce, hash using runLoop.induct P pow with
  | case1 nonce hash hlt hnone =>
    intro _ _
    rw [prepareData_of_root P pow root nonce hroot] at hnone
    exact Option.noConfusion hnone
  | case2 nonce hash hlt data hdata hsha hacc =>
    intro hrej _
    exact absurd hacc (hrej nonce data (le_refl _) hlt hdata)
  | case3 nonce hash hlt data hdata hsha hrejn ih =>
    intro hrej hle
    obtain ⟨h, hrun, h1, h2⟩ := ih
      (fun n d hn hn1 hd => hrej n d (by omega) hn1 hd) (by omega)
    refine ⟨h, ?_, ?_, fun hc => absurd hlt hc⟩
    · rw [runLoop]
      simp only [hlt, hdata, if_true]
      rw [if_neg hrejn]
      exact hrun
    · intro _
      by_cases hnext : nonce + 1 < maxNonce
      · exact h1 hnext
      · have hn : nonce = maxNonce - 1 := by omega
        refine ⟨data, ?_, ?_⟩
        · rw [← hn]
          exact hdata
        · rw [h2 hnext]
  | case4 nonce hash hge =>
    intro _ hle
    have hn : nonce = maxNonce := le_antisymm hle (not_lt.mp hge)
    refine ⟨hash, ?_, fun hc => absurd hc hge, fun _ => rfl⟩
    rw [runLoop, if_neg hge, hn]

theorem Run_NewBlock_exhausted (P : Prims) (transactions : List Transaction)
    (prevBlockHash : Bytes) (height now : Int) (root : Bytes)
    (hroot : HashTransactions P ⟨now, transactions, prevBlockHash, 0, [], height⟩ = some root)
    (hrej : ∀ n : Int, 0 ≤ n → n < maxNonce →
      ¬ bytesToNat (P.sha256 (prevBlockHash ++ root ++ IntToHex now
          ++ IntToHex (targetBits : Int) ++ IntToHex n)) < 2 ^ (256 - 24)) :
    Run P (NewProofOfWork ⟨now, transactions, prevBlockHash, 0, [], height⟩)
      = some (maxNonce,
          P.sha256 (prevBlockHash ++ root ++ IntToHex now ++ IntToHex (targetBits : Int)
            ++ IntToHex (maxNonce - 1))) ∧
    NewBlock P transactions prevBlockHash height now
      = some ⟨now, transactions, prevBlockHash, maxNonce,
          P.sha256 (prevBlockHash ++ root ++ IntToHex now ++ IntToHex (targetBits : Int)
            ++ IntToHex (maxNonce - 1)), height⟩ := by
  have htarget : (NewProofOfWork ⟨now, transactions, prevBlockHash, 0, [], height⟩).target
      = 2 ^ (256 - 24) := by
    simp [NewProofOfWork, targetBits, Nat.shiftLeft_eq]
  obtain ⟨h, hrun, h1, _⟩ := runLoop_exhausted P
    (NewProofOfWork ⟨now, transactions, prevBlockHash, 0, [], height⟩) root hroot 0
    (List.replicate 32 0)
    (by
      intro n data hn hn1 hd
      rw [prepareData_of_root P _ root n hroot] at hd
      simp only [Option.some.injEq] at hd
      rw [htarget, ← hd]
      exact hrej n hn hn1)
    (by decide)
  obtain ⟨data, hdata, hh⟩ := h1 (by decide)
  rw [prepareData_of_root P _ root _ hroot] at hdata
  simp only [Option.some.injEq] at hdata
  have hRun : Run P (NewProofOfWork ⟨now, transactions, prevBlockHash, 0, [], height⟩)
      = some (maxNonce,
          P.sha256 (prevBlockHash ++ root ++ IntToHex now ++ IntToHex (targetBits : Int)
            ++ IntToHex (maxNonce - 1))) := by
    simp only [Run, hrun, hh, ← hdata]
    rfl
  refine ⟨hRun, ?_⟩
  simp only [NewBlock, hRun]

/-- C24 (counterexample): with a hash that is never below the target, NewBlock reports no
failure: it returns a block whose Nonce is maxNonce and whose Hash is the last hash
computed, 2^256 - 1, which is not below the target 2^232. -/
theorem NewBlock_returns_unmined_block :
    NewBlock highPrims [sampleCoinbase] [] 0 5
      = some ⟨5, [sampleCoinbase], [], maxNonce, List.replicate 32 255, 0⟩ ∧
    ¬ bytesToNat (List.replicate 32 255) < 2 ^ (256 - 24) :=
  ⟨(Run_NewBlock_exhausted highPrims [sampleCoinbase] [] 0 5 (List.replicate 32 255) rfl
      (fun n _ _ => by
        show ¬ bytesToNat (List.replicate 32 255) < 2 ^ (256 - 24)
        decide)).2,
    by decide⟩

/-- C24 (amended): when the transactions have a Merkle root and no nonce from 0 up to
maxNonce - 1 gives a hash below the target, ProofOfWork.Run reports no failure: it returns
the nonce maxNonce with the hash of the last nonce tried, maxNonce - 1, and NewBlock returns
the block that carries this nonce and this hash, which is not below the target. -/
theorem Run_exhausted_returns (P : Prims) (transactions : List Transaction)
    (prevBlockHash : Bytes) (height now : Int) (root : Bytes)
    (hroot : HashTransactions P ⟨now, transactions, prevBlockHash, 0, [], height⟩ = some root)
    (hrej : ∀ n : Int, 0 ≤ n → n < maxNonce →
      ¬ bytesToNat (P.sha256 (prevBlockHash ++ root ++ IntToHex now
          ++ IntToHex (targetBits : Int) ++ IntToHex n)) < 2 ^ (256 - 24)) :
    ∃ hash,
      hash = P.sha256 (prevBlockHash ++ root ++ IntToHex now ++ IntToHex (targetBits : Int)
        ++ IntToHex (maxNonce - 1)) ∧
      Run P (NewProofOfWork ⟨now, transactions, prevBlockHash, 0, [], height⟩)
        = some (maxNonce, hash) ∧
      NewBlock P transactions prevBlockHash height now
        = some ⟨now, transactions, prevBlockHash, maxNonce, hash, height⟩ ∧
      ¬ bytesToNat hash < 2 ^ (256 - 24) := by
  obtain ⟨h1, h2⟩ := Run_NewBlock_exhausted P transactions prevBlockHash height now root
    hroot hrej
  exact ⟨_, rfl, h1, h2, hrej (maxNonce - 1) (by decide) (by decide)⟩

theorem Run_exhausted_returns_witness :
    ∃ hash,
      hash = highPrims.sha256 ([] ++ List.replicate 32 255 ++ IntToHex 5
        ++ IntToHex (targetBits : Int) ++ IntToHex (maxNonce - 1)) ∧
      Run highPrims (NewProofOfWork ⟨5, [sampleCoinbase], [], 0, [], 0⟩)
        = some (maxNonce, hash) ∧
      NewBlock highPrims [sampleCoinbase] [] 0 5
        = some ⟨5, [sampleCoinbase], [], maxNonce, hash, 0⟩ ∧
      ¬ bytesToNat hash < 2 ^ (256 - 24) :=
  Run_exhausted_returns highPrims [sampleCoinbase] [] 0 5 (List.replicate 32 255) rfl
    (fun n _ _ => by
      show ¬ bytesToNat (List.replicate 32 255) < 2 ^ (256 - 24)
      decide)

/-! ## The lookup of referenced transactions -/

theorem FindTransactionForUTXO_congr (bc1 bc2 : Blockchain) (txID : Bytes)
    (hb : bc1.Db.blocks = bc2.Db.blocks) (hl : bc1.Db.utxoBlock = bc2.Db.utxoBlock) :
    bc1.FindTransactionForUTXO txID = bc2.FindTransactionForUTXO txID := by
  unfold Blockchain.FindTransactionForUTXO
  rw [hb, hl]

theorem collectPrevTXs_congr (bc1 bc2 : Blockchain)
    (hb : bc1.Db.blocks = bc2.Db.blocks) (hl : bc1.Db.utxoBlock = bc2.Db.utxoBlock) :
    ∀ (vins : List TxInput) (prevTXs : GoMap Transaction),
      collectPrevTXs bc1 vins prevTXs = collectPrevTXs bc2 vins prevTXs
  | [], _ => rfl
  | vin :: rest, prevTXs => by
    simp only [collectPrevTXs, FindTransactionForUTXO_congr bc1 bc2 vin.Txid hb hl]
    cases bc2.FindTransactionForUTXO vin.Txid with
    | none => rfl
    | some prevTX => exact collectPrevTXs_congr bc1 bc2 hb hl rest _

/-- C29: FindTransactionForUTXO never returns a non-nil error: whenever it returns, the
error is nil and the transaction is what the View closure found; when the tx-location bucket
maps the id to a stored block that holds no transaction with that id, it returns the zero
Transaction with a nil error; and it returns the error "transaction not found" for no chain
and no id. -/
theorem FindTransactionForUTXO_error_nil (bc : Blockchain) (txID : Bytes) :
    (∀ r, bc.FindTransactionForUTXOWithErr txID = some r →
      r.2 = none ∧ bc.FindTransactionForUTXO txID = some r.1) ∧
    (∀ b blockb blockhash block, bc.Db.blocks = some b → bc.Db.utxoBlock = some blockb →
      blockb.Get txID = some blockhash → b.Get blockhash = some (.blockData block) →
      (∀ tx ∈ block.Transactions, tx.ID ≠ txID) →
      bc.FindTransactionForUTXOWithErr txID = some (zeroTransaction, none)) ∧
    (∀ tnx, bc.FindTransactionForUTXOWithErr txID ≠ some (tnx, some errNotFound)) := by
  have hall : ∀ r, bc.FindTransactionForUTXOWithErr txID = some r →
      r.2 = none ∧ bc.FindTransactionForUTXO txID = some r.1 := by
    intro r hr
    unfold Blockchain.FindTransactionForUTXOWithErr at hr
    cases hf : bc.FindTransactionForUTXO txID with
    | none => simp [hf] at hr
    | some tnx =>
      simp only [hf, addressIsNotNil, if_true, Option.some.injEq] at hr
      subst hr
      exact ⟨rfl, rfl⟩
  refine ⟨hall, ?_, ?_⟩
  · intro b blockb blockhash block hb hl hloc hblk hno
    have hfold : ∀ (txs : List Transaction) (init : Transaction),
        (∀ tx ∈ txs, tx.ID ≠ txID) →
        txs.foldl (fun tnx tx => if tx.ID = txID then tx else tnx) init = init := by
      intro txs
      induction txs with
      | nil => intro init _; rfl
      | cons t rest ih =>
        intro init hne
        simp only [List.foldl_cons, hne t (by simp), if_false]
        exact ih init (fun tx htx => hne tx (by simp [htx]))
    simp [Blockchain.FindTransactionForUTXOWithErr, Blockchain.FindTransactionForUTXO, hb, hl,
      hloc, hblk, DeserializeBlock, addressIsNotNil, hfold block.Transactions _ hno]
  · intro tnx hr
    have := (hall _ hr).1
    exact Option.noConfusion this

theorem FindTransactionForUTXO_error_nil_witness :
    (∀ r, sampleMislocatedChain.FindTransactionForUTXOWithErr [9] = some r →
      r.2 = none ∧ sampleMislocatedChain.FindTransactionForUTXO [9] = some r.1) ∧
    sampleMislocatedChain.FindTransactionForUTXOWithErr [9] = some (zeroTransaction, none) ∧
    sampleMislocatedChain.FindTransactionForUTXOWithErr [7] = some (sampleCoinbase, none) :=
  ⟨(FindTransactionForUTXO_error_nil sampleMislocatedChain [9]).1,
    (FindTransactionForUTXO_error_nil sampleMislocatedChain [9]).2.1 _ _ [10] sampleBlock0
      rfl rfl (by decide) (by decide) (by decide),
    by decide⟩

/-- C30: VerifyTransaction reads the blocks bucket and the tx-location bucket only: on two
chains that agree on these two buckets it returns the same result, panic or value, for
every transaction and clock reading, whatever their UTXO buckets and tips are. -/
theorem VerifyTransaction_ignores_utxo (P : Prims) (bc1 bc2 : Blockchain) (tx : Transaction)
    (now : Int) (hb : bc1.Db.blocks = bc2.Db.blocks)
    (hl : bc1.Db.utxoBlock = bc2.Db.utxoBlock) :
    bc1.VerifyTransaction P tx now = bc2.VerifyTransaction P tx now := by
  unfold Blockchain.VerifyTransaction
  rw [collectPrevTXs_congr bc1 bc2 hb hl]

theorem VerifyTransaction_ignores_utxo_witness :
    sampleLocatedChain.Db.utxo ≠ sampleSpentChain.Db.utxo ∧
    sampleLocatedChain.VerifyTransaction zeroPrims sampleTx1 5
      = sampleSpentChain.VerifyTransaction zeroPrims sampleTx1 5 ∧
    sampleSpentChain.VerifyTransaction zeroPrims sampleTx1 5 = some true :=
  ⟨by decide,
    VerifyTransaction_ignores_utxo zeroPrims sampleLocatedChain sampleSpentChain sampleTx1 5
      rfl rfl,
    by decide⟩

/-! ## The values of the outputs of a transfer -/

theorem NewUTXOTransactionIn_values (P : Prims) (wallet : Wallet) (toAddr : Bytes)
    (amount : Int) (u : UTXOSet) (now nowSign : Int) (rnd : Nat → Nat)
    (visit : GoMap (List Int) → GoMap (List Int)) (tx : Transaction)
    (h : NewUTXOTransactionIn P wallet toAddr amount u now nowSign rnd visit = .ok tx) :
    ∃ acc sel,
      u.FindSpendableOutputs (HashPubKey P wallet.PublicKey) amount = some (acc, sel) ∧
      amount ≤ acc ∧
      tx.Vout.map TxOutput.Value
        = amount :: (if acc > amount then [wrapInt64 (acc - amount)] else []) := by
  unfold NewUTXOTransactionIn at h
  simp only at h
  cases hf : u.FindSpendableOutputs (HashPubKey P wallet.PublicKey) amount with
  | none => simp [hf] at h
  | some r =>
    obtain ⟨acc, sel⟩ := r
    simp only [hf] at h
    by_cases hlt : acc < amount
    · simp [hlt] at h
    · simp only [hlt, if_false] at h
      refine ⟨acc, sel, rfl, not_lt.mp hlt, ?_⟩
      rw [NewTxOutput_eq] at h
      by_cases h1 : (P.base58Decode toAddr).length < 5
      · simp [h1] at h
      · simp only [h1, if_false] at h
        by_cases hgt : acc > amount
        · simp only [hgt, if_true, NewTxOutput_eq] at h
          by_cases h5 : (P.base58Decode (wallet.GetAddress P)).length < 5
          · simp [h5] at h
          · simp only [h5, if_false] at h
            split at h
            · exact Except.noConfusion h
            · rename_i signed hs
              simp only [Except.ok.injEq] at h
              subst h
              rw [(SignTransaction_Vout P _ _ _ _ _ _ hs).1]
              simp [hgt]
        · simp only [hgt, if_false] at h
          split at h
          · exact Except.noConfusion h
          · rename_i signed hs
            simp only [Except.ok.injEq] at h
            subst h
            rw [(SignTransaction_Vout P _ _ _ _ _ _ hs).1]
            simp [hgt]

/-- C26 (counterexample): for the amount -5 NewUTXOTransaction returns a transaction, without
inputs, whose first output has the value -5. -/
theorem NewUTXOTransaction_negative_output :
    NewUTXOTransaction zeroPrims sampleWallet sampleRecipient (-5) ⟨samplePaidChain⟩ 0 0
        (fun _ => 1)
      = .ok ⟨List.replicate 32 0, [],
          [⟨-5, List.replicate 20 3⟩, ⟨5, List.replicate 20 0⟩], 0⟩ ∧
    NewUTXOTransaction zeroPrims sampleWallet sampleRecipient 0 ⟨samplePaidChain⟩ 0 0
        (fun _ => 1)
      = .ok ⟨List.replicate 32 0, [], [⟨0, List.replicate 20 3⟩], 0⟩ :=
  ⟨rfl, rfl⟩

/-- C26 (amended): every transaction that NewUTXOTransaction returns, in whatever order the
range over the selection visits its entries, has a first output of value amount, which is
not positive when amount is 0 or less; when amount is greater than 0, every output of the
transaction has a positive value. -/
theorem NewUTXOTransaction_outputs_positive (P : Prims) (wallet : Wallet) (toAddr : Bytes)
    (amount : Int) (u : UTXOSet) (now nowSign : Int) (rnd : Nat → Nat)
    (visit : GoMap (List Int) → GoMap (List Int)) (tx : Transaction)
    (h : NewUTXOTransactionIn P wallet toAddr amount u now nowSign rnd visit = .ok tx) :
    (∃ first rest, tx.Vout = first :: rest ∧ first.Value = amount) ∧
    (0 < amount → ∀ out ∈ tx.Vout, 0 < out.Value) := by
  obtain ⟨acc, sel, hf, hle, hvals⟩ :=
    NewUTXOTransactionIn_values P wallet toAddr amount u now nowSign rnd visit tx h
  constructor
  · cases hv : tx.Vout with
    | nil => simp [hv] at hvals
    | cons first rest =>
      simp only [hv, List.map_cons, List.cons.injEq] at hvals
      exact ⟨first, rest, rfl, hvals.1⟩
  · intro hamount
    have hacc := FindSpendableOutputs_inInt64 u _ amount acc sel hf
    have hwrap : wrapInt64 (acc - amount) = acc - amount := by
      apply wrapInt64_of_inInt64
      unfold inInt64 at hacc ⊢
      constructor <;> omega
    intro out hout
    have hmem : out.Value ∈ tx.Vout.map TxOutput.Value := List.mem_map_of_mem _ hout
    rw [hvals, hwrap] at hmem
    by_cases hgt : acc > amount
    · simp only [hgt, if_true, List.mem_cons, List.mem_singleton, List.not_mem_nil,
        or_false] at hmem
      rcases hmem with h1 | h1 <;> omega
    · simp only [hgt, if_false, List.mem_singleton] at hmem
      omega

theorem NewUTXOTransaction_outputs_positive_witness :
    NewUTXOTransactionIn zeroPrims sampleWallet sampleRecipient 4 ⟨samplePaidChain⟩ 0 0
      (fun _ => 1) (fun m => m) = .ok sampleTransfer ∧
    (∃ first rest, sampleTransfer.Vout = first :: rest ∧ first.Value = 4) ∧
    ((0 : Int) < 4 → ∀ out ∈ sampleTransfer.Vout, 0 < out.Value) :=
  ⟨rfl,
    NewUTXOTransaction_outputs_positive zeroPrims sampleWallet sampleRecipient 4
      ⟨samplePaidChain⟩ 0 0 (fun _ => 1) (fun m => m) sampleTransfer rfl⟩

theorem NewMerkleTree_isSome_iff_witness :
    ((NewMerkleTree zeroPrims [[1], [2], [3]]).isSome = true ↔
      1 ≤ [[1], [2], [3]].length ∧ [[1], [2], [3]].length ≤ 4) ∧
    (∀ t, NewMerkleTree zeroPrims [[1], [2], [3]] = some t →
      refMerkleRoot zeroPrims [[1], [2], [3]] = some t.RootNode.Data) :=
  NewMerkleTree_isSome_iff zeroPrims [[1], [2], [3]]

/-! ## The genesis chain -/

theorem runLoop_total (P : Prims) (pow : ProofOfWork) (root : Bytes)
    (hroot : HashTransactions P pow.block = some root) :
    ∀ (nonce : Int) (hash : Bytes),
      ∃ n h, runLoop P pow nonce hash = some (n, h) ∧
        (nonce < maxNonce → ∃ data, h = P.sha256 data) ∧ (¬ nonce < maxNonce → h = hash) := by
  intro nonce hash
  induction nonce, hash using runLoop.induct P pow with
  | case1 nonce hash hlt hnone =>
    rw [prepareData_of_root P pow root nonce hroot] at hnone
    exact Option.noConfusion hnone
  | case2 nonce hash hlt data hdata hsha hacc =>
    refine ⟨nonce, P.sha256 data, ?_, fun _ => ⟨data, rfl⟩, fun hc => absurd hlt hc⟩
    rw [runLoop]
    simp only [hlt, hdata, if_true]
    rw [if_pos hacc]
  | case3 nonce hash hlt data hdata hsha hrejn ih =>
    obtain ⟨n, h, hrun, h1, h2⟩ := ih
    refine ⟨n, h, ?_, ?_, fun hc => absurd hlt hc⟩
    · rw [runLoop]
      simp only [hlt, hdata, if_true]
      rw [if_neg hrejn]
      exact hrun
    · intro _
      by_cases hnext : nonce + 1 < maxNonce
      · exact h1 hnext
      · exact ⟨data, h2 hnext⟩
  | case4 nonce hash hge =>
    refine ⟨nonce, hash, ?_, fun hc => absurd hc hge, fun _ => rfl⟩
    rw [runLoop, if_neg hge]

theorem NewBlock_total (P : Prims) (transactions : List Transaction) (prevBlockHash : Bytes)
    (height now : Int) (root : Bytes)
    (hroot : HashTransactions P ⟨now, transactions, prevBlockHash, 0, [], height⟩ = some root) :
    ∃ b data, NewBlock P transactions prevBlockHash height now = some b ∧
      b.Hash = P.sha256 data := by
  obtain ⟨n, h, hrun, h1, _⟩ := runLoop_total P
    (NewProofOfWork ⟨now, transactions, prevBlockHash, 0, [], height⟩) root hroot 0
    (List.replicate 32 0)
  obtain ⟨data, hd⟩ := h1 (by decide)
  refine ⟨⟨now, transactions, prevBlockHash, n, h, height⟩, data, ?_, hd⟩
  simp only [NewBlock, Run, hrun]

theorem Put_of_length {V : Type} (b : Bucket V) (k : Bytes) (v : V)
    (hk : k.length = 32 ∨ k.length = 1) : b.Put k v = some (Bucket.insert b k v) := by
  apply Bucket.Put_isSome
  unfold validKey maxKeySize
  rcases hk with h | h <;> omega

theorem CreatBlockchain_explicit (P : Prims) (address : Bytes) (nowTx nowBlock : Int)
    (hlen : ∀ x, (P.sha256 x).length = 32)
    (haddr : 5 ≤ (P.base58Decode address).length) :
    ∃ cb g b2,
      NewCoinbaseTX P address genesisCoinbaseData nowTx = some cb ∧
      cb.Vin = [⟨[], -1, [], genesisCoinbaseData⟩] ∧
      cb.Vout = [⟨10, decodedPubKeyHash P address⟩] ∧
      cb.ID.length = 32 ∧
      g.Transactions = [cb] ∧ g.PrevBlockHash = [] ∧ g.Height = 0 ∧ g.Hash.length = 32 ∧
      CreatBlockchain P address nowTx nowBlock = some ⟨g.Hash, ⟨some b2, none, none⟩⟩ ∧
      (∀ k, b2.Get k
        = if tipKeyOne = k then some (.raw g.Hash)
          else if g.Hash = k then some (.blockData g) else none) := by
  have h5 : ¬ (P.base58Decode address).length < 5 := by omega
  have hcb : NewCoinbaseTX P address genesisCoinbaseData nowTx
      = some ⟨(Transaction.mk [] [⟨[], -1, [], genesisCoinbaseData⟩]
            [⟨10, decodedPubKeyHash P address⟩] nowTx).Hash P,
          [⟨[], -1, [], genesisCoinbaseData⟩], [⟨10, decodedPubKeyHash P address⟩], nowTx⟩ := by
    simp [NewCoinbaseTX, NewTxOutput_eq, h5, genesisCoinbaseData, subsidy]
  generalize hcbv : (⟨(Transaction.mk [] [⟨[], -1, [], genesisCoinbaseData⟩]
      [⟨10, decodedPubKeyHash P address⟩] nowTx).Hash P,
      [⟨[], -1, [], genesisCoinbaseData⟩], [⟨10, decodedPubKeyHash P address⟩], nowTx⟩
      : Transaction) = cb at hcb
  have hroot : ∃ root, HashTransactions P ⟨nowBlock, [cb], [], 0, [], 0⟩ = some root := by
    simp [HashTransactions, NewMerkleTree, leafNodes, levelLoop, pairLevel, NewMerkleNode]
  obtain ⟨root, hroot⟩ := hroot
  obtain ⟨g, data, hg, hhash⟩ := NewBlock_total P [cb] [] 0 nowBlock root hroot
  have hf := NewBlock_fields P [cb] [] 0 nowBlock g hg
  have hgl : g.Hash.length = 32 := by rw [hhash]; exact hlen data
  have hp1 := Put_of_length ([] : Bucket BlockEntry) g.Hash (.blockData g) (Or.inl hgl)
  have hp2 := Put_of_length (Bucket.insert ([] : Bucket BlockEntry) g.Hash (.blockData g))
    tipKeyOne (.raw g.Hash) (Or.inr rfl)
  refine ⟨cb, g,
    (Bucket.insert ([] : Bucket BlockEntry) g.Hash (.blockData g)).insert tipKeyOne
      (.raw g.Hash),
    hcb, ?_, ?_, ?_, hf.1, hf.2.1, hf.2.2.1, hgl, ?_, ?_⟩
  · rw [← hcbv]
  · rw [← hcbv]
  · rw [← hcbv]
    exact hlen _
  · simp only [CreatBlockchain, hcb, NewGenesisBlock, hg, hp1, hp2]
  · intro k
    rw [Bucket.Get_insert, Bucket.Get_insert]
    rfl

theorem Reindex_genesis (b2 : Bucket BlockEntry) (g : Block) (cb : Transaction) (fuel : Nat)
    (hget : ∀ k, b2.Get k
      = if tipKeyOne = k then some (.raw g.Hash)
        else if g.Hash = k then some (.blockData g) else none)
    (hgl : g.Hash.length = 32) (hprev : g.PrevBlockHash = []) (htxs : g.Transactions = [cb])
    (hvin : cb.Vin = [⟨[], -1, [], genesisCoinbaseData⟩]) (out : TxOutput)
    (hvout : cb.Vout = [out]) (hid : cb.ID.length = 32) :
    chainFrom ⟨some b2, some [(cb.ID, ⟨[out]⟩)], some [(cb.ID, BytesToHash g.Hash)]⟩
      (fuel + 1) g.Hash = some [g] ∧
    (UTXOSet.mk ⟨g.Hash, ⟨some b2, none, none⟩⟩).Reindex (fuel + 1)
      = some ⟨some b2, some [(cb.ID, ⟨[out]⟩)], some [(cb.ID, BytesToHash g.Hash)]⟩ := by
  have htip : tipKeyOne ≠ g.Hash := by
    intro he
    rw [← he] at hgl
    simp [tipKeyOne] at hgl
  have hcoin : cb.IsCoinbase = true := by
    simp [Transaction.IsCoinbase, hvin]
  have hq1 := Put_of_length ([] : Bucket TxOutputs) cb.ID ⟨[out]⟩ (Or.inl hid)
  have hq2 := Put_of_length ([] : Bucket Bytes) cb.ID (BytesToHash g.Hash) (Or.inl hid)
  constructor
  · simp [chainFrom, iteratorNext, hget, htip, DeserializeBlock, hprev]
  · simp only [UTXOSet.Reindex, Blockchain.FindUTXO, chainFrom, iteratorNext, hget, htip,
      if_false, if_true, DeserializeBlock, hprev, List.length_nil,
      findUTXOBlocks, List.foldl_cons, List.foldl_nil, spentOfBlocks, htxs,
      spentOfTx, hcoin, utxoOfBlock, hvout, utxoOfOutputs, isSpent, GoMap.get,
      Option.getD_none, List.any_nil, GoMap.set, List.nil_append, reindexWrite,
      Bool.true_eq_false, Bool.false_eq_true, hq1, hq2, Option.getD_some, Bucket.insert]

/-- C27: for an address F whose decoded form has at least five bytes, and a SHA-256 that
returns 32 bytes, CreatBlockchain returns a chain and Reindex (allowed to visit at least one
block) returns; iterating from the tip then yields exactly one block, with Height 0, empty
PrevBlockHash and a single transaction, the coinbase with one input (empty id, index -1)
and one output of value 10 locked to the pub-key-hash decoded from F; and the values that
UTXOSet.FindUTXO returns for that pub-key-hash sum to 10. -/
theorem genesis_chain_and_balance (P : Prims) (F : Bytes) (nowTx nowBlock : Int) (fuel : Nat)
    (hlen : ∀ x, (P.sha256 x).length = 32)
    (haddr : 5 ≤ (P.base58Decode F).length) :
    ∃ bc db0 g cb,
      CreatBlockchain P F nowTx nowBlock = some bc ∧
      (UTXOSet.mk bc).Reindex (fuel + 1) = some db0 ∧
      chainFrom db0 (fuel + 1) bc.Tip = some [g] ∧
      g.Height = 0 ∧ g.PrevBlockHash = [] ∧ g.Transactions = [cb] ∧
      cb.IsCoinbase = true ∧
      cb.Vin = [⟨[], -1, [], genesisCoinbaseData⟩] ∧
      cb.Vout = [⟨10, decodedPubKeyHash P F⟩] ∧
      ∃ outs, (UTXOSet.mk ⟨bc.Tip, db0⟩).FindUTXO (decodedPubKeyHash P F) = some outs ∧
        (outs.map TxOutput.Value).sum = 10 := by
  obtain ⟨cb, g, b2, _, hvin, hvout, hid, htxs, hprev, hheight, hgl, hcreate, hget⟩ :=
    CreatBlockchain_explicit P F nowTx nowBlock hlen haddr
  obtain ⟨hchain, hre⟩ := Reindex_genesis b2 g cb fuel hget hgl hprev htxs hvin _ hvout hid
  refine ⟨_, _, g, cb, hcreate, hre, hchain, hheight, hprev, htxs, ?_, hvin, hvout, ?_⟩
  · simp [Transaction.IsCoinbase, hvin]
  · refine ⟨[⟨10, decodedPubKeyHash P F⟩], ?_, by simp⟩
    simp [UTXOSet.FindUTXO, TxOutput.IsLockedWithKey]

theorem genesis_chain_and_balance_witness :
    ∃ bc db0 g cb,
      CreatBlockchain toyPrims toyF 0 0 = some bc ∧
      (UTXOSet.mk bc).Reindex (0 + 1) = some db0 ∧
      chainFrom db0 (0 + 1) bc.Tip = some [g] ∧
      g.Height = 0 ∧ g.PrevBlockHash = [] ∧ g.Transactions = [cb] ∧
      cb.IsCoinbase = true ∧
      cb.Vin = [⟨[], -1, [], genesisCoinbaseData⟩] ∧
      cb.Vout = [⟨10, decodedPubKeyHash toyPrims toyF⟩] ∧
      ∃ outs, (UTXOSet.mk ⟨bc.Tip, db0⟩).FindUTXO (decodedPubKeyHash toyPrims toyF)
          = some outs ∧
        (outs.map TxOutput.Value).sum = 10 :=
  genesis_chain_and_balance toyPrims toyF 0 0 0 (fun x => by simp [toyPrims]) (by decide)

/-! ## The tx-location bucket under Update -/

theorem updateTxs_locations (blockHash : Bytes) :
    ∀ (txs : List Transaction) (st st1 : Bucket TxOutputs × Bucket Bytes),
      updateTxs blockHash txs st = some st1 →
      ∀ k, (st.2.Get k).isSome = true → (st1.2.Get k).isSome = true
  | [], st, st1, h, k, hk => by
    simp only [updateTxs, Option.some.injEq] at h
    subst h
    exact hk
  | tx :: rest, st, st1, h, k, hk => by
    simp only [updateTxs] at h
    cases hu : updateTx blockHash st tx with
    | none => simp [hu] at h
    | some st2 =>
      simp only [hu] at h
      apply updateTxs_locations blockHash rest st2 st1 h k
      obtain ⟨b, blockb⟩ := st
      unfold updateTx at hu
      simp only at hu
      split at hu
      · exact Option.noConfusion hu
      · split at hu
        · exact Option.noConfusion hu
        · split at hu
          · exact Option.noConfusion hu
          · rename_i blockb1 hput
            simp only [Option.some.injEq] at hu
            subst hu
            simp only
            rw [Bucket.Get_Put blockb blockb1 tx.ID k blockHash hput]
            split
            · rfl
            · exact hk

/-- C21 (the code departs from the claim): Update deletes nothing from the tx-location
bucket: every key the bucket holds before Update(block) it holds afterwards, also the id of
a transaction whose UTXO entry the block has just emptied and deleted. -/
theorem Update_keeps_locations (u : UTXOSet) (block : Block) (db1 : DB)
    (blockb : Bucket Bytes) (k hash : Bytes)
    (h : u.Update block = some db1)
    (hb : u.Blockchain.Db.utxoBlock = some blockb) (hk : blockb.Get k = some hash) :
    ∃ blockb1, db1.utxoBlock = some blockb1 ∧ (blockb1.Get k).isSome = true := by
  unfold UTXOSet.Update at h
  simp only [hb, Option.getD_some] at h
  split at h
  · split at h
    · simp only [Option.some.injEq] at h
      subst h
      exact ⟨blockb, rfl, by simp [hk]⟩
    · exact Option.noConfusion h
  · rename_i b hutxo
    split at h
    · exact Option.noConfusion h
    · rename_i b1 blockb1 hup
      simp only [Option.some.injEq] at h
      subst h
      exact ⟨blockb1, rfl,
        updateTxs_locations block.Hash block.Transactions (b, blockb) (b1, blockb1) hup k
          (by simp [hk])⟩

theorem Update_keeps_locations_witness :
    (UTXOSet.mk ⟨[10], sampleDB⟩).Reindex 1 = some sampleGenesisIndexed ∧
    locationsWithinUTXO sampleGenesisIndexed = true ∧
    (UTXOSet.mk ⟨[11], sampleGenesisIndexed⟩).Update sampleBlock1 = some sampleAfterBlock1 ∧
    (sampleAfterBlock1.utxo.getD []).Get [7] = none ∧
    (∃ blockb1, sampleAfterBlock1.utxoBlock = some blockb1 ∧
      (blockb1.Get [7]).isSome = true) ∧
    locationsWithinUTXO sampleAfterBlock1 = false :=
  ⟨by decide, by decide, by decide, by decide,
    Update_keeps_locations ⟨⟨[11], sampleGenesisIndexed⟩⟩ sampleBlock1 sampleAfterBlock1
      [([7], BytesToHash [10])] [7] (BytesToHash [10]) (by decide) rfl (by decide),
    by decide⟩

/-! ## A block received with an empty transit queue -/

theorem AddBlock_keeps_utxo (bc bc1 : Blockchain) (block : Block)
    (h : bc.AddBlock block = some bc1) :
    bc1.Db.utxo = bc.Db.utxo ∧ bc1.Db.utxoBlock = bc.Db.utxoBlock := by
  unfold Blockchain.AddBlock at h
  split at h
  · exact Option.noConfusion h
  · split at h
    · simp only [Option.some.injEq] at h
      subst h
      exact ⟨rfl, rfl⟩
    · split at h
      · exact Option.noConfusion h
      · split at h
        · exact Option.noConfusion h
        · split at h
          · split at h
            · exact Option.noConfusion h
            · simp only [Option.some.injEq] at h
              subst h
              exact ⟨rfl, rfl⟩
          · simp only [Option.some.injEq] at h
            subst h
            exact ⟨rfl, rfl⟩

/-- C22 (the code departs from the claim): when blocksInTransit is empty, handleBlock stops
after AddBlock: it sends no request and the UTXO bucket and the tx-location bucket are the
ones it found, so the received block is not applied to the UTXO index. -/
theorem handleBlock_skips_update (node node1 : Node) (addrFrom : Bytes) (block : Block)
    (reqs : List Request)
    (hq : node.blocksInTransit = [])
    (h : handleBlock node addrFrom block = some (node1, reqs)) :
    node.bc.AddBlock block = some node1.bc ∧ reqs = [] ∧
    node1.bc.Db.utxo = node.bc.Db.utxo ∧ node1.bc.Db.utxoBlock = node.bc.Db.utxoBlock := by
  unfold handleBlock at h
  cases ha : node.bc.AddBlock block with
  | none => simp [ha] at h
  | some bc1 =>
    simp only [ha, hq, Option.some.injEq, Prod.mk.injEq] at h
    obtain ⟨h1, h2⟩ := h
    subst h1
    have hk := AddBlock_keeps_utxo node.bc bc1 block ha
    exact ⟨rfl, h2.symm, hk.1, hk.2⟩

theorem handleBlock_skips_update_witness :
    handleBlock sampleIdleNode [1] sampleBlock2 = some (sampleIdleNodeAfter, []) ∧
    (sampleIdleNode.bc.AddBlock sampleBlock2 = some sampleIdleNodeAfter.bc ∧
      ([] : List Request) = [] ∧
      sampleIdleNodeAfter.bc.Db.utxo = sampleIdleNode.bc.Db.utxo ∧
      sampleIdleNodeAfter.bc.Db.utxoBlock = sampleIdleNode.bc.Db.utxoBlock) ∧
    (sampleIdleNodeAfter.bc.Db.utxo.getD []).Get sampleTx2.ID = none ∧
    ((UTXOSet.mk sampleIdleNodeAfter.bc).Update sampleBlock2).bind
        (fun db => (db.utxo.getD []).Get sampleTx2.ID)
      = some ⟨sampleTx2.Vout⟩ :=
  ⟨rfl,
    handleBlock_skips_update sampleIdleNode sampleIdleNodeAfter [1] sampleBlock2 [] rfl rfl,
    by decide, by decide⟩

/-! ## The order of the block inventory -/

theorem chainFrom_linked (bc : Blockchain) :
    ∀ (fuel : Nat) (h : Bytes) (blocks : List Block),
      chainFrom bc.Db fuel h = some blocks → linkedFrom bc h blocks
  | 0, _, _, hc => by simp [chainFrom] at hc
  | fuel + 1, h, blocks, hc => by
    simp only [chainFrom, iteratorNext] at hc
    cases hb : bc.Db.blocks with
    | none => simp [hb] at hc
    | some b =>
      simp only [hb] at hc
      cases hd : DeserializeBlock (b.Get h) with
      | none => simp [hd] at hc
      | some block =>
        simp only [hd] at hc
        have hst : bc.storedBlock h = some block := by
          simp [Blockchain.storedBlock, hb, hd]
        by_cases hp : block.PrevBlockHash.length = 0
        · simp only [hp, if_true, Option.some.injEq] at hc
          subst hc
          exact ⟨hst, hp⟩
        · simp only [hp, if_false] at hc
          cases hr : chainFrom bc.Db fuel block.PrevBlockHash with
          | none => simp [hr] at hc
          | some rest =>
            simp only [hr, Option.some.injEq] at hc
            subst hc
            have ih := chainFrom_linked bc fuel block.PrevBlockHash rest hr
            cases rest with
            | nil => exact ih.elim
            | cons next rest1 => exact ⟨hst, hp, ih⟩

theorem linkedFrom_head (bc : Blockchain) (h : Bytes) (tipBlock : Block) (rest : List Block)
    (hl : linkedFrom bc h (tipBlock :: rest)) :
    bc.storedBlock h = some tipBlock ∧ (tipBlock.PrevBlockHash.length = 0 ↔ rest = []) := by
  cases rest with
  | nil => exact ⟨hl.1, fun _ => rfl, fun _ => hl.2⟩
  | cons next rest1 =>
    exact ⟨hl.1, fun h0 => absurd h0 hl.2.1, fun hn => List.noConfusion hn⟩

theorem linkedFrom_last (bc : Blockchain) :
    ∀ (blocks : List Block) (h : Bytes), linkedFrom bc h blocks →
      ∀ last, blocks.getLast? = some last → last.PrevBlockHash.length = 0
  | [], _, hl, _, _ => hl.elim
  | [block], _, hl, last, hlast => by
    simp only [List.getLast?_singleton, Option.some.injEq] at hlast
    subst hlast
    exact hl.2
  | block :: next :: rest, _, hl, last, hlast => by
    rw [List.getLast?_cons_cons] at hlast
    exact linkedFrom_last bc (next :: rest) block.PrevBlockHash hl.2.2 last hlast

/-- With the sample blocks, whose transfers spend outputs of the block before, the block
requested first in a sync from the tip cannot be applied: handleBlock with sampleBlock2 on the
node that holds the genesis block only does not return, Update finding no entry for the
output that sampleTx2 spends; with sampleBlock1 first, then sampleBlock2, both calls
return. -/
theorem handleBlock_tip_first_stops :
    sampleTipChain.GetBlockHashes 2 = some [[11], [10]] ∧
    handleInv ⟨sampleTipChain, []⟩ [] ⟨[1], kindBlock, [[11], [10]]⟩
      = some (⟨sampleTipChain, [[10]]⟩, [.getdata [1] kindBlock [11]]) ∧
    handleBlock ⟨sampleFreshNode.bc, [[11], [10]]⟩ [2] sampleBlock2 = none ∧
    ((handleBlock ⟨sampleFreshNode.bc, [[12]]⟩ [2] sampleBlock1).bind
        (fun r => handleBlock ⟨r.1.bc, [[13]]⟩ [2] sampleBlock2)).isSome = true :=
  ⟨by decide, rfl, rfl, rfl⟩

/-- C23 (the code departs from the claim): the hash list that handleGetBlocks sends,
GetBlockHashes, runs from the tip block back to the genesis block: it lists the blocks the
iterator visits from bc.Tip, each one the block stored under the PrevBlockHash of the one
before; its first block is the block stored under bc.Tip, which has an empty PrevBlockHash
only when it is the one block of the list, and its last block is the block with an empty
PrevBlockHash.  handleInv requests the first item, the hash of the tip block, and leaves the
others in blocksInTransit; handleBlock, when blocksInTransit is not empty, requests its head
and calls Update with the block just received on the chain that AddBlock returns, whatever
the tip of that chain is. -/
theorem GetBlockHashes_tip_first (nodeAddress addrFrom : Bytes) (bc : Blockchain) (fuel : Nat)
    (blocks : List Block) (node : Node) (mempool : GoMap Transaction)
    (hchain : chainFrom bc.Db fuel bc.Tip = some blocks) :
    bc.GetBlockHashes fuel = some (blocks.map (fun block => block.Hash)) ∧
    handleGetBlocks nodeAddress bc fuel addrFrom
      = some (addrFrom, ⟨nodeAddress, kindBlock, blocks.map (fun block => block.Hash)⟩) ∧
    linkedFrom bc bc.Tip blocks ∧
    (∃ tipBlock rest, blocks = tipBlock :: rest ∧ bc.storedBlock bc.Tip = some tipBlock ∧
      (tipBlock.PrevBlockHash.length = 0 ↔ rest = []) ∧
      handleInv node mempool ⟨nodeAddress, kindBlock, blocks.map (fun block => block.Hash)⟩
        = some (⟨node.bc, (blocks.map (fun block => block.Hash)).filter
              (fun b => decide (b ≠ tipBlock.Hash))⟩,
            [.getdata nodeAddress kindBlock tipBlock.Hash])) ∧
    (∀ last, blocks.getLast? = some last → last.PrevBlockHash.length = 0) ∧
    (∀ (n n1 : Node) (h : Bytes) (rest : List Bytes) (addr : Bytes) (block : Block)
        (reqs : List Request),
      n.blocksInTransit = h :: rest → handleBlock n addr block = some (n1, reqs) →
      reqs = [.getdata addr kindBlock h] ∧ n1.blocksInTransit = rest ∧
      ∃ bc1, n.bc.AddBlock block = some bc1 ∧ n1.bc.Tip = bc1.Tip ∧
        (UTXOSet.mk bc1).Update block = some n1.bc.Db) := by
  have hlinked := chainFrom_linked bc fuel bc.Tip blocks hchain
  have hget : bc.GetBlockHashes fuel = some (blocks.map (fun block => block.Hash)) := by
    simp [Blockchain.GetBlockHashes, hchain]
  refine ⟨hget, by simp [handleGetBlocks, hget], hlinked, ?_,
    linkedFrom_last bc blocks bc.Tip hlinked, ?_⟩
  · cases blocks with
    | nil => exact hlinked.elim
    | cons tipBlock rest =>
      have hhead := linkedFrom_head bc bc.Tip tipBlock rest hlinked
      refine ⟨tipBlock, rest, rfl, hhead.1, hhead.2, ?_⟩
      have hk : kindBlock ≠ kindTx := by decide
      simp [handleInv, hk]
  · intro n n1 h rest addr block reqs hq hb
    unfold handleBlock at hb
    cases ha : n.bc.AddBlock block with
    | none => simp [ha] at hb
    | some bc1 =>
      simp only [ha, hq] at hb
      cases hu : (UTXOSet.mk bc1).Update block with
      | none => simp [hu] at hb
      | some db =>
        simp only [hu, Option.some.injEq, Prod.mk.injEq] at hb
        obtain ⟨h1, h2⟩ := hb
        subst h1
        exact ⟨h2.symm, rfl, bc1, rfl, rfl, hu⟩

/-- Witness of C23: a node that holds the genesis block only syncs from a peer whose chain
has three blocks of heights 0, 1 and 2, each with a coinbase transaction only.  The
inventory is the tip first; the node requests the tip block, and when the block of height 1
arrives next, AddBlock leaves the tip at the block of height 2 and Update is called with the
block of height 1, which is not the tip. -/
theorem GetBlockHashes_tip_first_witness :
    chainFrom samplePeerChain.Db 3 samplePeerChain.Tip
      = some [sampleMinedBlock2, sampleMinedBlock1, sampleBlock0] ∧
    (samplePeerChain.GetBlockHashes 3 = some [[12], [11], [10]] ∧
      handleGetBlocks [2] samplePeerChain 3 [1]
        = some ([1], ⟨[2], kindBlock, [[12], [11], [10]]⟩)) ∧
    sampleMinedBlock2.Height = 2 ∧ sampleMinedBlock1.Height = 1 ∧ sampleBlock0.Height = 0 ∧
    handleInv sampleFreshNode [] ⟨[2], kindBlock, [[12], [11], [10]]⟩
      = some (⟨sampleFreshNode.bc, [[11], [10]]⟩, [.getdata [2] kindBlock [12]]) ∧
    handleBlock ⟨sampleFreshNode.bc, [[11], [10]]⟩ [2] sampleMinedBlock2
      = some (sampleFreshNodeAfter2, [.getdata [2] kindBlock [11]]) ∧
    handleBlock sampleFreshNodeAfter2 [2] sampleMinedBlock1
      = some (sampleFreshNodeAfter1, [.getdata [2] kindBlock [10]]) ∧
    (∃ bc1, sampleFreshNodeAfter2.bc.AddBlock sampleMinedBlock1 = some bc1 ∧
      bc1.Tip = sampleMinedBlock2.Hash ∧ bc1.Tip ≠ sampleMinedBlock1.Hash ∧
      bc1.storedTip = some ([12], sampleMinedBlock2) ∧
      (UTXOSet.mk bc1).Update sampleMinedBlock1 = some sampleFreshNodeAfter1.bc.Db) := by
  have hchain : chainFrom samplePeerChain.Db 3 samplePeerChain.Tip
      = some [sampleMinedBlock2, sampleMinedBlock1, sampleBlock0] := by decide
  have h := GetBlockHashes_tip_first [2] [1] samplePeerChain 3
    [sampleMinedBlock2, sampleMinedBlock1, sampleBlock0] sampleFreshNode [] hchain
  have hstep : handleBlock sampleFreshNodeAfter2 [2] sampleMinedBlock1
      = some (sampleFreshNodeAfter1, [.getdata [2] kindBlock [10]]) := rfl
  obtain ⟨_, _, bc1, hadd, htip, hupd⟩ :=
    h.2.2.2.2.2 sampleFreshNodeAfter2 sampleFreshNodeAfter1 [10] [] [2] sampleMinedBlock1
      [.getdata [2] kindBlock [10]] rfl hstep
  have hbc1 : bc1 = ⟨[12], ⟨sampleFreshNodeAfter1.bc.Db.blocks,
      sampleFreshNodeAfter2.bc.Db.utxo, sampleFreshNodeAfter2.bc.Db.utxoBlock⟩⟩ := by
    have hadd2 : sampleFreshNodeAfter2.bc.AddBlock sampleMinedBlock1
        = some ⟨[12], ⟨sampleFreshNodeAfter1.bc.Db.blocks,
            sampleFreshNodeAfter2.bc.Db.utxo, sampleFreshNodeAfter2.bc.Db.utxoBlock⟩⟩ := rfl
    rw [hadd2] at hadd
    exact (Option.some.inj hadd).symm
  refine ⟨hchain, ⟨h.1, h.2.1⟩, rfl, rfl, rfl, rfl, rfl, hstep, bc1, hadd, ?_, ?_, ?_, hupd⟩
  · rw [hbc1]; rfl
  · rw [hbc1]; decide
  · rw [hbc1]; decide

end Blockchain7
